import Mathlib

/-! go-helper: bounded-concurrency task execution (`parallel`) and slice helpers

A shallow embedding of `parallel/job.go` and `parallel/parallel.go`, and the
properties of `Run`, `job.run`, `Foreach` and `Map`; then the slice helpers of
`slice/slice.go` (package `fn`), embedded as functions on lists, Go maps being
partial functions (`fn.GoMap`).

Modelling conventions.

* A Go `error` is represented by its message: `none` is `nil`, `some msg` is an
  error whose `Error()` is `msg`.
* A task (`type Func func() error`) is a closure that may act on state shared
  with the rest of the program.  It is embedded as a function on a world `σ`
  returning the new world and the error.  A task call is one atomic step: the
  embedding assumes that a task is not nil and returns (no panic, no blocking
  forever).
* Goroutines and channels are embedded as a transition system: one step
  function per goroutine (`job.step`, `Map.step`), a buffered channel being a
  queue with its capacity, and a schedule being the list of goroutines picked
  one after the other.  A pick of a goroutine that cannot move (blocked or
  returned) is a no-op.  A send on a closed channel and a second `close` set the
  flag `crashed`, after which nothing moves.  The `go` statements are not steps:
  the goroutines exist from the initial state on.
* A property "for every schedule" is a property of `job.exec`, `Run.exec` or
  `Map.exec` for every list of picks.  Termination is stated as: the number of
  picks that move a goroutine is bounded, and when no goroutine can move the
  caller has returned (`Run.Terminates`, `Map.Terminates`).
* `time.Since(start)` is not computed: its rendering is the parameter
  `elapsed`.  `log.Println` output is not modelled.
* `defaultParallelSize = runtime.NumCPU()` is the parameter
  `defaultParallelSize`; the Go runtime returns a value `≥ 1`, which theorems on
  `Foreach` and `Map` take as the hypothesis `1 ≤ defaultParallelSize`.
* `int` values are `Int`; the code only compares them, no arithmetic that could
  overflow is done on them.  Loop indices and lengths are `Nat`.
* In `Foreach` and `Map` the loop variable `v` captured by the closures is one
  variable per iteration (Go 1.22 and later).
* In `Map` the function `fun` is a function of its argument, and the world of the
  tasks is the buffer of `respChan`.  The send `respChan <- resp` is part of the
  call of the task; `Map.Inv.resp_room` and `Map.Inv.resp_open` show that it
  finds room in the buffer and an open channel.
-/

namespace parallel

/-! ## Data model (`job.go`) -/

/-- Go `type Func func() error`, acting on a shared world `σ`. -/
abbrev Func (σ : Type) : Type := σ → σ × Option String

/-- Go `type taskDetail struct { index int; execTask Func }`. -/
structure taskDetail (σ : Type) where
  index : Nat
  execTask : Func σ

/-- Go `type failTask struct { index int; err error }`; `err` is never nil. -/
structure failTask where
  index : Nat
  err : String

/-- Go `type job struct`; the two channel fields are part of `JobState`. -/
structure job (σ : Type) where
  name : String
  task : List (Func σ)
  parallelSize : Int

/-! ## `Run`: validation and sizing (`parallel.go`) -/

/-- The local `useParallelSize` of `Run` after the two `if` statements. -/
def useParallelSize (defaultParallelSize : Int) (ntasks : Nat) (parallelSize : List Int) : Int :=
  let use0 := defaultParallelSize
  let use1 := if (ntasks : Int) < use0 then (ntasks : Int) else use0
  match parallelSize with
  | p0 :: _ => if p0 < use1 then p0 else use1
  | [] => use1

/-- What `Run` has done when it reaches `parallelJob.run()`, or why it did not. -/
inductive RunStart (σ : Type) where
  /-- One of the two early `return errors.New(...)`. -/
  | invalid (err : String)
  /-- The statement `make(chan taskDetail, useParallelSize)` with a negative size panics. -/
  | panicked
  /-- The `job` literal was built. -/
  | built (j : job σ)

/-- The body of `Run` up to the construction of `parallelJob`. -/
def Run.start {σ : Type} (defaultParallelSize : Int) (name : String) (tasks : List (Func σ))
    (parallelSize : List Int) : RunStart σ :=
  if name.length = 0 then RunStart.invalid "任务名称为空"
  else if tasks.length = 0 then RunStart.invalid "任务数量为空"
  else
    let u := useParallelSize defaultParallelSize tasks.length parallelSize
    if u < 0 then RunStart.panicked
    else RunStart.built { name := name, task := tasks, parallelSize := u }

/-! ## `job.run` as a transition system (`job.go`) -/

/-- The goroutines of one `job.run`: the dispatcher (lines 36-41), the workers
(lines 45-53), the completion watcher (lines 56-63) and the caller (lines 65-76). -/
inductive Thread where
  | dispatcher
  | worker (k : Nat)
  | watcher
  | main
  deriving DecidableEq, Repr

/-- Program point of a worker goroutine. -/
inductive WorkerState (σ : Type) where
  /-- At `for task := range j.taskChan`. -/
  | recv
  /-- Holding an envelope, about to call `task.execTask()`. -/
  | exec (td : taskDetail σ)
  /-- About to send a failure record on `j.failTaskChan`. -/
  | report (ft : failTask)
  /-- About to send on `workDoneChan`. -/
  | signal
  /-- Goroutine returned. -/
  | done

/-- Program point of the completion watcher. -/
inductive WatcherState where
  /-- In the receive loop, `i` signals received. -/
  | waiting (i : Nat)
  /-- `workDoneChan` closed, about to close `failTaskChan`. -/
  | closing
  | finished
  deriving DecidableEq, Repr

/-- State of one `job.run`.  `log` is a ghost trace of the task calls: the index
of the envelope and what the call returned, in the order of the calls. -/
structure JobState (σ : Type) where
  sent : Nat
  taskChan : List (taskDetail σ)
  taskClosed : Bool
  workers : List (WorkerState σ)
  failTaskChan : List failTask
  failClosed : Bool
  workDoneChan : Nat
  workDoneClosed : Bool
  watcher : WatcherState
  errMsg : List String
  result : Option (Option String)
  log : List (Nat × Option String)
  crashed : Bool

/-- Message of `fmt.Errorf("task %d execute failed: %w", index, err)`. -/
def wrapErr (index : Nat) (msg : String) : String :=
  "task " ++ toString index ++ " execute failed: " ++ msg

/-- Head of the aggregate message, up to and including `err:`. -/
def aggregateHead (name elapsed : String) : String :=
  "parallel job \x7b" ++ name ++ "\x7d fail ,time=" ++ elapsed ++ ",err:"

/-- Lines 70-76 of `job.run`: the value returned for the collected `errMsg`. -/
def aggregate (name elapsed : String) (errMsg : List String) : Option String :=
  if errMsg.length > 0 then
    some (aggregateHead name elapsed ++ String.intercalate "," errMsg)
  else none

/-- Capacity of `taskChan` and `workDoneChan`, and number of workers. -/
def job.cap {σ : Type} (j : job σ) : Nat := j.parallelSize.toNat

/-- State after the three `make` and the `go` statements of `job.run`. -/
def job.init {σ : Type} (j : job σ) : JobState σ :=
  { sent := 0
    taskChan := []
    taskClosed := false
    workers := List.replicate j.cap WorkerState.recv
    failTaskChan := []
    failClosed := false
    workDoneChan := 0
    workDoneClosed := false
    watcher := WatcherState.waiting 0
    errMsg := []
    result := none
    log := []
    crashed := decide (j.parallelSize < 0) }

/-- One step of the dispatcher goroutine. -/
def job.stepDispatcher {σ : Type} (j : job σ) (s : JobState σ) : Option (JobState σ) :=
  if s.taskClosed then none
  else
    match j.task[s.sent]? with
    | some f =>
      if s.taskChan.length < j.cap then
        some { s with taskChan := s.taskChan ++ [{ index := s.sent, execTask := f }]
                      sent := s.sent + 1 }
      else none
    | none => some { s with taskClosed := true }

/-- One step of worker `k`. -/
def job.stepWorker {σ : Type} (j : job σ) (k : Nat) (s : JobState σ) (w : σ) :
    Option (JobState σ × σ) :=
  match s.workers[k]? with
  | none => none
  | some WorkerState.recv =>
    match s.taskChan with
    | td :: rest =>
      some ({ s with taskChan := rest, workers := s.workers.set k (WorkerState.exec td) }, w)
    | [] =>
      if s.taskClosed then some ({ s with workers := s.workers.set k WorkerState.signal }, w)
      else none
  | some (WorkerState.exec td) =>
    match td.execTask w with
    | (w1, none) =>
      some ({ s with log := s.log ++ [(td.index, none)]
                     workers := s.workers.set k WorkerState.recv }, w1)
    | (w1, some msg) =>
      some ({ s with log := s.log ++ [(td.index, some msg)]
                     workers := s.workers.set k
                       (WorkerState.report { index := td.index, err := wrapErr td.index msg }) },
            w1)
  | some (WorkerState.report ft) =>
    if s.failClosed then some ({ s with crashed := true }, w)
    else if s.failTaskChan.length < j.task.length then
      some ({ s with failTaskChan := s.failTaskChan ++ [ft]
                     workers := s.workers.set k WorkerState.recv }, w)
    else none
  | some WorkerState.signal =>
    if s.workDoneClosed then some ({ s with crashed := true }, w)
    else if s.workDoneChan < j.cap then
      some ({ s with workDoneChan := s.workDoneChan + 1
                     workers := s.workers.set k WorkerState.done }, w)
    else none
  | some WorkerState.done => none

/-- One step of the completion watcher. -/
def job.stepWatcher {σ : Type} (j : job σ) (s : JobState σ) : Option (JobState σ) :=
  match s.watcher with
  | WatcherState.waiting i =>
    if i < j.cap then
      if 0 < s.workDoneChan then
        some { s with workDoneChan := s.workDoneChan - 1, watcher := WatcherState.waiting (i + 1) }
      else none
    else if s.workDoneClosed then some { s with crashed := true }
    else some { s with workDoneClosed := true, watcher := WatcherState.closing }
  | WatcherState.closing =>
    if s.failClosed then some { s with crashed := true }
    else some { s with failClosed := true, watcher := WatcherState.finished }
  | WatcherState.finished => none

/-- One step of the goroutine that called `run`: the drain loop and the return. -/
def job.stepMain {σ : Type} (j : job σ) (elapsed : String) (s : JobState σ) :
    Option (JobState σ) :=
  if s.result.isSome then none
  else
    match s.failTaskChan with
    | ft :: rest => some { s with failTaskChan := rest, errMsg := s.errMsg ++ [ft.err] }
    | [] =>
      if s.failClosed then some { s with result := some (aggregate j.name elapsed s.errMsg) }
      else none

/-- One step of goroutine `t`; `none` when `t` cannot move (blocked, returned,
or the program has crashed). -/
def job.step {σ : Type} (j : job σ) (elapsed : String) (t : Thread) (s : JobState σ) (w : σ) :
    Option (JobState σ × σ) :=
  if s.crashed then none
  else
    match t with
    | Thread.dispatcher => (j.stepDispatcher s).map (fun s1 => (s1, w))
    | Thread.worker k => j.stepWorker k s w
    | Thread.watcher => (j.stepWatcher s).map (fun s1 => (s1, w))
    | Thread.main => (j.stepMain elapsed s).map (fun s1 => (s1, w))

/-- Run the goroutines in the order of the schedule. -/
def job.exec {σ : Type} (j : job σ) (elapsed : String) :
    List Thread → JobState σ × σ → JobState σ × σ
  | [], c => c
  | t :: ts, c => job.exec j elapsed ts ((j.step elapsed t c.1 c.2).getD c)

/-! ## Ghost functions and the invariant of `job.run` -/

/-- Number of envelopes of index `i` held by a worker (0 or 1). -/
def WorkerState.holds {σ : Type} (i : Nat) : WorkerState σ → Nat
  | WorkerState.exec td => if td.index = i then 1 else 0
  | _ => 0

/-- Number of failure records of message `m` a worker is about to send (0 or 1). -/
def WorkerState.reports {σ : Type} (m : String) : WorkerState σ → Nat
  | WorkerState.report ft => if ft.err = m then 1 else 0
  | _ => 0

/-- One for a worker that has returned, zero otherwise. -/
def WorkerState.isDone {σ : Type} : WorkerState σ → Nat
  | WorkerState.done => 1
  | _ => 0

/-- A worker that has left its receive loop. -/
def WorkerState.late {σ : Type} : WorkerState σ → Bool
  | WorkerState.signal => true
  | WorkerState.done => true
  | _ => false

/-- Number of completion signals the watcher has received. -/
def WatcherState.got (cap : Nat) : WatcherState → Nat
  | WatcherState.waiting i => i
  | _ => cap

/-- The wrapped messages of the failed calls of a trace, in the order of the calls. -/
def logFails (log : List (Nat × Option String)) : List String :=
  log.filterMap (fun c => c.2.map (wrapErr c.1))

/-- The invariant of `job.run`: conservation of the envelopes and of the failure
records, and the protocol of the completion signals. -/
structure job.Inv {σ : Type} (j : job σ) (elapsed : String) (s : JobState σ) : Prop where
  workers_len : s.workers.length = j.cap
  sent_le : s.sent ≤ j.task.length
  closed_sent : s.taskClosed = true → s.sent = j.task.length
  chan_le : s.taskChan.length ≤ j.cap
  idx : ∀ i, (if i < s.sent then 1 else 0) =
      (s.taskChan.map taskDetail.index).count i + (s.workers.map (WorkerState.holds i)).sum
        + (s.log.map Prod.fst).count i
  chan_task : ∀ td ∈ s.taskChan, j.task[td.index]? = some td.execTask
  held_task : ∀ td, WorkerState.exec td ∈ s.workers → j.task[td.index]? = some td.execTask
  fails : ∀ m, (logFails s.log).count m =
      s.errMsg.count m + (s.failTaskChan.map failTask.err).count m
        + (s.workers.map (WorkerState.reports m)).sum
  late : ∀ ws ∈ s.workers, ws.late = true → s.taskClosed = true ∧ s.taskChan = []
  done_count : (s.workers.map WorkerState.isDone).sum = s.workDoneChan + s.watcher.got j.cap
  watch_wait : ∀ i, s.watcher = WatcherState.waiting i →
      i ≤ j.cap ∧ s.workDoneClosed = false ∧ s.failClosed = false
  watch_closing : s.watcher = WatcherState.closing →
      s.workDoneClosed = true ∧ s.failClosed = false
  watch_fin : s.watcher = WatcherState.finished → s.workDoneClosed = true ∧ s.failClosed = true
  result_eq : ∀ r, s.result = some r →
      s.failClosed = true ∧ s.failTaskChan = [] ∧ r = aggregate j.name elapsed s.errMsg
  log_src : ∀ a b, (a, b) ∈ s.log → ∃ f, j.task[a]? = some f ∧ ∃ w, (f w).2 = b
  not_crashed : s.crashed = false
  no_worker : j.cap = 0 → s.sent = 0




/-- Weight of a worker in the termination measure. -/
def WorkerState.weight {σ : Type} : WorkerState σ → Nat
  | WorkerState.recv => 4
  | WorkerState.exec _ => 7
  | WorkerState.report _ => 6
  | WorkerState.signal => 2
  | WorkerState.done => 0

/-- Weight of the watcher in the termination measure. -/
def WatcherState.weight : WatcherState → Nat
  | WatcherState.waiting _ => 2
  | WatcherState.closing => 1
  | WatcherState.finished => 0

/-- Termination measure of `job.run`: every step of a goroutine decreases it. -/
def job.measure {σ : Type} (j : job σ) (s : JobState σ) : Nat :=
  5 * (j.task.length - s.sent) + 4 * s.taskChan.length + (s.workers.map WorkerState.weight).sum
    + s.failTaskChan.length + (if s.taskClosed then 0 else 1) + s.workDoneChan + s.watcher.weight
    + (if s.result.isSome then 0 else 1)

/-- Number of picks of a schedule that moved a goroutine. -/
def job.moves {σ : Type} (j : job σ) (elapsed : String) :
    List Thread → JobState σ × σ → Nat
  | [], _ => 0
  | t :: ts, c =>
    match j.step elapsed t c.1 c.2 with
    | some c1 => job.moves j elapsed ts c1 + 1
    | none => job.moves j elapsed ts c

/-- No goroutine of the job can move. -/
def job.halted {σ : Type} (j : job σ) (elapsed : String) (c : JobState σ × σ) : Prop :=
  ∀ t, j.step elapsed t c.1 c.2 = none

/-- What task `i` of the list does on world `w`. -/
def callTask {σ : Type} (tasks : List (Func σ)) (i : Nat) (w : σ) : σ × Option String :=
  match tasks[i]? with
  | some f => f w
  | none => (w, none)

/-- Call the tasks of the given indices one after the other: the final world and the trace. -/
def replay {σ : Type} (tasks : List (Func σ)) : List Nat → σ → σ × List (Nat × Option String)
  | [], w => (w, [])
  | i :: is, w =>
    let r := callTask tasks i w
    let q := replay tasks is r.1
    (q.1, (i, r.2) :: q.2)

/-- The trace is the replay of its own indices from the initial world, and the
replay ends in the current world. -/
def job.Traced {σ : Type} (j : job σ) (w0 : σ) (c : JobState σ × σ) : Prop :=
  replay j.task (c.1.log.map Prod.fst) w0 = (c.2, c.1.log)

/-- What can be observed of one call of `Run` after a schedule: the value it
returned (`none` while it has not returned), the trace of the task calls, the
world, and whether the program panicked. -/
structure RunView (σ : Type) where
  returned : Option (Option String)
  calls : List (Nat × Option String)
  world : σ
  crashed : Bool

/-- Run `Run(name, tasks, parallelSize...)` from world `w` under a schedule of the
goroutines of its job. -/
def Run.exec {σ : Type} (defaultParallelSize : Int) (elapsed : String) (name : String)
    (tasks : List (Func σ)) (parallelSize : List Int) (sched : List Thread) (w : σ) :
    RunView σ :=
  match Run.start defaultParallelSize name tasks parallelSize with
  | RunStart.invalid e => { returned := some (some e), calls := [], world := w, crashed := false }
  | RunStart.panicked => { returned := none, calls := [], world := w, crashed := true }
  | RunStart.built j =>
    let c := j.exec elapsed sched (j.init, w)
    { returned := c.1.result, calls := c.1.log, world := c.2, crashed := c.1.crashed }

/-- After the schedule no goroutine of the call can move. -/
def Run.halted {σ : Type} (defaultParallelSize : Int) (elapsed : String) (name : String)
    (tasks : List (Func σ)) (parallelSize : List Int) (sched : List Thread) (w : σ) : Prop :=
  match Run.start defaultParallelSize name tasks parallelSize with
  | RunStart.built j => j.halted elapsed (j.exec elapsed sched (j.init, w))
  | _ => True

/-- Number of picks of the schedule that moved a goroutine of the call. -/
def Run.moves {σ : Type} (defaultParallelSize : Int) (elapsed : String) (name : String)
    (tasks : List (Func σ)) (parallelSize : List Int) (sched : List Thread) (w : σ) : Nat :=
  match Run.start defaultParallelSize name tasks parallelSize with
  | RunStart.built j => j.moves elapsed sched (j.init, w)
  | _ => 0

/-- Every schedule moves the goroutines of the call a bounded number of times, and
a schedule after which none of them can move has made the call return. -/
def Run.Terminates {σ : Type} (defaultParallelSize : Int) (elapsed : String) (name : String)
    (tasks : List (Func σ)) (parallelSize : List Int) : Prop :=
  (∀ sched w,
      Run.moves defaultParallelSize elapsed name tasks parallelSize sched w
        ≤ 9 * tasks.length + 4) ∧
  (∀ sched w, Run.halted defaultParallelSize elapsed name tasks parallelSize sched w →
      (Run.exec defaultParallelSize elapsed name tasks parallelSize sched w).returned.isSome
        = true)

/-- Placeholder for the zero value of the entries of `make([]Func, n)`; the loop
that follows overwrites every entry (`fillTasks_replicate`). -/
def nilFunc {σ : Type} : Func σ := fun w => (w, none)

/-- The loop `for i, v := range tasks { taskFunc[i] = mk(v) }` from index `i` on,
`mk v` being the closure built for the element `v` (each iteration has its own
`v`). -/
def fillTasks {T σ : Type} (mk : T → Func σ) : List T → Nat → List (Func σ) → List (Func σ)
  | [], _, taskFunc => taskFunc
  | v :: vs, i, taskFunc => fillTasks mk vs (i + 1) (taskFunc.set i (mk v))

/-- The slice `taskFunc` built by `Foreach`: entry `i` is `func() error { return fun(v) }`. -/
def Foreach.taskFunc {T σ : Type} (tasks : List T) (fn : T → Func σ) : List (Func σ) :=
  fillTasks (fun v => fun w => fn v w) tasks 0 (List.replicate tasks.length nilFunc)

/-- The local `taskName` of `Foreach`. -/
def Foreach.taskName (name : List String) : String :=
  match name with
  | n :: _ => n
  | [] => "任务"

/-- `Foreach(tasks, fun, name...)` from world `w` under a schedule. -/
def Foreach.exec {T σ : Type} (defaultParallelSize : Int) (elapsed : String) (tasks : List T)
    (fn : T → Func σ) (name : List String) (sched : List Thread) (w : σ) : RunView σ :=
  Run.exec defaultParallelSize elapsed (Foreach.taskName name) (Foreach.taskFunc tasks fn)
    [defaultParallelSize] sched w

/-- The closure built by `Map` for the element `v`; its world is the buffer of
`respChan`.  `fn` is a function of its argument. -/
def Map.task {T V : Type} (fn : T → V × Option String) (v : T) : Func (List V) :=
  fun respChan =>
    match fn v with
    | (_, some e) => (respChan, some e)
    | (resp, none) => (respChan ++ [resp], none)

/-- The slice `taskFunc` built by `Map`. -/
def Map.taskFunc {T V : Type} (tasks : List T) (fn : T → V × Option String) :
    List (Func (List V)) :=
  fillTasks (Map.task fn) tasks 0 (List.replicate tasks.length nilFunc)

/-- The name `Map` passes to `Run`: `fmt.Sprintf("并行处理 %T %s", fun, taskName)`,
`funType` being the rendering of the type of `fun`. -/
def Map.runName (funType : String) (name : List String) : String :=
  "并行处理 " ++ funType ++ " " ++
    (match name with
     | n :: _ => n
     | [] => "")

/-- Program point of the goroutine of `Map` that calls `Run`. -/
inductive RunnerState where
  /-- About to call `Run`. -/
  | calling
  /-- Inside `Run`, the job is running. -/
  | running
  /-- `err` assigned, about to run the deferred `close(respChan)`. -/
  | returned
  | finished
  deriving DecidableEq, Repr

/-- Program point of the collector goroutine of `Map`. -/
inductive CollectorState where
  /-- In `for ch := range respChan`. -/
  | collecting
  /-- At `collected <- true`, waiting for the caller. -/
  | signalling
  | finished
  deriving DecidableEq, Repr

/-- The goroutines of one call of `Map`: those of the job, the goroutine that
calls `Run`, the collector and the caller. -/
inductive MapThread where
  | job (t : Thread)
  | runner
  | collector
  | main
  deriving DecidableEq, Repr

/-- State of one call of `Map`. -/
structure MapState (V : Type) where
  run : Option (job (List V) × JobState (List V))
  respChan : List V
  respClosed : Bool
  runner : RunnerState
  err : Option String
  res : List V
  collector : CollectorState
  ret : Option (List V × Option String)
  crashed : Bool

/-- State of `Map` after the two `go` statements. -/
def Map.init {V : Type} : MapState V :=
  { run := none
    respChan := []
    respClosed := false
    runner := RunnerState.calling
    err := none
    res := []
    collector := CollectorState.collecting
    ret := none
    crashed := false }

/-- A goroutine of the job has panicked. -/
def MapState.jobCrashed {V : Type} (s : MapState V) : Bool :=
  match s.run with
  | some (_, js) => js.crashed
  | none => false

/-- One step of the goroutine that calls `Run`. -/
def Map.stepRunner {T V : Type} (defaultParallelSize : Int) (funType : String)
    (tasks : List T) (fn : T → V × Option String) (name : List String) (s : MapState V) :
    Option (MapState V) :=
  match s.runner with
  | RunnerState.calling =>
    match Run.start defaultParallelSize (Map.runName funType name) (Map.taskFunc tasks fn)
        [defaultParallelSize] with
    | RunStart.invalid e => some { s with err := some e, runner := RunnerState.returned }
    | RunStart.panicked => some { s with crashed := true }
    | RunStart.built j => some { s with run := some (j, j.init), runner := RunnerState.running }
  | RunnerState.running =>
    match s.run with
    | some (_, js) =>
      match js.result with
      | some r => some { s with err := r, runner := RunnerState.returned }
      | none => none
    | none => none
  | RunnerState.returned =>
    if s.respClosed then some { s with crashed := true }
    else some { s with respClosed := true, runner := RunnerState.finished }
  | RunnerState.finished => none

/-- One step of the collector goroutine. -/
def Map.stepCollector {V : Type} (s : MapState V) : Option (MapState V) :=
  match s.collector with
  | CollectorState.collecting =>
    match s.respChan with
    | ch :: rest => some { s with respChan := rest, res := s.res ++ [ch] }
    | [] => if s.respClosed then some { s with collector := CollectorState.signalling } else none
  | _ => none

/-- One step of the caller of `Map`: `<-collected` (a rendezvous with the
collector) and `return`. -/
def Map.stepMain {V : Type} (s : MapState V) : Option (MapState V) :=
  if s.ret.isSome then none
  else
    match s.collector with
    | CollectorState.signalling =>
      some { s with collector := CollectorState.finished, ret := some (s.res, s.err) }
    | _ => none

/-- One step of goroutine `t` of a call of `Map`. -/
def Map.step {T V : Type} (defaultParallelSize : Int) (elapsed funType : String)
    (tasks : List T) (fn : T → V × Option String) (name : List String) (t : MapThread)
    (s : MapState V) : Option (MapState V) :=
  if s.crashed || s.jobCrashed then none
  else
    match t with
    | MapThread.job t1 =>
      match s.run with
      | some (j, js) =>
        (j.step elapsed t1 js s.respChan).map
          (fun c => { s with run := some (j, c.1), respChan := c.2 })
      | none => none
    | MapThread.runner => Map.stepRunner defaultParallelSize funType tasks fn name s
    | MapThread.collector => Map.stepCollector s
    | MapThread.main => Map.stepMain s

/-- Run the goroutines of `Map(tasks, fun, name...)` in the order of the schedule. -/
def Map.exec {T V : Type} (defaultParallelSize : Int) (elapsed funType : String)
    (tasks : List T) (fn : T → V × Option String) (name : List String) :
    List MapThread → MapState V → MapState V
  | [], s => s
  | t :: ts, s =>
    Map.exec defaultParallelSize elapsed funType tasks fn name ts
      ((Map.step defaultParallelSize elapsed funType tasks fn name t s).getD s)

/-- Number of picks of a schedule that moved a goroutine of `Map`. -/
def Map.moves {T V : Type} (defaultParallelSize : Int) (elapsed funType : String)
    (tasks : List T) (fn : T → V × Option String) (name : List String) :
    List MapThread → MapState V → Nat
  | [], _ => 0
  | t :: ts, s =>
    match Map.step defaultParallelSize elapsed funType tasks fn name t s with
    | some s1 => Map.moves defaultParallelSize elapsed funType tasks fn name ts s1 + 1
    | none => Map.moves defaultParallelSize elapsed funType tasks fn name ts s

/-- No goroutine of the call of `Map` can move. -/
def Map.halted {T V : Type} (defaultParallelSize : Int) (elapsed funType : String)
    (tasks : List T) (fn : T → V × Option String) (name : List String) (s : MapState V) : Prop :=
  ∀ t, Map.step defaultParallelSize elapsed funType tasks fn name t s = none

/-- The value `fun` produces for an element, when it succeeds. -/
def Map.okValue {T V : Type} (fn : T → V × Option String) (x : T) : Option V :=
  match fn x with
  | (v, none) => some v
  | (_, some _) => none

/-- The value pushed on `respChan` by the task of index `i`, if it pushes one. -/
def Map.valueAt {T V : Type} (tasks : List T) (fn : T → V × Option String) (i : Nat) :
    Option V :=
  match tasks[i]? with
  | some x => Map.okValue fn x
  | none => none

/-- The values pushed on `respChan` by the calls of a trace, in the order of the calls. -/
def Map.vals {T V : Type} (tasks : List T) (fn : T → V × Option String)
    (log : List (Nat × Option String)) : List V :=
  (log.map Prod.fst).filterMap (Map.valueAt tasks fn)

/-- Weight of the runner goroutine in the termination measure of `Map`. -/
def RunnerState.weight : RunnerState → Nat
  | RunnerState.calling => 3
  | RunnerState.running => 2
  | RunnerState.returned => 1
  | RunnerState.finished => 0

/-- Weight of the collector goroutine in the termination measure of `Map`. -/
def CollectorState.weight : CollectorState → Nat
  | CollectorState.collecting => 2
  | CollectorState.signalling => 1
  | CollectorState.finished => 0

/-- Termination measure of `Map` for `n` elements. -/
def MapState.measure {V : Type} (n : Nat) (s : MapState V) : Nat :=
  (match s.run with
   | some (j, js) => 2 * j.measure js
   | none => 2 * (9 * n + 4) + 1)
    + s.respChan.length + s.runner.weight + s.collector.weight
    + (if s.ret.isSome then 0 else 1)

/-- The invariant of a call of `Map`. -/
structure Map.Inv {T V : Type} (d : Int) (elapsed funType : String) (tasks : List T)
    (fn : T → V × Option String) (name : List String) (s : MapState V) : Prop where
  not_crashed : s.crashed = false
  run_inv : ∀ j js, s.run = some (j, js) →
    Run.start d (Map.runName funType name) (Map.taskFunc tasks fn) [d] = RunStart.built j ∧
      j.Inv elapsed js ∧ s.res ++ s.respChan = Map.vals tasks fn js.log
  run_none : s.run = none → s.respChan = [] ∧ s.res = []
  calling : s.runner = RunnerState.calling → s.run = none
  running : s.runner = RunnerState.running → s.run.isSome = true
  after_none : s.runner = RunnerState.returned ∨ s.runner = RunnerState.finished →
    s.run = none →
    ∃ e, Run.start d (Map.runName funType name) (Map.taskFunc tasks fn) [d]
      = RunStart.invalid e ∧ s.err = some e
  after_some : s.runner = RunnerState.returned ∨ s.runner = RunnerState.finished →
    ∀ j js, s.run = some (j, js) → js.result = some s.err
  closed_iff : s.respClosed = true ↔ s.runner = RunnerState.finished
  collected : s.collector ≠ CollectorState.collecting →
    s.respClosed = true ∧ s.respChan = []
  ret_eq : ∀ r e, s.ret = some (r, e) →
    r = s.res ∧ e = s.err ∧ s.collector = CollectorState.finished
  coll_fin : s.collector = CollectorState.finished → s.ret.isSome = true

/-- Every schedule moves the goroutines of a call of `Map` a bounded number of
times, and a schedule after which none of them can move has made `Map` return. -/
def Map.Terminates {T V : Type} (defaultParallelSize : Int) (elapsed funType : String)
    (tasks : List T) (fn : T → V × Option String) (name : List String) : Prop :=
  (∀ sched, Map.moves defaultParallelSize elapsed funType tasks fn name sched
      (Map.init : MapState V) ≤ 18 * tasks.length + 15) ∧
  (∀ sched, Map.halted defaultParallelSize elapsed funType tasks fn name
      (Map.exec defaultParallelSize elapsed funType tasks fn name sched
        (Map.init : MapState V)) →
    (Map.exec defaultParallelSize elapsed funType tasks fn name sched
        (Map.init : MapState V)).ret.isSome = true)

/-- Index of the envelope a worker holds, if it holds one. -/
def WorkerState.heldIndex {σ : Type} : WorkerState σ → Option Nat
  | WorkerState.exec td => some td.index
  | _ => none

/-- Message of the failure record a worker is about to send, if any. -/
def WorkerState.pending {σ : Type} : WorkerState σ → Option String
  | WorkerState.report ft => some ft.err
  | _ => none

/-- A job of two failing tasks and two workers. -/
def job.exampleJob : job Nat :=
  { name := "job"
    task := [fun w => (w + 1, some "a"), fun w => (w + 1, some "b")]
    parallelSize := 2 }

/-- A schedule of `job.exampleJob` that runs it to its return and in which the
failure of the second task is reported before the failure of the first. -/
def job.exampleSchedule : List Thread :=
  [Thread.dispatcher, Thread.dispatcher, Thread.dispatcher, Thread.worker 0, Thread.worker 1,
   Thread.worker 1, Thread.worker 1, Thread.worker 0, Thread.worker 0, Thread.worker 0,
   Thread.worker 0, Thread.worker 1, Thread.worker 1, Thread.watcher, Thread.watcher,
   Thread.watcher, Thread.watcher, Thread.main, Thread.main, Thread.main]

/-- A schedule of `Map` on two elements with two workers in which the second task
is called before the first. -/
def Map.exampleSchedule : List MapThread :=
  [MapThread.runner, MapThread.job Thread.dispatcher, MapThread.job Thread.dispatcher,
   MapThread.job Thread.dispatcher, MapThread.job (Thread.worker 0),
   MapThread.job (Thread.worker 1), MapThread.job (Thread.worker 1),
   MapThread.job (Thread.worker 0), MapThread.job (Thread.worker 0),
   MapThread.job (Thread.worker 0), MapThread.job (Thread.worker 0),
   MapThread.job (Thread.worker 0), MapThread.job (Thread.worker 1),
   MapThread.job (Thread.worker 1), MapThread.job (Thread.worker 1),
   MapThread.job Thread.watcher, MapThread.job Thread.watcher, MapThread.job Thread.watcher,
   MapThread.job Thread.watcher, MapThread.job Thread.main, MapThread.job Thread.main,
   MapThread.runner, MapThread.runner, MapThread.collector, MapThread.collector,
   MapThread.collector, MapThread.main]

end parallel

/-! ## The slice helpers (`slice/slice.go`, package `fn`) -/

namespace fn

/-- A Go `map[K]V` as a finite partial function: `m k = none` when `k` is not a
key.  The slice functions only look keys up, set them and delete them; they do
not range over a map. -/
abbrev GoMap (K V : Type) : Type := K → Option V

/-- Result of `make(map[K]V, n)`: no key. -/
def GoMap.empty {K V : Type} : GoMap K V := fun _ => none

/-- The map after `m[k] = v`. -/
def GoMap.set {K V : Type} [DecidableEq K] (m : GoMap K V) (k : K) (v : V) : GoMap K V :=
  fun x => if x = k then some v else m x

/-- The map after `delete(m, k)`. -/
def GoMap.delete {K V : Type} [DecidableEq K] (m : GoMap K V) (k : K) : GoMap K V :=
  fun x => if x = k then none else m x

/-- The `ok` of `_, ok := m[k]`. -/
def GoMap.has {K V : Type} (m : GoMap K V) (k : K) : Bool := (m k).isSome

/-- The loop of `Unique`: `tmpMap` is only read, `result` grows. -/
def Unique.loop {V : Type} (tmpMap : GoMap V Int) : List V → List V → List V
  | [], result => result
  | v :: rest, result =>
    if !tmpMap.has v then Unique.loop tmpMap rest (result ++ [v])
    else Unique.loop tmpMap rest result

/-- Go `func Unique[V comparable](list []V) []V`. -/
def Unique {V : Type} (list : List V) : List V :=
  Unique.loop GoMap.empty list []

/-- Go `func Contains[T comparable](slice []T, target T) bool`. -/
def Contains {T : Type} [DecidableEq T] : List T → T → Bool
  | [], _ => false
  | item :: rest, target => if item = target then true else Contains rest target

/-- The first loop of `ContainsAll` and of `Intersection`: `m[v] = struct{}{}` for
every `v` of the slice. -/
def fillSet {T : Type} [DecidableEq T] : List T → GoMap T Unit → GoMap T Unit
  | [], m => m
  | v :: rest, m => fillSet rest (m.set v ())

/-- The second loop of `ContainsAll`, with its early `return false`. -/
def ContainsAll.check {T : Type} (parentMap : GoMap T Unit) : List T → Bool
  | [] => true
  | v :: rest => if !parentMap.has v then false else ContainsAll.check parentMap rest

/-- Go `func ContainsAll[T comparable](parent, child []T) bool`. -/
def ContainsAll {T : Type} [DecidableEq T] (parent child : List T) : Bool :=
  if child.length = 0 then true
  else if parent.length < child.length then false
  else ContainsAll.check (fillSet parent GoMap.empty) child

/-- The second loop of `Intersection`. -/
def Intersection.loop {T : Type} [DecidableEq T] :
    List T → GoMap T Unit → List T → List T
  | [], _, intersection => intersection
  | v :: rest, elementMap, intersection =>
    if elementMap.has v then
      Intersection.loop rest (elementMap.delete v) (intersection ++ [v])
    else Intersection.loop rest elementMap intersection

/-- Go `func Intersection[T comparable](a, b []T) []T`. -/
def Intersection {T : Type} [DecidableEq T] (a b : List T) : List T :=
  Intersection.loop b (fillSet a GoMap.empty) []

/-- The loop of `Filter` and of `FindAll`. -/
def Filter.loop {T : Type} (filterFunc : T → Bool) : List T → List T → List T
  | [], result => result
  | item :: rest, result =>
    if filterFunc item then Filter.loop filterFunc rest (result ++ [item])
    else Filter.loop filterFunc rest result

/-- Go `func Filter[T any](slice []T, filterFunc func(item T) bool) []T`. -/
def Filter {T : Type} (slice : List T) (filterFunc : T → Bool) : List T :=
  Filter.loop filterFunc slice []

/-- Go `func Find[T any](slice []T, matchFunc func(item T) bool) (res T, found bool)`;
`default` is the zero value of `T`. -/
def Find {T : Type} [Inhabited T] : List T → (T → Bool) → T × Bool
  | [], _ => (default, false)
  | item :: rest, matchFunc => if matchFunc item then (item, true) else Find rest matchFunc

/-- Go `func FindAll[T any](slice []T, matchFunc func(item T) bool) ([]T, bool)`. -/
def FindAll {T : Type} (slice : List T) (matchFunc : T → Bool) : List T × Bool :=
  let result := Filter.loop matchFunc slice []
  (result, decide (result.length > 0))

/-- The loop of `GroupToMap`: `groupMap[key] = append(groupMap[key], item)`; a
missing key reads as the nil slice. -/
def GroupToMap.loop {K V : Type} [DecidableEq K] (keyFunc : V → K) :
    List V → GoMap K (List V) → GoMap K (List V)
  | [], groupMap => groupMap
  | item :: rest, groupMap =>
    let key := keyFunc item
    GroupToMap.loop keyFunc rest (groupMap.set key ((groupMap key).getD [] ++ [item]))

/-- Go `func GroupToMap[K comparable, V any, List ~[]V](list List, keyFunc func(V) K) map[K]List`. -/
def GroupToMap {K V : Type} [DecidableEq K] (list : List V) (keyFunc : V → K) :
    GoMap K (List V) :=
  GroupToMap.loop keyFunc list GoMap.empty

/-- The loop of `AddIfNotExist`: the test is on `list`, the append on `res`. -/
def AddIfNotExist.loop {T : Type} [DecidableEq T] (list : List T) : List T → List T → List T
  | [], res => res
  | item :: rest, res =>
    if !Contains list item then AddIfNotExist.loop list rest (res ++ [item])
    else AddIfNotExist.loop list rest res

/-- Go `func AddIfNotExist[T comparable](list []T, elem ...T) (res []T)`. -/
def AddIfNotExist {T : Type} [DecidableEq T] (list : List T) (elem : List T) : List T :=
  if elem.length = 0 then list
  else AddIfNotExist.loop list elem list

end fn

namespace parallel

/-! ## Lemmas on the invariant -/

theorem sum_map_set {α : Type} (f : α → Nat) :
    ∀ (l : List α) (k : Nat) (a b : α), l[k]? = some a →
      ((l.set k b).map f).sum + f a = (l.map f).sum + f b
  | [], k, a, b, h => by simp at h
  | x :: l, 0, a, b, h => by
    simp at h
    subst h
    simp [List.set]
    omega
  | x :: l, k + 1, a, b, h => by
    simp at h
    have ih := sum_map_set f l k a b (by simpa using h)
    simp only [List.set, List.map_cons, List.sum_cons]
    omega


theorem sum_le_length {α : Type} (f : α → Nat) (hf : ∀ x, f x ≤ 1) :
    ∀ (l : List α), (l.map f).sum ≤ l.length
  | [] => by simp
  | x :: l => by
    have := sum_le_length f hf l
    have := hf x
    simp only [List.map_cons, List.sum_cons, List.length_cons]
    omega

theorem sum_lt_length {α : Type} (f : α → Nat) (hf : ∀ x, f x ≤ 1) :
    ∀ (l : List α) (k : Nat) (a : α), l[k]? = some a →
      (l.map f).sum + 1 ≤ l.length + f a
  | [], k, a, h => by simp at h
  | x :: l, 0, a, h => by
    simp at h
    subst h
    have := sum_le_length f hf l
    simp only [List.map_cons, List.sum_cons, List.length_cons]
    omega
  | x :: l, k + 1, a, h => by
    have ih := sum_lt_length f hf l k a (by simpa using h)
    have := hf x
    simp only [List.map_cons, List.sum_cons, List.length_cons]
    omega

theorem job.Inv.init {σ : Type} (j : job σ) (elapsed : String) (h : 0 ≤ j.parallelSize) :
    j.Inv elapsed j.init := by
  constructor <;>
    simp [job.init, logFails, WatcherState.got, WorkerState.late, WorkerState.holds,
      WorkerState.reports, WorkerState.isDone, h]


theorem job.Inv.stepDispatcher {σ : Type} {j : job σ} {elapsed : String} {s s1 : JobState σ}
    (hI : j.Inv elapsed s) (h : j.stepDispatcher s = some s1) : j.Inv elapsed s1 := by
  obtain ⟨wl, sl, cs, cl, ix, ct, ht, fl, lt, dc, ww, wc, wf, re, ls, nc, nw⟩ := hI
  unfold job.stepDispatcher at h
  split at h
  · simp at h
  · rename_i hc
    split at h
    · rename_i f hf
      split at h
      · rename_i hlen
        simp at h
        subst h
        have hlt : s.sent < j.task.length := by
          rcases Nat.lt_or_ge s.sent j.task.length with h1 | h1
          · exact h1
          · rw [List.getElem?_eq_none h1] at hf; simp at hf
        constructor
        all_goals simp
        all_goals try assumption
        case closed_sent => intro h1; simp [h1] at hc
        case idx =>
          intro i
          have := ix i
          rw [List.count_singleton]
          by_cases h1 : i = s.sent
          · subst h1; simp at this ⊢; omega
          · have h2 : ¬ (s.sent = i) := fun h => h1 h.symm
            simp [h2]
            split <;> split at this <;> omega
        case chan_task =>
          rintro td (h1 | rfl)
          · exact ct td h1
          · exact hf
        case late =>
          intro ws hws
          cases hl : ws.late
          · rfl
          · exact absurd (lt ws hws hl).1 hc
        case no_worker => omega
      · simp at h
    · rename_i hn
      simp at h
      subst h
      constructor
      all_goals simp
      all_goals try assumption
      case closed_sent =>
        have := List.getElem?_eq_none_iff.mp hn
        omega
      case late => intro ws hws hl; exact (lt ws hws hl).2



theorem job.Inv.stepWatcher {σ : Type} {j : job σ} {elapsed : String} {s s1 : JobState σ}
    (hI : j.Inv elapsed s) (h : j.stepWatcher s = some s1) : j.Inv elapsed s1 := by
  obtain ⟨wl, sl, cs, cl, ix, ct, ht, fl, lt, dc, ww, wc, wf, re, ls, nc, nw⟩ := hI
  unfold job.stepWatcher at h
  split at h
  · rename_i i hw
    obtain ⟨hi, hwd, hfc⟩ := ww i hw
    split at h
    · split at h
      · simp at h
        subst h
        constructor
        all_goals simp
        all_goals try assumption
        case done_count => simp [WatcherState.got, hw] at dc ⊢; omega
        case watch_wait => exact ⟨by omega, hwd, hfc⟩
      · simp at h
    · simp [hwd] at h
      subst h
      constructor
      all_goals simp
      all_goals try assumption
      case done_count => simp [WatcherState.got, hw] at dc ⊢; omega
  · rename_i hw
    obtain ⟨hwd, hfc⟩ := wc hw
    simp [hfc] at h
    subst h
    constructor
    all_goals simp
    all_goals try assumption
    case done_count => simp [WatcherState.got, hw] at dc ⊢; omega
    case result_eq =>
      intro r hr
      have := (re r hr).1
      simp [hfc] at this
  · simp at h

theorem job.Inv.stepMain {σ : Type} {j : job σ} {elapsed : String} {s s1 : JobState σ}
    (hI : j.Inv elapsed s) (h : j.stepMain elapsed s = some s1) : j.Inv elapsed s1 := by
  obtain ⟨wl, sl, cs, cl, ix, ct, ht, fl, lt, dc, ww, wc, wf, re, ls, nc, nw⟩ := hI
  unfold job.stepMain at h
  split at h
  · simp at h
  · rename_i hr
    split at h
    · rename_i ft rest hch
      simp at h
      subst h
      constructor
      all_goals simp
      all_goals try assumption
      case fails =>
        intro m
        have := fl m
        simp [hch, List.count_cons, List.count_singleton] at this ⊢
        omega
      case result_eq =>
        intro r h
        simp [h] at hr
    · rename_i hch
      split at h
      · rename_i hfc
        simp at h
        subst h
        constructor
        all_goals simp
        all_goals try assumption
        case result_eq => exact ⟨hfc, hch⟩
      · simp at h



theorem job.Inv.stepWorker {σ : Type} {j : job σ} {elapsed : String} {s s1 : JobState σ}
    {k : Nat} {w w1 : σ}
    (hI : j.Inv elapsed s) (h : j.stepWorker k s w = some (s1, w1)) : j.Inv elapsed s1 := by
  obtain ⟨wl, sl, cs, cl, ix, ct, ht, fl, lt, dc, ww, wc, wf, re, ls, nc, nw⟩ := hI
  unfold job.stepWorker at h
  split at h
  · simp at h
  · rename_i hk
    have hmem := List.getElem?_mem hk
    have hH := fun i b => sum_map_set (WorkerState.holds i) s.workers k _ b hk
    have hR := fun m b => sum_map_set (WorkerState.reports m) s.workers k _ b hk
    have hD := fun b => sum_map_set WorkerState.isDone s.workers k _ b hk
    split at h
    · rename_i td rest hch
      simp only [Option.some.injEq, Prod.mk.injEq] at h
      obtain ⟨h, -⟩ := h
      subst h
      constructor
      all_goals dsimp only
      all_goals try assumption
      case workers_len => rw [List.length_set]; exact wl
      case chan_le => rw [hch] at cl; simp at cl; omega
      case idx =>
        intro i
        have h1 := ix i
        have h2 := hH i (WorkerState.exec td)
        simp only [hch, List.map_cons, List.count_cons, WorkerState.holds, beq_iff_eq] at h1 h2
        split_ifs at h1 h2 ⊢ <;> omega
      case chan_task => intro x hx; exact ct x (by rw [hch]; exact List.mem_cons_of_mem _ hx)
      case held_task =>
        intro x hx
        rcases List.mem_or_eq_of_mem_set hx with h1 | h1
        · exact ht x h1
        · cases h1; exact ct _ (by rw [hch]; exact List.mem_cons_self _ _)
      case fails =>
        intro m
        have h1 := fl m
        have h2 := hR m (WorkerState.exec td)
        simp only [WorkerState.reports] at h2
        omega
      case late =>
        intro x hx hl
        rcases List.mem_or_eq_of_mem_set hx with h1 | h1
        · have := (lt x h1 hl).2
          simp [hch] at this
        · subst h1; simp [WorkerState.late] at hl
      case done_count =>
        have h2 := hD (WorkerState.exec td)
        simp only [WorkerState.isDone] at h2
        omega
    · rename_i hch
      split at h
      · rename_i htc
        simp only [Option.some.injEq, Prod.mk.injEq] at h
        obtain ⟨h, -⟩ := h
        subst h
        constructor
        all_goals dsimp only
        all_goals try assumption
        case workers_len => rw [List.length_set]; exact wl
        case idx =>
          intro i
          have h1 := ix i
          have h2 := hH i WorkerState.signal
          simp only [WorkerState.holds] at h2
          omega
        case held_task =>
          intro x hx
          rcases List.mem_or_eq_of_mem_set hx with h1 | h1
          · exact ht x h1
          · cases h1
        case fails =>
          intro m
          have h1 := fl m
          have h2 := hR m WorkerState.signal
          simp only [WorkerState.reports] at h2
          omega
        case late => intro x hx hl; exact ⟨htc, hch⟩
        case done_count =>
          have h2 := hD WorkerState.signal
          simp only [WorkerState.isDone] at h2
          omega
      · simp at h
  · rename_i td hk
    have hmem := List.getElem?_mem hk
    have hH := fun i b => sum_map_set (WorkerState.holds i) s.workers k _ b hk
    have hR := fun m b => sum_map_set (WorkerState.reports m) s.workers k _ b hk
    have hD := fun b => sum_map_set WorkerState.isDone s.workers k _ b hk
    split at h
    · rename_i w2 heq
      simp only [Option.some.injEq, Prod.mk.injEq] at h
      obtain ⟨h, -⟩ := h
      subst h
      constructor
      all_goals dsimp only
      all_goals try assumption
      case workers_len => rw [List.length_set]; exact wl
      case idx =>
        intro i
        have h1 := ix i
        have h2 := hH i WorkerState.recv
        simp only [List.map_append, List.count_append, List.map_cons, List.map_nil,
          List.count_singleton, WorkerState.holds, beq_iff_eq] at h1 h2 ⊢
        split_ifs at h1 h2 ⊢ <;> omega
      case held_task =>
        intro x hx
        rcases List.mem_or_eq_of_mem_set hx with h1 | h1
        · exact ht x h1
        · cases h1
      case fails =>
        intro m
        have h1 := fl m
        have h2 := hR m WorkerState.recv
        simp only [WorkerState.reports, logFails, List.filterMap_append, List.filterMap_cons,
          List.filterMap_nil, Option.map_none', List.append_nil] at h1 h2 ⊢
        omega
      case late =>
        intro x hx hl
        rcases List.mem_or_eq_of_mem_set hx with h1 | h1
        · exact lt x h1 hl
        · subst h1; simp [WorkerState.late] at hl
      case done_count =>
        have h2 := hD WorkerState.recv
        simp only [WorkerState.isDone] at h2
        omega
      case log_src =>
        intro a b hab
        rcases List.mem_append.mp hab with h1 | h1
        · exact ls a b h1
        · simp only [List.mem_singleton, Prod.mk.injEq] at h1
          obtain ⟨rfl, rfl⟩ := h1
          exact ⟨td.execTask, ht td hmem, w, by rw [heq]⟩
    · rename_i w2 msg heq
      simp only [Option.some.injEq, Prod.mk.injEq] at h
      obtain ⟨h, -⟩ := h
      subst h
      constructor
      all_goals dsimp only
      all_goals try assumption
      case workers_len => rw [List.length_set]; exact wl
      case idx =>
        intro i
        have h1 := ix i
        have h2 := hH i (WorkerState.report { index := td.index, err := wrapErr td.index msg })
        simp only [List.map_append, List.count_append, List.map_cons, List.map_nil,
          List.count_singleton, WorkerState.holds, beq_iff_eq] at h1 h2 ⊢
        split_ifs at h1 h2 ⊢ <;> omega
      case held_task =>
        intro x hx
        rcases List.mem_or_eq_of_mem_set hx with h1 | h1
        · exact ht x h1
        · cases h1
      case fails =>
        intro m
        have h1 := fl m
        have h2 := hR m (WorkerState.report { index := td.index, err := wrapErr td.index msg })
        simp only [WorkerState.reports, logFails, List.filterMap_append, List.filterMap_cons,
          List.filterMap_nil, Option.map_some', List.count_append, List.count_singleton,
          beq_iff_eq] at h1 h2 ⊢
        split_ifs at h1 h2 ⊢ <;> omega
      case late =>
        intro x hx hl
        rcases List.mem_or_eq_of_mem_set hx with h1 | h1
        · exact lt x h1 hl
        · subst h1; simp [WorkerState.late] at hl
      case done_count =>
        have h2 := hD (WorkerState.report { index := td.index, err := wrapErr td.index msg })
        simp only [WorkerState.isDone] at h2
        omega
      case log_src =>
        intro a b hab
        rcases List.mem_append.mp hab with h1 | h1
        · exact ls a b h1
        · simp only [List.mem_singleton, Prod.mk.injEq] at h1
          obtain ⟨rfl, rfl⟩ := h1
          exact ⟨td.execTask, ht td hmem, w, by rw [heq]⟩
  · rename_i ft hk
    have hmem := List.getElem?_mem hk
    have hH := fun i b => sum_map_set (WorkerState.holds i) s.workers k _ b hk
    have hR := fun m b => sum_map_set (WorkerState.reports m) s.workers k _ b hk
    have hD := fun b => sum_map_set WorkerState.isDone s.workers k _ b hk
    have hlt := sum_lt_length WorkerState.isDone
      (fun x => by cases x <;> simp [WorkerState.isDone]) s.workers k _ hk
    have hfc : s.failClosed = false := by
      cases hw : s.watcher with
      | waiting i => exact (ww i hw).2.2
      | closing => exact (wc hw).2
      | finished =>
        simp only [hw, WatcherState.got, WorkerState.isDone] at dc hlt
        omega
    rw [if_neg (by simp [hfc])] at h
    split at h
    · simp only [Option.some.injEq, Prod.mk.injEq] at h
      obtain ⟨h, -⟩ := h
      subst h
      constructor
      all_goals dsimp only
      all_goals try assumption
      case workers_len => rw [List.length_set]; exact wl
      case idx =>
        intro i
        have h1 := ix i
        have h2 := hH i WorkerState.recv
        simp only [WorkerState.holds] at h2
        omega
      case held_task =>
        intro x hx
        rcases List.mem_or_eq_of_mem_set hx with h1 | h1
        · exact ht x h1
        · cases h1
      case fails =>
        intro m
        have h1 := fl m
        have h2 := hR m WorkerState.recv
        simp only [WorkerState.reports, List.map_append, List.count_append, List.map_cons,
          List.map_nil, List.count_singleton, beq_iff_eq] at h1 h2 ⊢
        split_ifs at h1 h2 ⊢ <;> omega
      case late =>
        intro x hx hl
        rcases List.mem_or_eq_of_mem_set hx with h1 | h1
        · exact lt x h1 hl
        · subst h1; simp [WorkerState.late] at hl
      case done_count =>
        have h2 := hD WorkerState.recv
        simp only [WorkerState.isDone] at h2
        omega
      case result_eq =>
        intro r hr
        have := (re r hr).1
        simp [hfc] at this
    · simp at h
  · rename_i hk
    have hmem := List.getElem?_mem hk
    have hH := fun i b => sum_map_set (WorkerState.holds i) s.workers k _ b hk
    have hR := fun m b => sum_map_set (WorkerState.reports m) s.workers k _ b hk
    have hD := fun b => sum_map_set WorkerState.isDone s.workers k _ b hk
    have hlt := sum_lt_length WorkerState.isDone
      (fun x => by cases x <;> simp [WorkerState.isDone]) s.workers k _ hk
    have hwd : s.workDoneClosed = false := by
      cases hw : s.watcher with
      | waiting i => exact (ww i hw).2.1
      | closing =>
        simp only [hw, WatcherState.got, WorkerState.isDone] at dc hlt
        omega
      | finished =>
        simp only [hw, WatcherState.got, WorkerState.isDone] at dc hlt
        omega
    rw [if_neg (by simp [hwd])] at h
    split at h
    · simp only [Option.some.injEq, Prod.mk.injEq] at h
      obtain ⟨h, -⟩ := h
      subst h
      constructor
      all_goals dsimp only
      all_goals try assumption
      case workers_len => rw [List.length_set]; exact wl
      case idx =>
        intro i
        have h1 := ix i
        have h2 := hH i WorkerState.done
        simp only [WorkerState.holds] at h2
        omega
      case held_task =>
        intro x hx
        rcases List.mem_or_eq_of_mem_set hx with h1 | h1
        · exact ht x h1
        · cases h1
      case fails =>
        intro m
        have h1 := fl m
        have h2 := hR m WorkerState.done
        simp only [WorkerState.reports] at h2
        omega
      case late =>
        intro x hx hl
        exact lt _ hmem (by simp [WorkerState.late])
      case done_count =>
        have h2 := hD WorkerState.done
        simp only [WorkerState.isDone] at h2
        omega
    · simp at h
  · simp at h

theorem job.Inv.step {σ : Type} {j : job σ} {elapsed : String} {s s1 : JobState σ}
    {t : Thread} {w w1 : σ}
    (hI : j.Inv elapsed s) (h : j.step elapsed t s w = some (s1, w1)) : j.Inv elapsed s1 := by
  unfold job.step at h
  split at h
  · simp at h
  · cases t with
    | dispatcher =>
      simp only [Option.map_eq_some', Prod.mk.injEq] at h
      obtain ⟨a, ha, rfl, -⟩ := h
      exact hI.stepDispatcher ha
    | worker k => exact hI.stepWorker h
    | watcher =>
      simp only [Option.map_eq_some', Prod.mk.injEq] at h
      obtain ⟨a, ha, rfl, -⟩ := h
      exact hI.stepWatcher ha
    | main =>
      simp only [Option.map_eq_some', Prod.mk.injEq] at h
      obtain ⟨a, ha, rfl, -⟩ := h
      exact hI.stepMain ha

theorem job.Inv.exec {σ : Type} {j : job σ} {elapsed : String} :
    ∀ (sched : List Thread) (c : JobState σ × σ), j.Inv elapsed c.1 →
      j.Inv elapsed (j.exec elapsed sched c).1
  | [], c, h => h
  | t :: ts, c, h => by
    unfold job.exec
    apply job.Inv.exec ts
    cases hs : j.step elapsed t c.1 c.2 with
    | none => simpa using h
    | some c1 =>
      obtain ⟨a, b⟩ := c1
      exact h.step hs

theorem job.step_frame {σ : Type} {j : job σ} {elapsed : String} {s s1 : JobState σ}
    {t : Thread} {w w1 : σ} (h : j.step elapsed t s w = some (s1, w1)) :
    (s1.log = s.log ∧ w1 = w) ∨
      ∃ td, WorkerState.exec td ∈ s.workers ∧
        s1.log = s.log ++ [(td.index, (td.execTask w).2)] ∧ w1 = (td.execTask w).1 := by
  unfold job.step at h
  split at h
  · simp at h
  · cases t with
    | dispatcher =>
      simp only [Option.map_eq_some', Prod.mk.injEq] at h
      obtain ⟨a, ha, rfl, rfl⟩ := h
      left
      unfold job.stepDispatcher at ha
      split at ha
      · simp at ha
      · split at ha
        · split at ha
          · simp at ha; subst ha; simp
          · simp at ha
        · simp at ha; subst ha; simp
    | watcher =>
      simp only [Option.map_eq_some', Prod.mk.injEq] at h
      obtain ⟨a, ha, rfl, rfl⟩ := h
      left
      unfold job.stepWatcher at ha
      split at ha
      · split at ha
        · split at ha
          · simp at ha; subst ha; simp
          · simp at ha
        · split at ha <;> (simp at ha; subst ha; simp)
      · split at ha <;> (simp at ha; subst ha; simp)
      · simp at ha
    | main =>
      simp only [Option.map_eq_some', Prod.mk.injEq] at h
      obtain ⟨a, ha, rfl, rfl⟩ := h
      left
      unfold job.stepMain at ha
      split at ha
      · simp at ha
      · split at ha
        · simp at ha; subst ha; simp
        · split at ha
          · simp at ha; subst ha; simp
          · simp at ha
    | worker k =>
      simp only at h
      unfold job.stepWorker at h
      split at h
      · simp at h
      · split at h
        · simp at h; obtain ⟨rfl, rfl⟩ := h; simp
        · split at h
          · simp at h; obtain ⟨rfl, rfl⟩ := h; simp
          · simp at h
      · rename_i td hk
        right
        refine ⟨td, List.getElem?_mem hk, ?_⟩
        split at h
        · rename_i heq
          simp at h; obtain ⟨rfl, rfl⟩ := h; simp [heq]
        · rename_i heq
          simp at h; obtain ⟨rfl, rfl⟩ := h; simp [heq]
      · split at h
        · simp at h; obtain ⟨rfl, rfl⟩ := h; simp
        · split at h
          · simp at h; obtain ⟨rfl, rfl⟩ := h; simp
          · simp at h
      · split at h
        · simp at h; obtain ⟨rfl, rfl⟩ := h; simp
        · split at h
          · simp at h; obtain ⟨rfl, rfl⟩ := h; simp
          · simp at h
      · simp at h

theorem replay_append {σ : Type} (tasks : List (Func σ)) (i : Nat) :
    ∀ (is : List Nat) (w : σ),
      replay tasks (is ++ [i]) w =
        ((callTask tasks i (replay tasks is w).1).1,
          (replay tasks is w).2 ++ [(i, (callTask tasks i (replay tasks is w).1).2)])
  | [], w => by simp [replay]
  | a :: is, w => by
    have ih := replay_append tasks i is (callTask tasks a w).1
    show replay tasks (a :: (is ++ [i])) w = _
    simp only [replay, ih, List.cons_append]

theorem job.Traced.after_step {σ : Type} {j : job σ} {elapsed : String} {s s1 : JobState σ}
    {t : Thread} {w0 w w1 : σ} (hI : j.Inv elapsed s) (hT : j.Traced w0 (s, w))
    (h : j.step elapsed t s w = some (s1, w1)) : j.Traced w0 (s1, w1) := by
  unfold job.Traced at hT ⊢
  rcases job.step_frame h with ⟨h1, h2⟩ | ⟨td, hmem, h1, h2⟩
  · simp only [h1, h2]; exact hT
  · have hc : callTask j.task td.index w = td.execTask w := by
      unfold callTask
      rw [hI.held_task td hmem]
    simp only at hT
    simp only [h1, h2, List.map_append, List.map_cons, List.map_nil, replay_append, hT, hc]

theorem job.Traced.after_exec {σ : Type} {j : job σ} {elapsed : String} {w0 : σ} :
    ∀ (sched : List Thread) (c : JobState σ × σ), j.Inv elapsed c.1 → j.Traced w0 c →
      j.Traced w0 (j.exec elapsed sched c)
  | [], c, _, h => h
  | t :: ts, c, hI, h => by
    unfold job.exec
    cases hs : j.step elapsed t c.1 c.2 with
    | none => simpa using job.Traced.after_exec ts c hI h
    | some c1 =>
      obtain ⟨a, b⟩ := c1
      exact job.Traced.after_exec ts (a, b) (hI.step hs) (job.Traced.after_step hI h hs)

theorem job.measure_step {σ : Type} {j : job σ} {elapsed : String} {s s1 : JobState σ}
    {t : Thread} {w w1 : σ}
    (hI : j.Inv elapsed s) (h : j.step elapsed t s w = some (s1, w1)) :
    j.measure s1 < j.measure s := by
  have hI1 := hI.step h
  unfold job.step at h
  split at h
  · simp at h
  · cases t with
    | dispatcher =>
      simp only [Option.map_eq_some', Prod.mk.injEq] at h
      obtain ⟨a, ha, rfl, rfl⟩ := h
      unfold job.stepDispatcher at ha
      split at ha
      · simp at ha
      · rename_i hc
        split at ha
        · rename_i f hf
          have hlt : s.sent < j.task.length := by
            rcases Nat.lt_or_ge s.sent j.task.length with h1 | h1
            · exact h1
            · rw [List.getElem?_eq_none h1] at hf; simp at hf
          split at ha
          · simp at ha; subst ha
            simp [job.measure]
            omega
          · simp at ha
        · simp at ha; subst ha
          simp [job.measure, hc]
    | watcher =>
      simp only [Option.map_eq_some', Prod.mk.injEq] at h
      obtain ⟨a, ha, rfl, rfl⟩ := h
      unfold job.stepWatcher at ha
      split at ha
      · rename_i i hw
        split at ha
        · split at ha
          · simp at ha; subst ha
            simp [job.measure, hw, WatcherState.weight]
            omega
          · simp at ha
        · split at ha
          · simp at ha; subst ha
            have := hI1.not_crashed
            simp at this
          · simp at ha; subst ha
            simp [job.measure, hw, WatcherState.weight]
      · rename_i hw
        split at ha
        · simp at ha; subst ha
          have := hI1.not_crashed
          simp at this
        · simp at ha; subst ha
          simp [job.measure, hw, WatcherState.weight]
      · simp at ha
    | main =>
      simp only [Option.map_eq_some', Prod.mk.injEq] at h
      obtain ⟨a, ha, rfl, rfl⟩ := h
      unfold job.stepMain at ha
      split at ha
      · simp at ha
      · rename_i hr
        split at ha
        · rename_i ft rest hch
          simp at ha; subst ha
          simp [job.measure, hch]
        · split at ha
          · simp at ha; subst ha
            simp [job.measure, hr]
          · simp at ha
    | worker k =>
      simp only at h
      unfold job.stepWorker at h
      split at h
      · simp at h
      · rename_i hk
        have hW := fun b => sum_map_set WorkerState.weight s.workers k _ b hk
        split at h
        · rename_i td rest hch
          simp only [Option.some.injEq, Prod.mk.injEq] at h
          obtain ⟨rfl, rfl⟩ := h
          have := hW (WorkerState.exec td)
          simp only [job.measure, hch, WorkerState.weight, List.length_cons] at this ⊢
          omega
        · split at h
          · simp only [Option.some.injEq, Prod.mk.injEq] at h
            obtain ⟨rfl, rfl⟩ := h
            have := hW WorkerState.signal
            simp only [job.measure, WorkerState.weight] at this ⊢
            omega
          · simp at h
      · rename_i td hk
        have hW := fun b => sum_map_set WorkerState.weight s.workers k _ b hk
        split at h
        · simp only [Option.some.injEq, Prod.mk.injEq] at h
          obtain ⟨rfl, rfl⟩ := h
          have := hW WorkerState.recv
          simp only [job.measure, WorkerState.weight] at this ⊢
          omega
        · rename_i w2 msg heq
          simp only [Option.some.injEq, Prod.mk.injEq] at h
          obtain ⟨rfl, rfl⟩ := h
          have := hW (WorkerState.report { index := td.index, err := wrapErr td.index msg })
          simp only [job.measure, WorkerState.weight] at this ⊢
          omega
      · rename_i ft hk
        have hW := fun b => sum_map_set WorkerState.weight s.workers k _ b hk
        split at h
        · simp only [Option.some.injEq, Prod.mk.injEq] at h
          obtain ⟨rfl, rfl⟩ := h
          have := hI1.not_crashed
          simp at this
        · split at h
          · simp only [Option.some.injEq, Prod.mk.injEq] at h
            obtain ⟨rfl, rfl⟩ := h
            have := hW WorkerState.recv
            simp only [job.measure, WorkerState.weight, List.length_append, List.length_singleton]
              at this ⊢
            omega
          · simp at h
      · rename_i hk
        have hW := fun b => sum_map_set WorkerState.weight s.workers k _ b hk
        split at h
        · simp only [Option.some.injEq, Prod.mk.injEq] at h
          obtain ⟨rfl, rfl⟩ := h
          have := hI1.not_crashed
          simp at this
        · split at h
          · simp only [Option.some.injEq, Prod.mk.injEq] at h
            obtain ⟨rfl, rfl⟩ := h
            have := hW WorkerState.done
            simp only [job.measure, WorkerState.weight] at this ⊢
            omega
          · simp at h
      · simp at h

theorem job.moves_le {σ : Type} {j : job σ} (elapsed : String) :
    ∀ (sched : List Thread) (c : JobState σ × σ), j.Inv elapsed c.1 →
      j.moves elapsed sched c + j.measure (j.exec elapsed sched c).1 ≤ j.measure c.1
  | [], c, _ => by simp [job.moves, job.exec]
  | t :: ts, c, hI => by
    unfold job.moves job.exec
    cases hs : j.step elapsed t c.1 c.2 with
    | none => simpa using job.moves_le elapsed ts c hI
    | some c1 =>
      obtain ⟨a, b⟩ := c1
      have h1 := job.moves_le elapsed ts (a, b) (hI.step hs)
      have h2 := job.measure_step hI hs
      simp only [Option.getD_some] at h1 ⊢
      omega

theorem exists_zero_of_sum_lt {α : Type} (f : α → Nat) (hf : ∀ x, f x ≤ 1) :
    ∀ (l : List α), (l.map f).sum < l.length → ∃ (k : Nat) (a : α), l[k]? = some a ∧ f a = 0
  | [], h => by simp at h
  | x :: l, h => by
    by_cases hx : f x = 0
    · exact ⟨0, x, by simp, hx⟩
    · have := hf x
      have h1 : (l.map f).sum < l.length := by
        simp only [List.map_cons, List.sum_cons, List.length_cons] at h
        omega
      obtain ⟨k, a, hk, ha⟩ := exists_zero_of_sum_lt f hf l h1
      exact ⟨k + 1, a, by simpa using hk, ha⟩

theorem all_one_of_sum_eq {α : Type} (f : α → Nat) (hf : ∀ x, f x ≤ 1) :
    ∀ (l : List α), (l.map f).sum = l.length → ∀ a ∈ l, f a = 1
  | [], _, a, ha => by simp at ha
  | x :: l, h, a, ha => by
    have h0 := hf x
    have h1 := sum_le_length f hf l
    simp only [List.map_cons, List.sum_cons, List.length_cons] at h
    rcases List.mem_cons.mp ha with rfl | h2
    · omega
    · exact all_one_of_sum_eq f hf l (by omega) a h2

theorem sum_eq_zero_of_all {α : Type} (f : α → Nat) :
    ∀ (l : List α), (∀ a ∈ l, f a = 0) → (l.map f).sum = 0
  | [], _ => by simp
  | x :: l, h => by
    simp only [List.map_cons, List.sum_cons]
    rw [h x (List.mem_cons_self _ _), sum_eq_zero_of_all f l (fun a ha => h a (List.mem_cons_of_mem _ ha))]

theorem WorkerState.isDone_le {σ : Type} (x : WorkerState σ) : x.isDone ≤ 1 := by
  cases x <;> simp [WorkerState.isDone]

/-- A job whose caller has not returned and that has not crashed can move. -/
theorem job.Inv.progress {σ : Type} {j : job σ} {elapsed : String} {s : JobState σ} {w : σ}
    (hI : j.Inv elapsed s) (hh : j.halted elapsed (s, w)) : s.result.isSome = true := by
  by_contra hr
  have hnc := hI.not_crashed
  have hmain := hh Thread.main
  have hwat := hh Thread.watcher
  have hdis := hh Thread.dispatcher
  simp only [job.step, hnc, Bool.false_eq_true, if_false, Option.map_eq_none'] at hmain hwat hdis
  -- the caller is blocked: the failure channel is empty and open
  have hfail : s.failTaskChan = [] ∧ s.failClosed = false := by
    unfold job.stepMain at hmain
    rw [if_neg hr] at hmain
    split at hmain
    · simp at hmain
    · rename_i hch
      split at hmain
      · simp at hmain
      · rename_i hfc
        exact ⟨hch, by simpa using hfc⟩
  -- the watcher is blocked: it waits for a signal that is not there
  have hwatch : ∃ i, s.watcher = WatcherState.waiting i ∧ i < j.cap ∧ s.workDoneChan = 0 := by
    unfold job.stepWatcher at hwat
    split at hwat
    · rename_i i hw
      split at hwat
      · rename_i hi
        split at hwat
        · simp at hwat
        · exact ⟨i, hw, hi, by omega⟩
      · split at hwat <;> simp at hwat
    · split at hwat <;> simp at hwat
    · rename_i hw
      have := (hI.watch_fin hw).2
      simp [hfail.2] at this
  obtain ⟨i, hw, hi, hwd0⟩ := hwatch
  have hdc := hI.done_count
  simp only [hw, WatcherState.got, hwd0] at hdc
  obtain ⟨k, ws, hk, hws⟩ := exists_zero_of_sum_lt WorkerState.isDone WorkerState.isDone_le
    s.workers (by rw [hI.workers_len]; omega)
  have hwk := hh (Thread.worker k)
  simp only [job.step, hnc, Bool.false_eq_true, if_false] at hwk
  unfold job.stepWorker at hwk
  rw [hk] at hwk
  cases ws with
  | recv =>
    simp only at hwk
    split at hwk
    · simp at hwk
    · rename_i hch
      split at hwk
      · simp at hwk
      · rename_i htc
        unfold job.stepDispatcher at hdis
        rw [if_neg htc] at hdis
        split at hdis
        · rw [if_pos (by rw [hch]; simp; omega)] at hdis
          simp at hdis
        · simp at hdis
  | exec td =>
    simp only at hwk
    split at hwk <;> simp at hwk
  | report ft =>
    simp only at hwk
    rw [if_neg (by simp [hfail.2])] at hwk
    have hpos : 0 < j.task.length := by
      have h1 := hI.fails ft.err
      have h2 := sum_map_set (WorkerState.reports ft.err) s.workers k _ WorkerState.recv hk
      simp only [WorkerState.reports, if_true] at h2
      have h3 : 0 < (logFails s.log).count ft.err := by omega
      have h4 := List.count_pos_iff.mp h3
      unfold logFails at h4
      obtain ⟨c, hc, -⟩ := List.mem_filterMap.mp h4
      obtain ⟨f, hf, -⟩ := hI.log_src c.1 c.2 hc
      have := (List.getElem?_eq_some_iff.mp hf).1
      omega
    rw [if_pos (by rw [hfail.1]; exact hpos)] at hwk
    simp at hwk
  | signal =>
    simp only at hwk
    rw [if_neg (by simp [(hI.watch_wait i hw).2.1])] at hwk
    rw [if_pos (by omega)] at hwk
    simp at hwk
  | done => simp [WorkerState.isDone] at hws

theorem WorkerState.eq_done_of_isDone {σ : Type} {x : WorkerState σ} (h : x.isDone = 1) :
    x = WorkerState.done := by
  cases x <;> simp [WorkerState.isDone] at h ⊢

/-- Once the failure channel is closed every worker has returned. -/
theorem job.Inv.workers_done {σ : Type} {j : job σ} {elapsed : String} {s : JobState σ}
    (hI : j.Inv elapsed s) (hfc : s.failClosed = true) :
    ∀ ws ∈ s.workers, ws = WorkerState.done := by
  have hw : s.watcher = WatcherState.finished := by
    cases hw : s.watcher with
    | waiting i => have := (hI.watch_wait i hw).2.2; simp [hfc] at this
    | closing => have := (hI.watch_closing hw).2; simp [hfc] at this
    | finished => rfl
  have hdc := hI.done_count
  have hle := sum_le_length WorkerState.isDone WorkerState.isDone_le s.workers
  simp only [hw, WatcherState.got] at hdc
  rw [hI.workers_len] at hle
  intro ws hws
  exact WorkerState.eq_done_of_isDone
    (all_one_of_sum_eq WorkerState.isDone WorkerState.isDone_le s.workers
      (by rw [hI.workers_len]; omega) ws hws)

/-- What holds when the caller of `run` has returned `r`. -/
theorem job.Inv.returned {σ : Type} {j : job σ} {elapsed : String} {s : JobState σ}
    {r : Option String} (hI : j.Inv elapsed s) (hr : s.result = some r) :
    r = aggregate j.name elapsed s.errMsg ∧ s.errMsg.Perm (logFails s.log) ∧
      (1 ≤ j.cap → (s.log.map Prod.fst).Perm (List.range j.task.length)) := by
  obtain ⟨hfc, hch, hagg⟩ := hI.result_eq r hr
  have hdone := hI.workers_done hfc
  refine ⟨hagg, ?_, ?_⟩
  · rw [List.perm_iff_count]
    intro m
    have h1 := hI.fails m
    have h2 := sum_eq_zero_of_all (WorkerState.reports m) s.workers
      (fun a ha => by rw [hdone a ha]; rfl)
    simp only [hch, List.map_nil, List.count_nil] at h1
    omega
  · intro hcap
    have hne : s.workers ≠ [] := by
      intro h
      have := hI.workers_len
      rw [h] at this
      simp at this
      omega
    obtain ⟨ws, hws⟩ := List.exists_mem_of_ne_nil _ hne
    obtain ⟨htc, hchan⟩ := hI.late ws hws (by rw [hdone ws hws]; rfl)
    have hsent := hI.closed_sent htc
    rw [List.perm_iff_count]
    intro i
    have h1 := hI.idx i
    have h2 := sum_eq_zero_of_all (WorkerState.holds i) s.workers
      (fun a ha => by rw [hdone a ha]; rfl)
    simp only [hchan, List.map_nil, List.count_nil, hsent] at h1
    rw [List.count_eq_of_nodup (List.nodup_range _)]
    simp only [List.mem_range]
    omega

/-- No task is called twice, at any point of any run. -/
theorem job.Inv.log_nodup {σ : Type} {j : job σ} {elapsed : String} {s : JobState σ}
    (hI : j.Inv elapsed s) : (s.log.map Prod.fst).Nodup := by
  rw [List.nodup_iff_count_le_one]
  intro i
  have h1 := hI.idx i
  split at h1 <;> omega

/-- After the caller has returned no goroutine of the job moves any more. -/
theorem job.Inv.halted_of_returned {σ : Type} {j : job σ} {elapsed : String} {s : JobState σ}
    {w : σ} (hI : j.Inv elapsed s) (hne : j.task ≠ []) (hr : s.result.isSome = true) :
    j.halted elapsed (s, w) := by
  obtain ⟨r, hr1⟩ := Option.isSome_iff_exists.mp hr
  obtain ⟨hfc, hch, -⟩ := hI.result_eq r hr1
  have hdone := hI.workers_done hfc
  intro t
  simp only [job.step, hI.not_crashed, Bool.false_eq_true, if_false]
  cases t with
  | main => simp [job.stepMain, hr]
  | watcher =>
    have hw : s.watcher = WatcherState.finished := by
      cases hw : s.watcher with
      | waiting i => have := (hI.watch_wait i hw).2.2; simp [hfc] at this
      | closing => have := (hI.watch_closing hw).2; simp [hfc] at this
      | finished => rfl
    simp [job.stepWatcher, hw]
  | worker k =>
    simp only
    unfold job.stepWorker
    cases hk : s.workers[k]? with
    | none => rfl
    | some ws => rw [hdone ws (List.getElem?_mem hk)]
  | dispatcher =>
    simp only [Option.map_eq_none']
    unfold job.stepDispatcher
    split
    · rfl
    · rename_i htc
      have hw : s.workers = [] := by
        cases hws : s.workers with
        | nil => rfl
        | cons a l =>
          have := (hI.late a (by rw [hws]; exact List.mem_cons_self _ _)
            (by rw [hdone a (by rw [hws]; exact List.mem_cons_self _ _)]; rfl)).1
          exact absurd this htc
      have hcap : j.cap = 0 := by rw [← hI.workers_len, hw]; rfl
      have hs := hI.no_worker hcap
      have hpos : 0 < j.task.length := List.length_pos.mpr hne
      rw [hs, List.getElem?_eq_getElem hpos]
      simp [hcap]

theorem useParallelSize_eq (d : Int) (n : Nat) (ps : List Int) :
    useParallelSize d n ps =
      match ps with
      | [] => min d (n : Int)
      | p :: _ => min (min d (n : Int)) p := by
  unfold useParallelSize
  cases ps with
  | nil => simp only; split <;> omega
  | cons p rest => simp only; split <;> split <;> omega

theorem Run.start_built {σ : Type} (d : Int) (name : String) (tasks : List (Func σ))
    (ps : List Int) (hname : name ≠ "") (htasks : tasks ≠ [])
    (hu : 0 ≤ useParallelSize d tasks.length ps) :
    Run.start d name tasks ps =
      RunStart.built { name := name, task := tasks,
                       parallelSize := useParallelSize d tasks.length ps } := by
  have h1 : ¬ name.length = 0 := by
    intro h
    apply hname
    cases name with
    | mk data =>
      simp [String.length] at h
      simp [h]
  have h2 : ¬ tasks.length = 0 := by
    intro h
    exact htasks (List.length_eq_zero.mp h)
  simp [Run.start, h1, h2, hu]

/-- C1: with an empty name or an empty task list `Run` returns a non-nil error
without building a job: under every schedule no goroutine moves, no task is called
and the world is left as it was. -/
theorem Run_rejects_empty_input {σ : Type} (d : Int) (elapsed name : String)
    (tasks : List (Func σ)) (ps : List Int) (sched : List Thread) (w : σ)
    (h : name = "" ∨ tasks = []) :
    ∃ e, Run.start d name tasks ps = RunStart.invalid e ∧
      (Run.exec d elapsed name tasks ps sched w).returned = some (some e) ∧
      (Run.exec d elapsed name tasks ps sched w).calls = [] ∧
      (Run.exec d elapsed name tasks ps sched w).world = w ∧
      Run.moves d elapsed name tasks ps sched w = 0 := by
  have hs : ∃ e, Run.start d name tasks ps = RunStart.invalid e := by
    unfold Run.start
    rcases h with h | h
    · subst h; exact ⟨"任务名称为空", by simp⟩
    · subst h
      by_cases hn : name.length = 0
      · exact ⟨"任务名称为空", by simp [hn]⟩
      · exact ⟨"任务数量为空", by simp [hn]⟩
  obtain ⟨e, he⟩ := hs
  exact ⟨e, he, by simp [Run.exec, he], by simp [Run.exec, he], by simp [Run.exec, he],
    by simp [Run.moves, he]⟩

theorem Run_rejects_empty_input_witness :
    ∃ e, Run.start 4 "" [fun (w : Nat) => (w + 1, none)] [2] = RunStart.invalid e ∧
      (Run.exec 4 "1s" "" [fun (w : Nat) => (w + 1, none)] [2] [Thread.worker 0] 7).returned
        = some (some e) ∧
      (Run.exec 4 "1s" "" [fun (w : Nat) => (w + 1, none)] [2] [Thread.worker 0] 7).calls = [] ∧
      (Run.exec 4 "1s" "" [fun (w : Nat) => (w + 1, none)] [2] [Thread.worker 0] 7).world = 7 ∧
      Run.moves 4 "1s" "" [fun (w : Nat) => (w + 1, none)] [2] [Thread.worker 0] 7 = 0 :=
  Run_rejects_empty_input 4 "1s" "" [fun (w : Nat) => (w + 1, none)] [2] [Thread.worker 0] 7
    (Or.inl rfl)

/-- C2: for a non-empty name and a non-empty task list the size computed by `Run`
is `min(defaultParallelSize, len(tasks))` when no parallelism is requested and
`min(defaultParallelSize, len(tasks), p)` when `p` is the first requested value; a
job that `Run` builds has that `parallelSize`, the name and the tasks of the call,
and a job is built whenever that size is not negative. -/
theorem Run_job_parallelSize {σ : Type} (d : Int) (name : String) (tasks : List (Func σ))
    (ps : List Int) (hname : name ≠ "") (htasks : tasks ≠ []) :
    (∀ j, Run.start d name tasks ps = RunStart.built j →
      j.name = name ∧ j.task = tasks ∧
      j.parallelSize =
        match ps with
        | [] => min d (tasks.length : Int)
        | p :: _ => min (min d (tasks.length : Int)) p) ∧
    ((0 ≤ match ps with
        | [] => min d (tasks.length : Int)
        | p :: _ => min (min d (tasks.length : Int)) p) →
      ∃ j, Run.start d name tasks ps = RunStart.built j) := by
  rw [← useParallelSize_eq]
  constructor
  · intro j hj
    by_cases hu : 0 ≤ useParallelSize d tasks.length ps
    · rw [Run.start_built d name tasks ps hname htasks hu] at hj
      cases hj
      exact ⟨rfl, rfl, rfl⟩
    · have h1 : ¬ name.length = 0 := by
        intro h
        apply hname
        cases name with
        | mk data =>
          simp [String.length] at h
          simp [h]
      have h2 : ¬ tasks.length = 0 := fun h => htasks (List.length_eq_zero.mp h)
      simp [Run.start, h1, h2, lt_of_not_ge hu] at hj
  · intro hu
    exact ⟨_, Run.start_built d name tasks ps hname htasks hu⟩

theorem Run_job_parallelSize_witness :
    (∀ j, Run.start 8 "job" [fun (w : Nat) => (w + 1, none), fun w => (w, some "x")] [5, 1]
        = RunStart.built j →
      j.name = "job" ∧ j.task = [fun (w : Nat) => (w + 1, none), fun w => (w, some "x")] ∧
      j.parallelSize = min (min 8 (2 : Int)) 5) ∧
    ((0 ≤ min (min 8 (2 : Int)) 5) →
      ∃ j, Run.start 8 "job" [fun (w : Nat) => (w + 1, none), fun w => (w, some "x")] [5, 1]
        = RunStart.built j) :=
  Run_job_parallelSize 8 "job" [fun (w : Nat) => (w + 1, none), fun w => (w, some "x")] [5, 1]
    (by decide) (by simp)

theorem name_length_ne_zero {name : String} (hname : name ≠ "") : ¬ name.length = 0 := by
  intro h
  apply hname
  cases name with
  | mk data =>
    simp [String.length] at h
    simp [h]

theorem useParallelSize_le_length (d : Int) (n : Nat) (ps : List Int) :
    useParallelSize d n ps ≤ (n : Int) := by
  rw [useParallelSize_eq]
  cases ps with
  | nil => simp only; omega
  | cons p rest => simp only; omega

theorem useParallelSize_pos (d : Int) (n : Nat) (ps : List Int) (hd : 1 ≤ d) (hn : 0 < n)
    (hp : ∀ p ∈ ps.head?, 1 ≤ p) : 1 ≤ useParallelSize d n ps := by
  rw [useParallelSize_eq]
  cases ps with
  | nil => simp only; omega
  | cons p rest =>
    have := hp p (by simp)
    simp only
    omega

/-- What `Run.start` guarantees of a job it builds. -/
theorem Run.start_built_inv {σ : Type} {d : Int} {name : String} {tasks : List (Func σ)}
    {ps : List Int} {j : job σ} (h : Run.start d name tasks ps = RunStart.built j) :
    j.name = name ∧ j.task = tasks ∧ j.parallelSize = useParallelSize d tasks.length ps ∧
      0 ≤ j.parallelSize ∧ tasks ≠ [] := by
  unfold Run.start at h
  split at h
  · simp at h
  · split at h
    · simp at h
    · rename_i h2
      simp only at h
      split at h
      · simp at h
      · rename_i h3
        cases h
        refine ⟨rfl, rfl, rfl, by simpa using h3, ?_⟩
        intro h4
        simp [h4] at h2

theorem job.measure_init {σ : Type} (j : job σ) :
    j.measure j.init = 5 * j.task.length + 4 * j.cap + 4 := by
  simp [job.measure, job.init, WorkerState.weight, WatcherState.weight]
  omega

/-- A call of `Run` that builds a job returns. -/
theorem Run.terminates_of_built {σ : Type} {d : Int} {elapsed name : String}
    {tasks : List (Func σ)} {ps : List Int} {j : job σ}
    (h : Run.start d name tasks ps = RunStart.built j) :
    Run.Terminates d elapsed name tasks ps := by
  obtain ⟨-, htask, hsz, hpos, -⟩ := Run.start_built_inv h
  have hcap : j.cap ≤ tasks.length := by
    have := useParallelSize_le_length d tasks.length ps
    unfold job.cap
    omega
  constructor
  · intro sched w
    have h1 := job.moves_le elapsed sched (j.init, w) (job.Inv.init j elapsed hpos)
    have h2 := job.measure_init j
    simp only [Run.moves, h]
    simp only at h1
    rw [htask] at h2
    omega
  · intro sched w hh
    simp only [Run.halted, h] at hh
    simp only [Run.exec, h]
    exact (job.Inv.exec sched (j.init, w) (job.Inv.init j elapsed hpos)).progress hh

/-- C3 (as stated, refuted): with requested parallelism `0` the job that `Run`
builds has `parallelSize = 0`, so `1 ≤ parallelSize` fails. -/
theorem Run_parallelSize_lower_bound_counterexample :
    ∃ j, Run.start 4 "job" [fun (w : Nat) => (w + 1, none)] [0] = RunStart.built j ∧
      j.parallelSize = 0 ∧ ¬ 1 ≤ j.parallelSize :=
  ⟨{ name := "job", task := [fun (w : Nat) => (w + 1, none)], parallelSize := 0 },
    rfl, rfl, by decide⟩

/-- C3 (amended): with `defaultParallelSize ≥ 1`, a non-empty name and a non-empty
task list, `Run` builds a job with `1 ≤ parallelSize ≤ min(p, len(tasks))` for every
requested `p ≥ 1`, and with `1 ≤ parallelSize ≤ min(defaultParallelSize, len(tasks))`
when no parallelism is requested; for any requested `p`, a job that is built has
`parallelSize ≤ min(p, len(tasks))`. -/
theorem Run_effective_parallelism {σ : Type} (d : Int) (name : String) (tasks : List (Func σ))
    (hd : 1 ≤ d) (hname : name ≠ "") (htasks : tasks ≠ []) :
    (∀ p rest, 1 ≤ p → ∃ j, Run.start d name tasks (p :: rest) = RunStart.built j ∧
        1 ≤ j.parallelSize ∧ j.parallelSize ≤ min p (tasks.length : Int)) ∧
    (∃ j, Run.start d name tasks [] = RunStart.built j ∧
        1 ≤ j.parallelSize ∧ j.parallelSize ≤ min d (tasks.length : Int)) ∧
    (∀ p rest j, Run.start d name tasks (p :: rest) = RunStart.built j →
        j.parallelSize ≤ min p (tasks.length : Int)) := by
  have hn : 0 < tasks.length := List.length_pos.mpr htasks
  refine ⟨?_, ?_, ?_⟩
  · intro p rest hp
    have h1 := useParallelSize_pos d tasks.length (p :: rest) hd hn (by simpa using hp)
    refine ⟨_, Run.start_built d name tasks (p :: rest) hname htasks (by omega), h1, ?_⟩
    simp only [useParallelSize_eq]
    omega
  · have h1 := useParallelSize_pos d tasks.length [] hd hn (by simp)
    refine ⟨_, Run.start_built d name tasks [] hname htasks (by omega), h1, ?_⟩
    simp only [useParallelSize_eq]
    omega
  · intro p rest j hj
    obtain ⟨-, -, hsz, -, -⟩ := Run.start_built_inv hj
    rw [hsz, useParallelSize_eq]
    simp only
    omega

theorem Run_effective_parallelism_witness :
    (∀ p rest, 1 ≤ p →
      ∃ j, Run.start 4 "job" [fun (w : Nat) => (w + 1, none), fun w => (w, none)] (p :: rest)
          = RunStart.built j ∧
        1 ≤ j.parallelSize ∧ j.parallelSize ≤ min p (2 : Int)) ∧
    (∃ j, Run.start 4 "job" [fun (w : Nat) => (w + 1, none), fun w => (w, none)] []
          = RunStart.built j ∧
        1 ≤ j.parallelSize ∧ j.parallelSize ≤ min 4 (2 : Int)) ∧
    (∀ p rest j, Run.start 4 "job" [fun (w : Nat) => (w + 1, none), fun w => (w, none)] (p :: rest)
          = RunStart.built j →
        j.parallelSize ≤ min p (2 : Int)) :=
  Run_effective_parallelism 4 "job" [fun (w : Nat) => (w + 1, none), fun w => (w, none)]
    (by decide) (by decide) (by simp)

theorem intercalate_go_prefix (sep : String) :
    ∀ (l : List String) (acc : String), ∃ post, String.intercalate.go acc sep l = acc ++ post
  | [], acc => ⟨"", by simp [String.intercalate.go]⟩
  | a :: l, acc => by
    obtain ⟨post, hp⟩ := intercalate_go_prefix sep l (acc ++ sep ++ a)
    exact ⟨sep ++ a ++ post, by
      simp only [String.intercalate.go]; rw [hp]; simp only [String.append_assoc]⟩

theorem intercalate_go_mem (sep : String) (m : String) :
    ∀ (l : List String) (acc : String), m ∈ l →
      ∃ pre post, String.intercalate.go acc sep l = pre ++ m ++ post
  | [], _, h => by simp at h
  | a :: l, acc, h => by
    rcases List.mem_cons.mp h with rfl | h1
    · obtain ⟨post, hp⟩ := intercalate_go_prefix sep l (acc ++ sep ++ m)
      exact ⟨acc ++ sep, post, by simp only [String.intercalate.go]; rw [hp]⟩
    · obtain ⟨pre, post, hp⟩ := intercalate_go_mem sep m l (acc ++ sep ++ a) h1
      exact ⟨pre, post, by simp [String.intercalate.go, hp]⟩

/-- A member of the joined list is a substring of the join. -/
theorem intercalate_mem (sep : String) (m : String) :
    ∀ (l : List String), m ∈ l → ∃ pre post, String.intercalate sep l = pre ++ m ++ post
  | [], h => by simp at h
  | a :: l, h => by
    rcases List.mem_cons.mp h with rfl | h1
    · obtain ⟨post, hp⟩ := intercalate_go_prefix sep l m
      exact ⟨"", post, by simp [String.intercalate, hp]⟩
    · obtain ⟨pre, post, hp⟩ := intercalate_go_mem sep m l a h1
      exact ⟨pre, post, by simp [String.intercalate, hp]⟩

theorem aggregate_eq_none {name elapsed : String} {l : List String} :
    aggregate name elapsed l = none ↔ l = [] := by
  unfold aggregate
  cases l <;> simp

theorem logFails_eq_nil {log : List (Nat × Option String)} :
    logFails log = [] ↔ ∀ c ∈ log, c.2 = none := by
  unfold logFails
  induction log with
  | nil => simp
  | cons a l ih =>
    obtain ⟨i, e⟩ := a
    cases e with
    | none => simp [List.filterMap_cons, ih]
    | some m => simp [List.filterMap_cons]

theorem mem_logFails {log : List (Nat × Option String)} {i : Nat} {e : String}
    (h : (i, some e) ∈ log) : wrapErr i e ∈ logFails log := by
  unfold logFails
  exact List.mem_filterMap.mpr ⟨(i, some e), h, rfl⟩

theorem snd_unique_of_nodup_fst {α β : Type} :
    ∀ {l : List (α × β)} {a : α} {b c : β}, (l.map Prod.fst).Nodup → (a, b) ∈ l → (a, c) ∈ l →
      b = c
  | [], _, _, _, _, h, _ => by simp at h
  | x :: l, a, b, c, hn, hb, hc => by
    simp only [List.map_cons, List.nodup_cons, List.mem_map, not_exists, not_and] at hn
    rcases List.mem_cons.mp hb with h1 | h1 <;> rcases List.mem_cons.mp hc with h2 | h2
    · rw [← h1] at h2; cases h2; rfl
    · exact absurd (by rw [← h1]) (hn.1 (a, c) h2)
    · exact absurd (by rw [← h2]) (hn.1 (a, b) h1)
    · exact snd_unique_of_nodup_fst hn.2 h1 h2

/-- The state of a job built by `Run`, after any schedule, satisfies the invariant
and its trace is the replay of the calls from the initial world. -/
theorem Run.exec_inv {σ : Type} {d : Int} (elapsed : String) {name : String} {tasks : List (Func σ)}
    {ps : List Int} {j : job σ} (h : Run.start d name tasks ps = RunStart.built j)
    (sched : List Thread) (w : σ) :
    j.Inv elapsed (j.exec elapsed sched (j.init, w)).1 ∧
      j.Traced w (j.exec elapsed sched (j.init, w)) := by
  obtain ⟨-, -, -, hpos, -⟩ := Run.start_built_inv h
  have hI := job.Inv.init j elapsed hpos
  exact ⟨job.Inv.exec sched (j.init, w) hI,
    job.Traced.after_exec sched (j.init, w) hI (by simp [job.Traced, job.init, replay])⟩

/-- C4 (as stated, refuted): `Run("job", [task], 0)` is a valid call (non-empty
name, non-empty list); under the schedule watcher, watcher, caller it returns
`nil` although the task was never called: no call in the trace, the counter the
task increments is still `0`. -/
theorem Run_zero_parallelism_skips_tasks_counterexample :
    (Run.exec 4 "1s" "job" [fun (w : Nat) => (w + 1, none)] [0]
        [Thread.watcher, Thread.watcher, Thread.main] 0).returned = some none ∧
    (Run.exec 4 "1s" "job" [fun (w : Nat) => (w + 1, none)] [0]
        [Thread.watcher, Thread.watcher, Thread.main] 0).calls.length = 0 ∧
    (Run.exec 4 "1s" "job" [fun (w : Nat) => (w + 1, none)] [0]
        [Thread.watcher, Thread.watcher, Thread.main] 0).world = 0 ∧
    [fun (w : Nat) => (w + 1, (none : Option String))].length = 1 :=
  ⟨rfl, rfl, rfl, rfl⟩

/-- C4 (amended): for a non-empty name, a non-empty task list and a requested
parallelism that is absent or `≥ 1` (with `defaultParallelSize ≥ 1`), `Run` returns
under every schedule, no task is ever called twice, and when `Run` has returned
the indices of the calls are a permutation of `0 .. len(tasks)-1`: every task was
called exactly once, whatever the tasks returned, and the final world is the
result of these calls in the order of the trace. -/
theorem Run_calls_each_task_once {σ : Type} (d : Int) (elapsed name : String)
    (tasks : List (Func σ)) (ps : List Int) (hd : 1 ≤ d) (hname : name ≠ "")
    (htasks : tasks ≠ []) (hp : ∀ p ∈ ps.head?, 1 ≤ p) :
    Run.Terminates d elapsed name tasks ps ∧
    (∀ sched w, ((Run.exec d elapsed name tasks ps sched w).calls.map Prod.fst).Nodup) ∧
    (∀ sched w r, (Run.exec d elapsed name tasks ps sched w).returned = some r →
      ((Run.exec d elapsed name tasks ps sched w).calls.map Prod.fst).Perm
        (List.range tasks.length) ∧
      (Run.exec d elapsed name tasks ps sched w).calls.length = tasks.length ∧
      replay tasks ((Run.exec d elapsed name tasks ps sched w).calls.map Prod.fst) w =
        ((Run.exec d elapsed name tasks ps sched w).world,
          (Run.exec d elapsed name tasks ps sched w).calls)) := by
  have hn : 0 < tasks.length := List.length_pos.mpr htasks
  have hu := useParallelSize_pos d tasks.length ps hd hn hp
  have hs := Run.start_built d name tasks ps hname htasks (by omega)
  refine ⟨Run.terminates_of_built hs, ?_, ?_⟩
  · intro sched w
    simp only [Run.exec, hs]
    exact (Run.exec_inv elapsed hs sched w).1.log_nodup
  · intro sched w r hr
    simp only [Run.exec, hs] at hr ⊢
    obtain ⟨hI, hT⟩ := Run.exec_inv elapsed hs sched w
    have hperm := (hI.returned hr).2.2 (by simp only [job.cap]; omega)
    refine ⟨hperm, ?_, hT⟩
    have := hperm.length_eq
    simpa using this

theorem Run_calls_each_task_once_witness :
    Run.Terminates 4 "1s" "job" [fun (w : Nat) => (w + 1, none), fun w => (w + 1, some "e")] [2] ∧
    (∀ sched w, ((Run.exec 4 "1s" "job"
        [fun (w : Nat) => (w + 1, none), fun w => (w + 1, some "e")] [2] sched w).calls.map
          Prod.fst).Nodup) ∧
    (∀ sched w r, (Run.exec 4 "1s" "job"
        [fun (w : Nat) => (w + 1, none), fun w => (w + 1, some "e")] [2] sched w).returned
          = some r →
      ((Run.exec 4 "1s" "job"
        [fun (w : Nat) => (w + 1, none), fun w => (w + 1, some "e")] [2] sched w).calls.map
          Prod.fst).Perm (List.range 2) ∧
      (Run.exec 4 "1s" "job"
        [fun (w : Nat) => (w + 1, none), fun w => (w + 1, some "e")] [2] sched w).calls.length
          = 2 ∧
      replay [fun (w : Nat) => (w + 1, none), fun w => (w + 1, some "e")]
        ((Run.exec 4 "1s" "job"
          [fun (w : Nat) => (w + 1, none), fun w => (w + 1, some "e")] [2] sched w).calls.map
            Prod.fst) w =
        ((Run.exec 4 "1s" "job"
          [fun (w : Nat) => (w + 1, none), fun w => (w + 1, some "e")] [2] sched w).world,
         (Run.exec 4 "1s" "job"
          [fun (w : Nat) => (w + 1, none), fun w => (w + 1, some "e")] [2] sched w).calls)) :=
  Run_calls_each_task_once 4 "1s" "job"
    [fun (w : Nat) => (w + 1, none), fun w => (w + 1, some "e")] [2]
    (by decide) (by decide) (by simp) (by simp)

/-- C5 (as stated, refuted): `Run("job", [task], 0)` with a task that returns an
error on every world is a valid call; under the schedule watcher, watcher, caller
it returns `nil`, although the only task does not return `nil` (and was not
called at all). -/
theorem Run_zero_parallelism_returns_nil_counterexample :
    (Run.exec 4 "1s" "job" [fun (w : Nat) => (w, some "boom")] [0]
        [Thread.watcher, Thread.watcher, Thread.main] 0).returned = some none ∧
    (∀ w : Nat, ((fun (w : Nat) => (w, some "boom")) w).2 = some "boom") ∧
    ¬ (∀ i < [fun (w : Nat) => (w, some "boom")].length,
        (i, none) ∈ (Run.exec 4 "1s" "job" [fun (w : Nat) => (w, some "boom")] [0]
          [Thread.watcher, Thread.watcher, Thread.main] 0).calls) :=
  ⟨rfl, fun _ => rfl, by decide⟩

/-- C5 (amended): for a non-empty name, a non-empty task list and a requested
parallelism that is absent or `≥ 1` (with `defaultParallelSize ≥ 1`), `Run` returns
under every schedule, and it returns `nil` if and only if every task of the list
returned `nil`; it returns a non-nil error if and only if some task returned an
error.  For tasks whose error does not depend on the world (`out i` for task
`i`), `Run` returns `nil` if and only if `out i` is `nil` for every `i`. -/
theorem Run_nil_iff_all_tasks_nil {σ : Type} (d : Int) (elapsed name : String)
    (tasks : List (Func σ)) (ps : List Int) (hd : 1 ≤ d) (hname : name ≠ "")
    (htasks : tasks ≠ []) (hp : ∀ p ∈ ps.head?, 1 ≤ p) :
    Run.Terminates d elapsed name tasks ps ∧
    (∀ sched w r, (Run.exec d elapsed name tasks ps sched w).returned = some r →
      (r = none ↔ ∀ i < tasks.length,
          (i, none) ∈ (Run.exec d elapsed name tasks ps sched w).calls) ∧
      ((∃ msg, r = some msg) ↔
          ∃ i e, (i, some e) ∈ (Run.exec d elapsed name tasks ps sched w).calls) ∧
      (∀ out : Nat → Option String,
          (∀ i f, tasks[i]? = some f → ∀ w1, (f w1).2 = out i) →
          (r = none ↔ ∀ i < tasks.length, out i = none))) := by
  have hn : 0 < tasks.length := List.length_pos.mpr htasks
  have hu := useParallelSize_pos d tasks.length ps hd hn hp
  have hs := Run.start_built d name tasks ps hname htasks (by omega)
  refine ⟨Run.terminates_of_built hs, ?_⟩
  intro sched w r hr
  simp only [Run.exec, hs] at hr ⊢
  obtain ⟨hI, -⟩ := Run.exec_inv elapsed hs sched w
  obtain ⟨hagg, hfp, hperm⟩ := hI.returned hr
  have hperm := hperm (by simp only [job.cap]; omega)
  have hnd := hI.log_nodup
  generalize (job.exec _ elapsed sched (job.init _, w)).1 = s at hr hI hagg hfp hperm hnd
  -- every index below `len(tasks)` has an entry in the trace
  have hcover : ∀ i < tasks.length, ∃ e, (i, e) ∈ s.log := by
    intro i hi
    have h1 : i ∈ s.log.map Prod.fst := hperm.symm.subset (List.mem_range.mpr hi)
    obtain ⟨c, hc, rfl⟩ := List.mem_map.mp h1
    exact ⟨c.2, hc⟩
  have hidx : ∀ i e, (i, e) ∈ s.log → i < tasks.length := by
    intro i e h
    exact List.mem_range.mp (hperm.subset (List.mem_map.mpr ⟨(i, e), h, rfl⟩))
  have hnil : r = none ↔ ∀ c ∈ s.log, c.2 = none := by
    rw [hagg, aggregate_eq_none, ← logFails_eq_nil]
    constructor
    · intro h; rw [h] at hfp; exact hfp.symm.eq_nil
    · intro h; rw [h] at hfp; exact hfp.eq_nil
  have hall : r = none ↔ ∀ i < tasks.length, (i, none) ∈ s.log := by
    rw [hnil]
    constructor
    · intro h i hi
      obtain ⟨e, he⟩ := hcover i hi
      have := h (i, e) he
      simp only at this
      rw [this] at he
      exact he
    · intro h c hc
      obtain ⟨i, e⟩ := c
      exact snd_unique_of_nodup_fst hnd hc (h i (hidx i e hc))
  refine ⟨hall, ?_, ?_⟩
  · constructor
    · rintro ⟨msg, rfl⟩
      by_contra hne
      have : (some msg : Option String) = none := hnil.mpr (by
        intro c hc
        obtain ⟨i, e⟩ := c
        cases e with
        | none => rfl
        | some e => exact absurd ⟨i, e, hc⟩ hne)
      simp at this
    · rintro ⟨i, e, hie⟩
      cases hr0 : r with
      | some msg => exact ⟨msg, rfl⟩
      | none =>
        have := hnil.mp hr0 (i, some e) hie
        simp at this
  · intro out hout
    rw [hall]
    have hsrc : ∀ i e, (i, e) ∈ s.log → e = out i := by
      intro i e h
      obtain ⟨f, hf, w1, hw⟩ := hI.log_src i e h
      rw [← hw]
      exact hout i f hf w1
    constructor
    · intro h i hi
      exact (hsrc i none (h i hi)).symm
    · intro h i hi
      obtain ⟨e, he⟩ := hcover i hi
      have := hsrc i e he
      rw [h i hi] at this
      rw [this] at he
      exact he

theorem Run_nil_iff_all_tasks_nil_witness :
    Run.Terminates 4 "1s" "job" [fun (w : Nat) => (w + 1, none), fun w => (w, some "e")] [] ∧
    (∀ sched w r, (Run.exec 4 "1s" "job"
        [fun (w : Nat) => (w + 1, none), fun w => (w, some "e")] [] sched w).returned = some r →
      (r = none ↔ ∀ i < 2,
          (i, none) ∈ (Run.exec 4 "1s" "job"
            [fun (w : Nat) => (w + 1, none), fun w => (w, some "e")] [] sched w).calls) ∧
      ((∃ msg, r = some msg) ↔
          ∃ i e, (i, some e) ∈ (Run.exec 4 "1s" "job"
            [fun (w : Nat) => (w + 1, none), fun w => (w, some "e")] [] sched w).calls) ∧
      (∀ out : Nat → Option String,
          (∀ i f, [fun (w : Nat) => (w + 1, none), fun w => (w, some "e")][i]? = some f →
            ∀ w1, (f w1).2 = out i) →
          (r = none ↔ ∀ i < 2, out i = none))) :=
  Run_nil_iff_all_tasks_nil 4 "1s" "job"
    [fun (w : Nat) => (w + 1, none), fun w => (w, some "e")] []
    (by decide) (by decide) (by simp) (by simp)

/-- C6: for a non-empty name and a non-empty task list, a call of `Run` that builds
its job returns under every schedule; when it has returned `r` and the call of the
envelope of index `i` returned the error `e`, then `r` is an error whose message
contains `task i execute failed: ` followed by `e`, and `i` is the position in
the task list of the function that was called. -/
theorem Run_error_names_failed_index {σ : Type} (d : Int) (elapsed name : String)
    (tasks : List (Func σ)) (ps : List Int) (hname : name ≠ "") (htasks : tasks ≠ []) :
    (0 ≤ useParallelSize d tasks.length ps → Run.Terminates d elapsed name tasks ps) ∧
    (∀ sched w r i e, (Run.exec d elapsed name tasks ps sched w).returned = some r →
      (i, some e) ∈ (Run.exec d elapsed name tasks ps sched w).calls →
      (∃ msg pre post, r = some msg ∧
        msg = pre ++ ("task " ++ toString i ++ " execute failed: " ++ e) ++ post) ∧
      (∃ f w1, tasks[i]? = some f ∧ (f w1).2 = some e)) := by
  constructor
  · intro hu
    exact Run.terminates_of_built (Run.start_built d name tasks ps hname htasks hu)
  · intro sched w r i e hr hie
    by_cases hu : 0 ≤ useParallelSize d tasks.length ps
    · have hs := Run.start_built d name tasks ps hname htasks hu
      simp only [Run.exec, hs] at hr hie
      obtain ⟨hI, -⟩ := Run.exec_inv elapsed hs sched w
      obtain ⟨hagg, hfp, -⟩ := hI.returned hr
      have hmem : wrapErr i e ∈ (job.exec _ elapsed sched (job.init _, w)).1.errMsg :=
        hfp.symm.subset (mem_logFails hie)
      obtain ⟨pre, post, hpp⟩ := intercalate_mem "," (wrapErr i e) _ hmem
      obtain ⟨f, hf, w1, hw⟩ := hI.log_src i (some e) hie
      refine ⟨⟨_, aggregateHead name elapsed ++ pre, post, ?_, rfl⟩, f, w1, hf, hw⟩
      rw [hagg]
      unfold aggregate
      rw [if_pos (List.length_pos_of_mem hmem), hpp]
      simp only [wrapErr, String.append_assoc]
    · have h1 := name_length_ne_zero hname
      have h2 : ¬ tasks.length = 0 := fun h => htasks (List.length_eq_zero.mp h)
      simp [Run.exec, Run.start, h1, h2, lt_of_not_ge hu] at hr

theorem Run_error_names_failed_index_witness :
    (Run.exec 4 "1s" "job" [fun (w : Nat) => (w + 1, none), fun w => (w, some "boom")] [1]
      [Thread.dispatcher, Thread.worker 0, Thread.worker 0, Thread.dispatcher,
       Thread.worker 0, Thread.worker 0, Thread.worker 0, Thread.dispatcher, Thread.worker 0,
       Thread.worker 0, Thread.watcher, Thread.watcher, Thread.watcher, Thread.main,
       Thread.main] 0).returned
      = some (some "parallel job \x7bjob\x7d fail ,time=1s,err:task 1 execute failed: boom") ∧
    (1, some "boom") ∈
      (Run.exec 4 "1s" "job" [fun (w : Nat) => (w + 1, none), fun w => (w, some "boom")] [1]
        [Thread.dispatcher, Thread.worker 0, Thread.worker 0, Thread.dispatcher,
         Thread.worker 0, Thread.worker 0, Thread.worker 0, Thread.dispatcher, Thread.worker 0,
         Thread.worker 0, Thread.watcher, Thread.watcher, Thread.watcher, Thread.main,
         Thread.main] 0).calls ∧
    ((∃ msg pre post,
        some "parallel job \x7bjob\x7d fail ,time=1s,err:task 1 execute failed: boom" = some msg ∧
        msg = pre ++ ("task " ++ toString 1 ++ " execute failed: " ++ "boom") ++ post) ∧
      (∃ f w1, [fun (w : Nat) => (w + 1, none), fun w => (w, some "boom")][1]? = some f ∧
        (f w1).2 = some "boom")) :=
  ⟨by decide, by decide,
    (Run_error_names_failed_index 4 "1s" "job"
      [fun (w : Nat) => (w + 1, none), fun w => (w, some "boom")] [1]
      (by decide) (by simp)).2
      [Thread.dispatcher, Thread.worker 0, Thread.worker 0, Thread.dispatcher,
       Thread.worker 0, Thread.worker 0, Thread.worker 0, Thread.dispatcher, Thread.worker 0,
       Thread.worker 0, Thread.watcher, Thread.watcher, Thread.watcher, Thread.main,
       Thread.main] 0
      (some "parallel job \x7bjob\x7d fail ,time=1s,err:task 1 execute failed: boom")
      1 "boom" (by decide) (by decide)⟩

theorem aggregateHead_append (name elapsed rest : String) :
    aggregateHead name elapsed ++ rest =
      "parallel job \x7b" ++ name ++ "\x7d fail" ++ (" ,time=" ++ elapsed ++ ",err:" ++ rest) := by
  have h : ("\x7d fail ,time=" : String) = "\x7d fail" ++ " ,time=" := by decide
  unfold aggregateHead
  rw [h]
  simp only [String.append_assoc]

/-- C7: `job.run` with a non-negative `parallelSize` returns under every schedule:
the goroutines move at most `5 * len(tasks) + 4 * parallelSize + 4` times, and when
none of them can move the caller has returned.  When it has returned and at least
one call of a task failed, the returned message is `parallel job {name} fail`
followed by ` ,time=`, the elapsed time, `,err:` and the comma-join of a list of
messages that is a permutation of the messages `task i execute failed: e`, one for
each call of index `i` that returned the error `e`, none for a call that returned
nil.  No index is called twice, and with at least one worker every task is called
exactly once.  When it has returned and no call failed, it has returned nil. -/
theorem job_run_aggregate_message {σ : Type} (j : job σ) (elapsed : String)
    (hsz : 0 ≤ j.parallelSize) :
    (∀ sched w, j.moves elapsed sched (j.init, w) ≤ 5 * j.task.length + 4 * j.cap + 4) ∧
    (∀ sched w, j.halted elapsed (j.exec elapsed sched (j.init, w)) →
      (j.exec elapsed sched (j.init, w)).1.result.isSome = true) ∧
    (∀ sched w r, (j.exec elapsed sched (j.init, w)).1.result = some r →
      (∃ i e, (i, some e) ∈ (j.exec elapsed sched (j.init, w)).1.log) →
      ∃ msgs,
        r = some ("parallel job \x7b" ++ j.name ++ "\x7d fail" ++
              (" ,time=" ++ elapsed ++ ",err:" ++ String.intercalate "," msgs)) ∧
        msgs.Perm ((j.exec elapsed sched (j.init, w)).1.log.filterMap
          (fun c => c.2.map (fun e => "task " ++ toString c.1 ++ " execute failed: " ++ e))) ∧
        ((j.exec elapsed sched (j.init, w)).1.log.map Prod.fst).Nodup ∧
        (1 ≤ j.parallelSize →
          ((j.exec elapsed sched (j.init, w)).1.log.map Prod.fst).Perm
            (List.range j.task.length))) ∧
    (∀ sched w r, (j.exec elapsed sched (j.init, w)).1.result = some r →
      (∀ c ∈ (j.exec elapsed sched (j.init, w)).1.log, c.2 = none) → r = none) := by
  have hI0 := job.Inv.init j elapsed hsz
  refine ⟨?_, ?_, ?_, ?_⟩
  · intro sched w
    have h1 := job.moves_le elapsed sched (j.init, w) hI0
    have h2 := job.measure_init j
    simp only at h1
    omega
  · intro sched w hh
    exact (job.Inv.exec sched (j.init, w) hI0).progress hh
  · intro sched w r hr hfail
    have hI := job.Inv.exec sched (j.init, w) hI0
    obtain ⟨hagg, hfp, hperm⟩ := hI.returned hr
    obtain ⟨i, e, hie⟩ := hfail
    have hmem : wrapErr i e ∈ (j.exec elapsed sched (j.init, w)).1.errMsg :=
      hfp.symm.subset (mem_logFails hie)
    refine ⟨(j.exec elapsed sched (j.init, w)).1.errMsg, ?_, hfp, hI.log_nodup, ?_⟩
    · rw [hagg]
      unfold aggregate
      rw [if_pos (List.length_pos_of_mem hmem), aggregateHead_append]
    · intro h1
      exact hperm (by simp only [job.cap]; omega)
  · intro sched w r hr hall
    have hI := job.Inv.exec sched (j.init, w) hI0
    obtain ⟨hagg, hfp, -⟩ := hI.returned hr
    rw [hagg, aggregate_eq_none]
    rw [logFails_eq_nil.mpr hall] at hfp
    exact hfp.eq_nil

theorem job_run_aggregate_message_witness :
    (0 : Int) ≤ job.exampleJob.parallelSize ∧
    (job.exampleJob.exec "1s" job.exampleSchedule (job.exampleJob.init, 0)).1.result
      = some (some ("parallel job \x7bjob\x7d fail ,time=1s,err:" ++
          "task 1 execute failed: b,task 0 execute failed: a")) ∧
    (job.exampleJob.exec "1s" job.exampleSchedule (job.exampleJob.init, 0)).1.log
      = [(1, some "b"), (0, some "a")] ∧
    job.exampleJob.moves "1s" job.exampleSchedule (job.exampleJob.init, 0)
      ≤ 5 * job.exampleJob.task.length + 4 * job.exampleJob.cap + 4 ∧
    (∃ msgs,
      some ("parallel job \x7bjob\x7d fail ,time=1s,err:" ++
          "task 1 execute failed: b,task 0 execute failed: a")
        = some ("parallel job \x7b" ++ job.exampleJob.name ++ "\x7d fail" ++
              (" ,time=" ++ "1s" ++ ",err:" ++ String.intercalate "," msgs)) ∧
      msgs.Perm
        ((job.exampleJob.exec "1s" job.exampleSchedule (job.exampleJob.init, 0)).1.log.filterMap
          (fun c => c.2.map (fun e => "task " ++ toString c.1 ++ " execute failed: " ++ e))) ∧
      ((job.exampleJob.exec "1s" job.exampleSchedule
          (job.exampleJob.init, 0)).1.log.map Prod.fst).Nodup ∧
      (1 ≤ job.exampleJob.parallelSize →
        ((job.exampleJob.exec "1s" job.exampleSchedule
            (job.exampleJob.init, 0)).1.log.map Prod.fst).Perm
          (List.range job.exampleJob.task.length))) :=
  ⟨by decide, by decide, by decide,
    (job_run_aggregate_message job.exampleJob "1s" (by decide)).1 job.exampleSchedule 0,
    (job_run_aggregate_message job.exampleJob "1s" (by decide)).2.2.1 job.exampleSchedule 0
      (some ("parallel job \x7bjob\x7d fail ,time=1s,err:" ++
          "task 1 execute failed: b,task 0 execute failed: a"))
      (by decide) ⟨1, "b", by decide⟩⟩

theorem take_set_self {α : Type} (l : List α) (i : Nat) (a : α) :
    (l.set i a).take i = l.take i :=
  List.ext_getElem? fun k => by
    rw [List.getElem?_take, List.getElem?_take]
    split
    · rw [List.getElem?_set_ne (by omega)]
    · rfl

theorem fillTasks_eq {T σ : Type} (mk : T → Func σ) :
    ∀ (vs : List T) (i : Nat) (acc : List (Func σ)), acc.length = i + vs.length →
      fillTasks mk vs i acc = acc.take i ++ vs.map mk
  | [], i, acc, h => by
    simp only [fillTasks, List.map_nil, List.append_nil]
    rw [List.take_of_length_le (by simp at h; omega)]
  | v :: vs, i, acc, h => by
    simp only [fillTasks]
    rw [fillTasks_eq mk vs (i + 1) (acc.set i (mk v)) (by simp at h ⊢; omega)]
    have hi : i < acc.length := by simp at h; omega
    rw [List.take_succ, take_set_self, List.getElem?_set_self hi]
    simp

/-- Every entry of the slice made by `make` is overwritten by the loop: entry `i`
is the closure built for element `i`. -/
theorem fillTasks_replicate {T σ : Type} (mk : T → Func σ) (vs : List T) (x : Func σ) :
    fillTasks mk vs 0 (List.replicate vs.length x) = vs.map mk := by
  rw [fillTasks_eq mk vs 0 _ (by simp)]
  simp

/-- What holds when a call of `Run` with at least one worker has returned. -/
theorem Run.returned_facts {σ : Type} {d : Int} (elapsed : String) {name : String}
    {tasks : List (Func σ)} {ps : List Int} {j : job σ}
    (h : Run.start d name tasks ps = RunStart.built j) (hcap : 1 ≤ j.parallelSize)
    {s : JobState σ} (hI : j.Inv elapsed s) {r : Option String} (hr : s.result = some r) :
    (s.log.map Prod.fst).Perm (List.range tasks.length) ∧
    (r = none ↔ ∀ c ∈ s.log, c.2 = none) ∧
    (∀ i e, (i, e) ∈ s.log → ∃ f w1, tasks[i]? = some f ∧ (f w1).2 = e) ∧
    (∀ i, i < tasks.length → ∃ e, (i, e) ∈ s.log) := by
  obtain ⟨-, htask, -, -, -⟩ := Run.start_built_inv h
  obtain ⟨hagg, hfp, hperm⟩ := hI.returned hr
  have hperm := hperm (by simp only [job.cap]; omega)
  rw [htask] at hperm
  refine ⟨hperm, ?_, ?_, ?_⟩
  · rw [hagg, aggregate_eq_none, ← logFails_eq_nil]
    constructor
    · intro h; rw [h] at hfp; exact hfp.symm.eq_nil
    · intro h; rw [h] at hfp; exact hfp.eq_nil
  · intro i e hie
    obtain ⟨f, hf, w1, hw⟩ := hI.log_src i e hie
    rw [htask] at hf
    exact ⟨f, w1, hf, hw⟩
  · intro i hi
    have h1 : i ∈ s.log.map Prod.fst := hperm.symm.subset (List.mem_range.mpr hi)
    obtain ⟨c, hc, rfl⟩ := List.mem_map.mp h1
    exact ⟨c.2, hc⟩

theorem Foreach.taskName_ne {name : List String} (hname : ∀ n ∈ name.head?, n ≠ "") :
    Foreach.taskName name ≠ "" := by
  unfold Foreach.taskName
  cases name with
  | nil => decide
  | cons n rest => exact hname n (by simp)

/-- C8: with `defaultParallelSize ≥ 1`, for non-empty `items` and no name or a
non-empty name, the task `Foreach` builds for position `i` calls `fn` on
`items[i]`; `Foreach` returns under every schedule; when it has returned, `fn` has
been called exactly once on every element; it returns `nil` if and only if all
these calls returned `nil`, in particular when `fn` returns no error on any
element, and it returns a non-nil error (the aggregate of `job.run`) when `fn`
returns an error on at least one element. -/
theorem Foreach_returns_nil_iff {T σ : Type} (d : Int) (elapsed : String) (items : List T)
    (fn : T → Func σ) (name : List String) (hd : 1 ≤ d) (hitems : items ≠ [])
    (hname : ∀ n ∈ name.head?, n ≠ "") :
    (∀ i : Nat, (Foreach.taskFunc items fn)[i]? = (items[i]?).map fn) ∧
    Run.Terminates d elapsed (Foreach.taskName name) (Foreach.taskFunc items fn) [d] ∧
    (∀ sched w r, (Foreach.exec d elapsed items fn name sched w).returned = some r →
      ((Foreach.exec d elapsed items fn name sched w).calls.map Prod.fst).Perm
        (List.range items.length) ∧
      (∀ i e, (i, e) ∈ (Foreach.exec d elapsed items fn name sched w).calls →
        ∃ x w1, items[i]? = some x ∧ (fn x w1).2 = e) ∧
      (r = none ↔ ∀ c ∈ (Foreach.exec d elapsed items fn name sched w).calls, c.2 = none) ∧
      ((∀ x ∈ items, ∀ w1, (fn x w1).2 = none) → r = none) ∧
      ((∃ x ∈ items, ∀ w1, (fn x w1).2 ≠ none) →
        ∃ errMsg, errMsg ≠ [] ∧
          r = some (aggregateHead (Foreach.taskName name) elapsed ++
                String.intercalate "," errMsg))) := by
  have htf : Foreach.taskFunc items fn = items.map fn := by
    unfold Foreach.taskFunc
    exact fillTasks_replicate _ items nilFunc
  have hlen : (Foreach.taskFunc items fn).length = items.length := by rw [htf]; simp
  have hne : Foreach.taskFunc items fn ≠ [] := by
    rw [htf]; simpa using hitems
  have hn : 0 < (Foreach.taskFunc items fn).length := List.length_pos.mpr hne
  have hu := useParallelSize_pos d (Foreach.taskFunc items fn).length [d] hd hn (by simpa using hd)
  have hs := Run.start_built d (Foreach.taskName name) (Foreach.taskFunc items fn) [d]
    (Foreach.taskName_ne hname) hne (by omega)
  refine ⟨?_, Run.terminates_of_built hs, ?_⟩
  · intro i
    rw [htf, List.getElem?_map]
  · intro sched w r hr
    simp only [Foreach.exec, Run.exec, hs] at hr ⊢
    obtain ⟨hI, -⟩ := Run.exec_inv elapsed hs sched w
    obtain ⟨hperm, hnil, hsrc, hcover⟩ := Run.returned_facts elapsed hs hu hI hr
    have hagg := (hI.returned hr).1
    generalize (job.exec _ elapsed sched (job.init _, w)).1 = s at hr hI hperm hnil hsrc hcover hagg
    rw [hlen] at hperm hcover
    have hsrc2 : ∀ i e, (i, e) ∈ s.log → ∃ x w1, items[i]? = some x ∧ (fn x w1).2 = e := by
      intro i e hie
      obtain ⟨f, w1, hf, hw⟩ := hsrc i e hie
      rw [htf, List.getElem?_map] at hf
      cases hx : items[i]? with
      | none => rw [hx] at hf; simp at hf
      | some x =>
        rw [hx] at hf
        simp only [Option.map_some', Option.some.injEq] at hf
        exact ⟨x, w1, rfl, by rw [hf]; exact hw⟩
    refine ⟨hperm, hsrc2, hnil, ?_, ?_⟩
    · intro hall
      rw [hnil]
      intro c hc
      obtain ⟨x, w1, hx, hw⟩ := hsrc2 c.1 c.2 hc
      rw [← hw]
      exact hall x (List.getElem?_mem hx) w1
    · rintro ⟨x, hx, hbad⟩
      obtain ⟨i, hi⟩ := List.getElem?_of_mem hx
      have hil : i < items.length := (List.getElem?_eq_some_iff.mp hi).1
      obtain ⟨e, he⟩ := hcover i hil
      obtain ⟨x1, w1, hx1, hw⟩ := hsrc2 i e he
      rw [hi] at hx1
      cases hx1
      have hne : r ≠ none := by
        intro h0
        have := hnil.mp h0 (i, e) he
        simp only at this
        rw [this] at hw
        exact hbad w1 hw
      refine ⟨s.errMsg, ?_, ?_⟩
      · intro h0
        apply hne
        rw [hagg, h0]
        rfl
      · rw [hagg]
        unfold aggregate
        split
        · rfl
        · rename_i h0
          exfalso
          apply hne
          rw [hagg]
          unfold aggregate
          rw [if_neg h0]

theorem Foreach_returns_nil_iff_witness :
    (∀ i : Nat, (Foreach.taskFunc [1, 2, 3]
        (fun (x : Nat) (w : Nat) => (w + 1, if x = 2 then some "two" else none)))[i]? =
      (([1, 2, 3] : List Nat)[i]?).map
        (fun (x : Nat) (w : Nat) => (w + 1, if x = 2 then some "two" else none))) ∧
    Run.Terminates 4 "1s" (Foreach.taskName [])
      (Foreach.taskFunc [1, 2, 3]
        (fun (x : Nat) (w : Nat) => (w + 1, if x = 2 then some "two" else none))) [4] ∧
    (∀ sched w r, (Foreach.exec 4 "1s" [1, 2, 3]
        (fun (x : Nat) (w : Nat) => (w + 1, if x = 2 then some "two" else none)) []
          sched w).returned = some r →
      ((Foreach.exec 4 "1s" [1, 2, 3]
        (fun (x : Nat) (w : Nat) => (w + 1, if x = 2 then some "two" else none)) []
          sched w).calls.map Prod.fst).Perm (List.range 3) ∧
      (∀ i e, (i, e) ∈ (Foreach.exec 4 "1s" [1, 2, 3]
          (fun (x : Nat) (w : Nat) => (w + 1, if x = 2 then some "two" else none)) []
            sched w).calls →
        ∃ x w1, ([1, 2, 3] : List Nat)[i]? = some x ∧
          ((fun (x : Nat) (w : Nat) => (w + 1, if x = 2 then some "two" else none)) x w1).2
            = e) ∧
      (r = none ↔ ∀ c ∈ (Foreach.exec 4 "1s" [1, 2, 3]
          (fun (x : Nat) (w : Nat) => (w + 1, if x = 2 then some "two" else none)) []
            sched w).calls, c.2 = none) ∧
      ((∀ x ∈ ([1, 2, 3] : List Nat), ∀ w1,
          ((fun (x : Nat) (w : Nat) => (w + 1, if x = 2 then some "two" else none)) x w1).2
            = none) → r = none) ∧
      ((∃ x ∈ ([1, 2, 3] : List Nat), ∀ w1,
          ((fun (x : Nat) (w : Nat) => (w + 1, if x = 2 then some "two" else none)) x w1).2
            ≠ none) →
        ∃ errMsg, errMsg ≠ [] ∧
          r = some (aggregateHead (Foreach.taskName []) "1s" ++
                String.intercalate "," errMsg))) :=
  Foreach_returns_nil_iff 4 "1s" [1, 2, 3]
    (fun (x : Nat) (w : Nat) => (w + 1, if x = 2 then some "two" else none)) []
    (by decide) (by simp) (by simp)

theorem Map.taskFunc_eq {T V : Type} (tasks : List T) (fn : T → V × Option String) :
    Map.taskFunc tasks fn = tasks.map (Map.task fn) := by
  unfold Map.taskFunc
  exact fillTasks_replicate _ tasks nilFunc

theorem Map.Inv.map_init {T V : Type} (d : Int) (elapsed funType : String) (tasks : List T)
    (fn : T → V × Option String) (name : List String) :
    Map.Inv d elapsed funType tasks fn name (Map.init : MapState V) := by
  constructor <;> simp [Map.init]

/-- What a call of a task of `Map` does to the buffer of `respChan`. -/
theorem Map.task_effect {T V : Type} (tasks : List T) (fn : T → V × Option String)
    (td : taskDetail (List V)) (h : (Map.taskFunc tasks fn)[td.index]? = some td.execTask)
    (ch : List V) :
    (td.execTask ch).1 = ch ++ (Map.valueAt tasks fn td.index).toList := by
  rw [Map.taskFunc_eq, List.getElem?_map] at h
  unfold Map.valueAt
  cases hx : tasks[td.index]? with
  | none => rw [hx] at h; simp at h
  | some x =>
    rw [hx] at h
    simp only [Option.map_some', Option.some.injEq] at h
    rw [← h]
    simp only [Map.task, Map.okValue]
    rcases hfx : fn x with ⟨v, _ | e⟩ <;> simp

theorem Map.vals_append {T V : Type} (tasks : List T) (fn : T → V × Option String)
    (log : List (Nat × Option String)) (i : Nat) (e : Option String) :
    Map.vals tasks fn (log ++ [(i, e)]) =
      Map.vals tasks fn log ++ (Map.valueAt tasks fn i).toList := by
  unfold Map.vals
  simp only [List.map_append, List.map_cons, List.map_nil, List.filterMap_append,
    List.filterMap_cons, List.filterMap_nil]
  cases Map.valueAt tasks fn i <;> simp

theorem Map.Inv.stepJob {T V : Type} {d : Int} {elapsed funType : String} {tasks : List T}
    {fn : T → V × Option String} {name : List String} {s : MapState V}
    (hI : Map.Inv d elapsed funType tasks fn name s)
    {j : job (List V)} {js : JobState (List V)} (hrun : s.run = some (j, js))
    {t1 : Thread} {c : JobState (List V) × List V}
    (hstep : j.step elapsed t1 js s.respChan = some c) :
    s.runner = RunnerState.running ∧
      Map.Inv d elapsed funType tasks fn name { s with run := some (j, c.1), respChan := c.2 } := by
  obtain ⟨nc, ri, rn, ca, ru, an, as, ci, co, re, cf⟩ := hI
  obtain ⟨hstart, hIj, hvals⟩ := ri j js hrun
  obtain ⟨-, htask, -, -, hne⟩ := Run.start_built_inv hstart
  have hres : js.result = none := by
    cases hr : js.result with
    | none => rfl
    | some r =>
      have := hIj.halted_of_returned (w := s.respChan) (by rw [htask]; exact hne)
        (by rw [hr]; rfl) t1
      simp only at this
      rw [this] at hstep
      simp at hstep
  have hrunner : s.runner = RunnerState.running := by
    cases hru : s.runner with
    | calling => have := ca hru; rw [hrun] at this; simp at this
    | running => rfl
    | returned => have := as (Or.inl hru) j js hrun; rw [hres] at this; simp at this
    | finished => have := as (Or.inr hru) j js hrun; rw [hres] at this; simp at this
  have hopen : s.respClosed = false := by
    cases hc : s.respClosed with
    | false => rfl
    | true => have := ci.mp hc; rw [hrunner] at this; simp at this
  obtain ⟨c1, c2⟩ := c
  refine ⟨hrunner, ?_⟩
  constructor
  all_goals dsimp only
  all_goals try assumption
  case run_inv =>
    intro j' js' h
    simp only [Option.some.injEq, Prod.mk.injEq] at h
    obtain ⟨rfl, rfl⟩ := h
    refine ⟨hstart, hIj.step hstep, ?_⟩
    rcases job.step_frame hstep with ⟨h1, h2⟩ | ⟨td, hmem, h1, h2⟩
    · rw [h1, h2]; exact hvals
    · have hheld := hIj.held_task td hmem
      rw [htask] at hheld
      rw [h1, h2, Map.vals_append, Map.task_effect tasks fn td hheld, ← List.append_assoc, hvals]
  case run_none => intro h; simp at h
  case calling => intro h; rw [hrunner] at h; simp at h
  case running => intro _; rfl
  case after_none => intro _ h; simp at h
  case after_some =>
    intro h
    rw [hrunner] at h
    simp at h
  case collected =>
    intro h
    have := (co h).1
    rw [hopen] at this
    simp at this

theorem Map.start_not_panicked {T V : Type} {d : Int} (funType : String) (tasks : List T)
    (fn : T → V × Option String) (name : List String) (hd : 1 ≤ d) :
    Run.start d (Map.runName funType name) (Map.taskFunc tasks fn) [d] ≠ RunStart.panicked := by
  unfold Run.start
  split
  · simp
  · split
    · simp
    · have : ¬ useParallelSize d (Map.taskFunc tasks fn).length [d] < 0 := by
        rw [useParallelSize_eq]
        simp only
        omega
      simp [this]

theorem Map.Inv.stepRunner_of_start {T V : Type} {d : Int} {elapsed funType : String} {tasks : List T}
    {fn : T → V × Option String} {name : List String} {s s1 : MapState V} (hnp : Run.start d (Map.runName funType name) (Map.taskFunc tasks fn) [d]
      ≠ RunStart.panicked)
    (hI : Map.Inv d elapsed funType tasks fn name s)
    (h : Map.stepRunner d funType tasks fn name s = some s1) :
    Map.Inv d elapsed funType tasks fn name s1 := by
  obtain ⟨nc, ri, rn, ca, ru, an, as, ci, co, re, cf⟩ := hI
  have hnofin : s.runner ≠ RunnerState.finished → s.collector = CollectorState.collecting := by
    intro h1
    by_contra h2
    exact h1 (ci.mp (co h2).1)
  have hnoret : s.runner ≠ RunnerState.finished → s.ret = none := by
    intro h1
    cases hr : s.ret with
    | none => rfl
    | some p =>
      have := (re p.1 p.2 hr).2.2
      rw [hnofin h1] at this
      simp at this
  unfold Map.stepRunner at h
  split at h
  · rename_i hru
    have hrn := ca hru
    have hnf : s.runner ≠ RunnerState.finished := by rw [hru]; simp
    split at h
    · rename_i e hst
      simp only [Option.some.injEq] at h
      subst h
      constructor
      all_goals dsimp only
      all_goals try assumption
      case calling => intro h; simp at h
      case running => intro h; simp at h
      case after_none => intro _ _; exact ⟨e, hst, rfl⟩
      case after_some => intro _ j js h; rw [hrn] at h; simp at h
      case closed_iff =>
        constructor
        · intro h; have := ci.mp h; rw [hru] at this; simp at this
        · intro h; simp at h
      case ret_eq => intro r e1 h; rw [hnoret hnf] at h; simp at h
    · rename_i hst
      exact absurd hst hnp
    · rename_i j hst
      simp only [Option.some.injEq] at h
      subst h
      obtain ⟨hchan, hres⟩ := rn hrn
      constructor
      all_goals dsimp only
      all_goals try assumption
      case run_inv =>
        intro j1 js1 h
        simp only [Option.some.injEq, Prod.mk.injEq] at h
        obtain ⟨rfl, rfl⟩ := h
        refine ⟨hst, job.Inv.init _ elapsed (Run.start_built_inv hst).2.2.2.1, ?_⟩
        simp [hchan, hres, Map.vals, job.init]
      case run_none => intro h; simp at h
      case calling => intro h; simp at h
      case running => intro _; rfl
      case after_none => intro _ h; simp at h
      case after_some => intro h; simp at h
      case closed_iff =>
        constructor
        · intro h; have := ci.mp h; rw [hru] at this; simp at this
        · intro h; simp at h
  · rename_i hru
    have hnf : s.runner ≠ RunnerState.finished := by rw [hru]; simp
    split at h
    · rename_i j js hrun
      split at h
      · rename_i r hr
        simp only [Option.some.injEq] at h
        subst h
        constructor
        all_goals dsimp only
        all_goals try assumption
        case calling => intro h; simp at h
        case running => intro h; simp at h
        case after_none => intro _ h; rw [hrun] at h; simp at h
        case after_some =>
          intro _ j1 js1 h
          rw [hrun] at h
          simp only [Option.some.injEq, Prod.mk.injEq] at h
          obtain ⟨rfl, rfl⟩ := h
          exact hr
        case closed_iff =>
          constructor
          · intro h; have := ci.mp h; rw [hru] at this; simp at this
          · intro h; simp at h
        case ret_eq => intro r1 e1 h; rw [hnoret hnf] at h; simp at h
      · simp at h
    · simp at h
  · rename_i hru
    have hnf : s.runner ≠ RunnerState.finished := by rw [hru]; simp
    have hopen : ¬ s.respClosed = true := by
      intro h1
      exact hnf (ci.mp h1)
    rw [if_neg hopen] at h
    simp only [Option.some.injEq] at h
    subst h
    constructor
    all_goals dsimp only
    all_goals try assumption
    case calling => intro h; simp at h
    case running => intro h; simp at h
    case after_none => intro _ h; exact an (Or.inl hru) h
    case after_some => intro _ j js h; exact as (Or.inl hru) j js h
    case closed_iff => simp
    case collected =>
      intro h
      rw [hnofin hnf] at h
      simp at h
  · simp at h

theorem Map.Inv.stepRunner {T V : Type} {d : Int} {elapsed funType : String} {tasks : List T}
    {fn : T → V × Option String} {name : List String} {s s1 : MapState V} (hd : 1 ≤ d)
    (hI : Map.Inv d elapsed funType tasks fn name s)
    (h : Map.stepRunner d funType tasks fn name s = some s1) :
    Map.Inv d elapsed funType tasks fn name s1 :=
  hI.stepRunner_of_start (Map.start_not_panicked funType tasks fn name hd) h

theorem Map.Inv.stepCollector {T V : Type} {d : Int} {elapsed funType : String}
    {tasks : List T} {fn : T → V × Option String} {name : List String} {s s1 : MapState V}
    (hI : Map.Inv d elapsed funType tasks fn name s) (h : Map.stepCollector s = some s1) :
    Map.Inv d elapsed funType tasks fn name s1 := by
  obtain ⟨nc, ri, rn, ca, ru, an, as, ci, co, re, cf⟩ := hI
  unfold Map.stepCollector at h
  split at h
  · rename_i hco
    have hnoret : s.ret = none := by
      cases hr : s.ret with
      | none => rfl
      | some p =>
        have := (re p.1 p.2 hr).2.2
        rw [hco] at this
        simp at this
    split at h
    · rename_i ch rest hch
      simp only [Option.some.injEq] at h
      subst h
      constructor
      all_goals dsimp only
      all_goals try assumption
      case run_inv =>
        intro j js h
        obtain ⟨h1, h2, h3⟩ := ri j js h
        refine ⟨h1, h2, ?_⟩
        rw [← h3, hch]
        simp
      case run_none =>
        intro h
        have := (rn h).1
        rw [hch] at this
        simp at this
      case collected => intro h; exact absurd hco h
      case ret_eq => intro r e h; rw [hnoret] at h; simp at h
    · rename_i hch
      split at h
      · rename_i hcl
        simp only [Option.some.injEq] at h
        subst h
        constructor
        all_goals dsimp only
        all_goals try assumption
        case collected => intro _; exact ⟨hcl, hch⟩
        case ret_eq => intro r e h; rw [hnoret] at h; simp at h
        case coll_fin => intro h; simp at h
      · simp at h
  · simp at h

theorem Map.Inv.stepCaller {T V : Type} {d : Int} {elapsed funType : String}
    {tasks : List T} {fn : T → V × Option String} {name : List String} {s s1 : MapState V}
    (hI : Map.Inv d elapsed funType tasks fn name s) (h : Map.stepMain s = some s1) :
    Map.Inv d elapsed funType tasks fn name s1 := by
  obtain ⟨nc, ri, rn, ca, ru, an, as, ci, co, re, cf⟩ := hI
  unfold Map.stepMain at h
  split at h
  · simp at h
  · split at h
    · rename_i hco
      simp only [Option.some.injEq] at h
      subst h
      constructor
      all_goals dsimp only
      all_goals try assumption
      case collected => intro _; exact co (by rw [hco]; simp)
      case ret_eq =>
        intro r e h
        simp only [Option.some.injEq, Prod.mk.injEq] at h
        exact ⟨h.1.symm, h.2.symm, rfl⟩
      case coll_fin => intro _; rfl
    · simp at h

theorem Map.Inv.map_step_of_start {T V : Type} {d : Int} {elapsed funType : String}
    {tasks : List T} {fn : T → V × Option String} {name : List String} {s s1 : MapState V}
    {t : MapThread} (hnp : Run.start d (Map.runName funType name) (Map.taskFunc tasks fn) [d]
      ≠ RunStart.panicked) (hI : Map.Inv d elapsed funType tasks fn name s)
    (h : Map.step d elapsed funType tasks fn name t s = some s1) :
    Map.Inv d elapsed funType tasks fn name s1 := by
  unfold Map.step at h
  split at h
  · simp at h
  · cases t with
    | job t1 =>
      simp only at h
      split at h
      · rename_i j js hrun
        simp only [Option.map_eq_some'] at h
        obtain ⟨c, hc, rfl⟩ := h
        exact (hI.stepJob hrun hc).2
      · simp at h
    | runner => exact hI.stepRunner_of_start hnp h
    | collector => exact hI.stepCollector h
    | main => exact hI.stepCaller h

theorem Map.Inv.map_step {T V : Type} {d : Int} {elapsed funType : String}
    {tasks : List T} {fn : T → V × Option String} {name : List String} {s s1 : MapState V}
    {t : MapThread} (hd : 1 ≤ d) (hI : Map.Inv d elapsed funType tasks fn name s)
    (h : Map.step d elapsed funType tasks fn name t s = some s1) :
    Map.Inv d elapsed funType tasks fn name s1 :=
  hI.map_step_of_start (Map.start_not_panicked funType tasks fn name hd) h

theorem Map.Inv.map_exec_of_start {T V : Type} {d : Int} {elapsed funType : String}
    {tasks : List T} {fn : T → V × Option String} {name : List String} (hnp : Run.start d (Map.runName funType name) (Map.taskFunc tasks fn) [d]
      ≠ RunStart.panicked) :
    ∀ (sched : List MapThread) (s : MapState V), Map.Inv d elapsed funType tasks fn name s →
      Map.Inv d elapsed funType tasks fn name
        (Map.exec d elapsed funType tasks fn name sched s)
  | [], _, h => h
  | t :: ts, s, h => by
    unfold Map.exec
    cases hs : Map.step d elapsed funType tasks fn name t s with
    | none => simpa using Map.Inv.map_exec_of_start hnp ts s h
    | some s1 => exact Map.Inv.map_exec_of_start hnp ts s1 (h.map_step_of_start hnp hs)

theorem Map.Inv.map_exec {T V : Type} {d : Int} {elapsed funType : String}
    {tasks : List T} {fn : T → V × Option String} {name : List String} (hd : 1 ≤ d) :
    ∀ (sched : List MapThread) (s : MapState V), Map.Inv d elapsed funType tasks fn name s →
      Map.Inv d elapsed funType tasks fn name
        (Map.exec d elapsed funType tasks fn name sched s) :=
  Map.Inv.map_exec_of_start (Map.start_not_panicked funType tasks fn name hd)

theorem Map.taskFunc_length {T V : Type} (tasks : List T) (fn : T → V × Option String) :
    (Map.taskFunc tasks fn).length = tasks.length := by
  rw [Map.taskFunc_eq]; simp

theorem Map.map_measure_step_of_start {T V : Type} {d : Int} {elapsed funType : String}
    {tasks : List T} {fn : T → V × Option String} {name : List String} {s s1 : MapState V}
    {t : MapThread} (hnp : Run.start d (Map.runName funType name) (Map.taskFunc tasks fn) [d]
      ≠ RunStart.panicked) (hI : Map.Inv d elapsed funType tasks fn name s)
    (h : Map.step d elapsed funType tasks fn name t s = some s1) :
    s1.measure tasks.length < s.measure tasks.length := by
  unfold Map.step at h
  split at h
  · simp at h
  · cases t with
    | job t1 =>
      simp only at h
      split at h
      · rename_i j js hrun
        simp only [Option.map_eq_some'] at h
        obtain ⟨c, hc, rfl⟩ := h
        obtain ⟨hstart, hIj, -⟩ := hI.run_inv j js hrun
        obtain ⟨-, htask, -, -, -⟩ := Run.start_built_inv hstart
        have hm := job.measure_step hIj hc
        have hlen : c.2.length ≤ s.respChan.length + 1 := by
          rcases job.step_frame hc with ⟨-, h2⟩ | ⟨td, hmem, -, h2⟩
          · rw [h2]; omega
          · have hheld := hIj.held_task td hmem
            rw [htask] at hheld
            rw [h2, Map.task_effect tasks fn td hheld]
            cases Map.valueAt tasks fn td.index <;> simp
        simp only [MapState.measure, hrun]
        omega
      · simp at h
    | runner =>
      simp only at h
      unfold Map.stepRunner at h
      split at h
      · rename_i hru
        have hrn := hI.calling hru
        split at h
        · simp only [Option.some.injEq] at h
          subst h
          simp only [MapState.measure, hrn, hru, RunnerState.weight]
          omega
        · rename_i hst
          exact absurd hst hnp
        · rename_i j hst
          simp only [Option.some.injEq] at h
          subst h
          obtain ⟨-, htask, hsz, -, -⟩ := Run.start_built_inv hst
          have h1 := job.measure_init j
          have h2 := useParallelSize_le_length d (Map.taskFunc tasks fn).length [d]
          have h3 := Map.taskFunc_length tasks fn
          have h4 : j.task.length = tasks.length := by rw [htask, h3]
          have h5 : j.cap ≤ tasks.length := by
            unfold job.cap
            omega
          simp only [MapState.measure, hrn, hru, RunnerState.weight]
          omega
      · rename_i hru
        split at h
        · split at h
          · simp only [Option.some.injEq] at h
            subst h
            simp only [MapState.measure, hru, RunnerState.weight]
            omega
          · simp at h
        · simp at h
      · rename_i hru
        split at h
        · rename_i hcl
          have := hI.closed_iff.mp hcl
          rw [hru] at this
          simp at this
        · simp only [Option.some.injEq] at h
          subst h
          simp only [MapState.measure, hru, RunnerState.weight]
          omega
      · simp at h
    | collector =>
      simp only at h
      unfold Map.stepCollector at h
      split at h
      · rename_i hco
        split at h
        · rename_i ch rest hch
          simp only [Option.some.injEq] at h
          subst h
          simp only [MapState.measure, hch, List.length_cons]
          omega
        · split at h
          · simp only [Option.some.injEq] at h
            subst h
            simp only [MapState.measure, hco, CollectorState.weight]
            omega
          · simp at h
      · simp at h
    | main =>
      simp only at h
      unfold Map.stepMain at h
      split at h
      · simp at h
      · rename_i hr
        split at h
        · rename_i hco
          simp only [Option.some.injEq] at h
          subst h
          simp only [MapState.measure, hco, CollectorState.weight, hr]
          simp only [Option.isSome_some, if_true, Bool.false_eq_true, if_false]
          omega
        · simp at h

theorem Map.map_measure_step {T V : Type} {d : Int} {elapsed funType : String}
    {tasks : List T} {fn : T → V × Option String} {name : List String} {s s1 : MapState V}
    {t : MapThread} (hd : 1 ≤ d) (hI : Map.Inv d elapsed funType tasks fn name s)
    (h : Map.step d elapsed funType tasks fn name t s = some s1) :
    s1.measure tasks.length < s.measure tasks.length :=
  Map.map_measure_step_of_start (Map.start_not_panicked funType tasks fn name hd) hI h

theorem Map.map_moves_le_of_start {T V : Type} {d : Int} (elapsed funType : String)
    {tasks : List T} {fn : T → V × Option String} {name : List String} (hnp : Run.start d (Map.runName funType name) (Map.taskFunc tasks fn) [d]
      ≠ RunStart.panicked) :
    ∀ (sched : List MapThread) (s : MapState V), Map.Inv d elapsed funType tasks fn name s →
      Map.moves d elapsed funType tasks fn name sched s
          + (Map.exec d elapsed funType tasks fn name sched s).measure tasks.length
        ≤ s.measure tasks.length
  | [], s, _ => by simp [Map.moves, Map.exec]
  | t :: ts, s, hI => by
    unfold Map.moves Map.exec
    cases hs : Map.step d elapsed funType tasks fn name t s with
    | none => simpa using Map.map_moves_le_of_start elapsed funType hnp ts s hI
    | some s1 =>
      have h1 := Map.map_moves_le_of_start elapsed funType hnp ts s1 (hI.map_step_of_start hnp hs)
      have h2 := Map.map_measure_step_of_start hnp hI hs
      simp only [Option.getD_some] at h1 ⊢
      omega

theorem Map.map_moves_le {T V : Type} {d : Int} (elapsed funType : String)
    {tasks : List T} {fn : T → V × Option String} {name : List String} (hd : 1 ≤ d) :
    ∀ (sched : List MapThread) (s : MapState V), Map.Inv d elapsed funType tasks fn name s →
      Map.moves d elapsed funType tasks fn name sched s
          + (Map.exec d elapsed funType tasks fn name sched s).measure tasks.length
        ≤ s.measure tasks.length :=
  Map.map_moves_le_of_start elapsed funType (Map.start_not_panicked funType tasks fn name hd)

/-- A call of `Map` whose caller has not returned can move. -/
theorem Map.Inv.map_progress {T V : Type} {d : Int} {elapsed funType : String}
    {tasks : List T} {fn : T → V × Option String} {name : List String} {s : MapState V}
    (hI : Map.Inv d elapsed funType tasks fn name s)
    (hh : Map.halted d elapsed funType tasks fn name s) : s.ret.isSome = true := by
  by_contra hr
  have hjc : s.jobCrashed = false := by
    unfold MapState.jobCrashed
    split
    · rename_i j js hrun
      exact (hI.run_inv j js hrun).2.1.not_crashed
    · rfl
  have hguard : ¬ ((s.crashed || s.jobCrashed) = true) := by
    rw [hI.not_crashed, hjc]; simp
  have hmain := hh MapThread.main
  have hcol := hh MapThread.collector
  have hrun := hh MapThread.runner
  simp only [Map.step, if_neg hguard] at hmain hcol hrun
  -- the collector is still in its loop
  have hco : s.collector = CollectorState.collecting := by
    cases hc : s.collector with
    | collecting => rfl
    | signalling =>
      unfold Map.stepMain at hmain
      rw [if_neg hr, hc] at hmain
      simp at hmain
    | finished => exact absurd (hI.coll_fin hc) hr
  -- it is blocked: the channel is empty and open
  have hchan : s.respChan = [] ∧ s.respClosed = false := by
    unfold Map.stepCollector at hcol
    rw [hco] at hcol
    simp only at hcol
    split at hcol
    · simp at hcol
    · rename_i hch
      split at hcol
      · simp at hcol
      · rename_i hcl
        exact ⟨hch, by simpa using hcl⟩
  unfold Map.stepRunner at hrun
  split at hrun
  · split at hrun <;> simp at hrun
  · rename_i hru
    obtain ⟨p, hp⟩ := Option.isSome_iff_exists.mp (hI.running hru)
    obtain ⟨j, js⟩ := p
    rw [hp] at hrun
    simp only at hrun
    split at hrun
    · simp at hrun
    · rename_i hres
      have hIj := (hI.run_inv j js hp).2.1
      have hhalt : j.halted elapsed (js, s.respChan) := by
        intro t1
        have := hh (MapThread.job t1)
        simp only [Map.step, if_neg hguard, hp, Option.map_eq_none'] at this
        exact this
      have := hIj.progress hhalt
      rw [hres] at this
      simp at this
  · split at hrun <;> simp at hrun
  · rename_i hru
    have := hI.closed_iff.mpr hru
    rw [hchan.2] at this
    simp at this

theorem filterMap_range_getElem {α β : Type} (g : α → Option β) :
    ∀ (l : List α), (List.range l.length).filterMap (fun i => (l[i]?).bind g) = l.filterMap g
  | [] => by simp
  | a :: l => by
    have ih := filterMap_range_getElem g l
    rw [List.length_cons, List.range_succ_eq_map, List.filterMap_cons, List.filterMap_map]
    simp only [List.getElem?_cons_zero, Option.some_bind, List.filterMap_cons]
    have : ((fun i => ((a :: l)[i]?).bind g) ∘ Nat.succ) = (fun i => (l[i]?).bind g) := by
      funext i
      simp
    rw [this, ih]

theorem Map.valueAt_eq {T V : Type} (tasks : List T) (fn : T → V × Option String) :
    Map.valueAt tasks fn = fun i => (tasks[i]?).bind (Map.okValue fn) := by
  funext i
  unfold Map.valueAt
  cases tasks[i]? <;> rfl

theorem Map.runName_ne (funType : String) (name : List String) :
    Map.runName funType name ≠ "" := by
  intro h
  have h1 : (Map.runName funType name).length = 0 := by rw [h]; rfl
  unfold Map.runName at h1
  simp only [String.length_append] at h1
  have h2 : ("并行处理 " : String).length = 5 := by decide
  omega

theorem Map.terminates_of_start {T V : Type} (d : Int) (elapsed funType : String) (tasks : List T)
    (fn : T → V × Option String) (name : List String) (hnp : Run.start d (Map.runName funType name) (Map.taskFunc tasks fn) [d]
      ≠ RunStart.panicked) :
    Map.Terminates (V := V) d elapsed funType tasks fn name := by
  have hI0 := Map.Inv.map_init (V := V) d elapsed funType tasks fn name
  constructor
  · intro sched
    have h1 := Map.map_moves_le_of_start elapsed funType hnp sched Map.init hI0
    have h2 : (Map.init : MapState V).measure tasks.length = 18 * tasks.length + 15 := by
      simp [MapState.measure, Map.init, RunnerState.weight, CollectorState.weight]
      omega
    omega
  · intro sched hh
    exact (Map.Inv.map_exec_of_start hnp sched Map.init hI0).map_progress hh

theorem Map.terminates {T V : Type} (d : Int) (elapsed funType : String) (tasks : List T)
    (fn : T → V × Option String) (name : List String) (hd : 1 ≤ d) :
    Map.Terminates (V := V) d elapsed funType tasks fn name :=
  Map.terminates_of_start d elapsed funType tasks fn name
    (Map.start_not_panicked funType tasks fn name hd)

theorem Map.task_error {T V : Type} (fn : T → V × Option String) (x : T) (ch : List V) :
    (Map.task fn x ch).2 = (fn x).2 := by
  simp only [Map.task]
  rcases hfx : fn x with ⟨v, _ | e⟩ <;> simp

/-- What `Map` returns, for a non-empty list of elements. -/
theorem Map.map_returned_facts {T V : Type} {d : Int} {elapsed funType : String}
    {tasks : List T} {fn : T → V × Option String} {name : List String} {s : MapState V}
    (hd : 1 ≤ d) (htasks : tasks ≠ []) (hI : Map.Inv d elapsed funType tasks fn name s)
    {res : List V} {err : Option String} (hret : s.ret = some (res, err)) :
    res.Perm (tasks.filterMap (Map.okValue fn)) ∧
    (err = none ↔ ∀ x ∈ tasks, (fn x).2 = none) ∧
    ∃ errMsg, err = aggregate (Map.runName funType name) elapsed errMsg := by
  obtain ⟨hres, herr, hcol⟩ := hI.ret_eq res err hret
  obtain ⟨hclosed, hchan⟩ := hI.collected (by rw [hcol]; simp)
  have hfin := hI.closed_iff.mp hclosed
  have hne : Map.taskFunc tasks fn ≠ [] := by
    rw [Map.taskFunc_eq]; simpa using htasks
  have hn : 0 < (Map.taskFunc tasks fn).length := List.length_pos.mpr hne
  have hu := useParallelSize_pos d (Map.taskFunc tasks fn).length [d] hd hn (by simpa using hd)
  have hs := Run.start_built d (Map.runName funType name) (Map.taskFunc tasks fn) [d]
    (Map.runName_ne funType name) hne (by omega)
  cases hrun : s.run with
  | none =>
    obtain ⟨e, he, -⟩ := hI.after_none (Or.inr hfin) hrun
    rw [hs] at he
    simp at he
  | some p =>
    obtain ⟨j, js⟩ := p
    obtain ⟨hst, hIj, hvals⟩ := hI.run_inv j js hrun
    have hjr := hI.after_some (Or.inr hfin) j js hrun
    have hj : j = { name := Map.runName funType name, task := Map.taskFunc tasks fn,
                    parallelSize := useParallelSize d (Map.taskFunc tasks fn).length [d] } := by
      rw [hs] at hst
      cases hst
      rfl
    have hcap : 1 ≤ j.parallelSize := by rw [hj]; exact hu
    obtain ⟨hperm, hnil, hsrc, hcover⟩ := Run.returned_facts elapsed hst hcap hIj hjr
    rw [Map.taskFunc_length] at hperm hcover
    have hagg := (hIj.returned hjr).1
    rw [hchan, List.append_nil] at hvals
    have hsrc2 : ∀ i e, (i, e) ∈ js.log → ∃ x, tasks[i]? = some x ∧ (fn x).2 = e := by
      intro i e hie
      obtain ⟨f, w1, hf, hw⟩ := hsrc i e hie
      rw [Map.taskFunc_eq, List.getElem?_map] at hf
      cases hx : tasks[i]? with
      | none => rw [hx] at hf; simp at hf
      | some x =>
        rw [hx] at hf
        simp only [Option.map_some', Option.some.injEq] at hf
        refine ⟨x, rfl, ?_⟩
        rw [← hw, ← hf, Map.task_error]
    refine ⟨?_, ?_, ?_⟩
    · rw [hres, hvals]
      unfold Map.vals
      have := hperm.filterMap (Map.valueAt tasks fn)
      rw [Map.valueAt_eq, filterMap_range_getElem] at this
      rw [Map.valueAt_eq]
      exact this
    · rw [herr, hnil]
      constructor
      · intro h x hx
        obtain ⟨i, hi⟩ := List.getElem?_of_mem hx
        have hil : i < tasks.length := (List.getElem?_eq_some_iff.mp hi).1
        obtain ⟨e, he⟩ := hcover i hil
        obtain ⟨x1, hx1, hfx⟩ := hsrc2 i e he
        rw [hi] at hx1
        cases hx1
        rw [hfx]
        exact h (i, e) he
      · intro h c hc
        obtain ⟨x, hx, hfx⟩ := hsrc2 c.1 c.2 hc
        rw [← hfx]
        exact h x (List.getElem?_mem hx)
    · refine ⟨js.errMsg, ?_⟩
      rw [herr, hagg, hj]

theorem Map.res_nil_of_empty {T V : Type} {d : Int} {elapsed funType : String}
    {fn : T → V × Option String} {name : List String} {s : MapState V}
    (hI : Map.Inv d elapsed funType ([] : List T) fn name s) : s.res = [] := by
  cases hrun : s.run with
  | none => exact (hI.run_none hrun).2
  | some p =>
    obtain ⟨j, js⟩ := p
    have hst := (hI.run_inv j js hrun).1
    have := (Run.start_built_inv hst).2.2.2.2
    simp [Map.taskFunc, fillTasks] at this

theorem Map.okValue_of_ok {T V : Type} {fn : T → V × Option String} {x : T}
    (h : (fn x).2 = none) : Map.okValue fn x = some (fn x).1 := by
  unfold Map.okValue
  rcases hfx : fn x with ⟨v, _ | e⟩
  · rfl
  · rw [hfx] at h; simp at h

theorem Map.okValue_eq_some {T V : Type} {fn : T → V × Option String} {x : T} {v : V}
    (h : Map.okValue fn x = some v) : fn x = (v, none) := by
  unfold Map.okValue at h
  rcases hfx : fn x with ⟨v1, _ | e⟩
  · rw [hfx] at h; simp only [Option.some.injEq] at h; rw [h]
  · rw [hfx] at h; simp at h

theorem Map.filterMap_okValue_of_ok {T V : Type} {fn : T → V × Option String} :
    ∀ {tasks : List T}, (∀ x ∈ tasks, (fn x).2 = none) →
      tasks.filterMap (Map.okValue fn) = tasks.map (fun x => (fn x).1)
  | [], _ => rfl
  | a :: l, h => by
    rw [List.filterMap_cons, Map.okValue_of_ok (h a (List.mem_cons_self _ _)), List.map_cons,
      Map.filterMap_okValue_of_ok (fun x hx => h x (List.mem_cons_of_mem _ hx))]

theorem Map.okValue_isSome {T V : Type} (fn : T → V × Option String) (x : T) :
    (Map.okValue fn x).isSome = (fn x).2.isNone := by
  unfold Map.okValue
  rcases hfx : fn x with ⟨v, _ | e⟩ <;> rfl

theorem Map.length_filterMap_okValue {T V : Type} (fn : T → V × Option String) :
    ∀ (tasks : List T),
      (tasks.filterMap (Map.okValue fn)).length = tasks.countP (fun x => (fn x).2.isNone)
  | [] => rfl
  | a :: l => by
    have ih := Map.length_filterMap_okValue fn l
    have h1 := Map.okValue_isSome fn a
    rw [List.filterMap_cons, List.countP_cons, ← h1]
    cases Map.okValue fn a <;> simp [ih]

/-- C9: with `defaultParallelSize ≥ 1` and a function `fn` of its argument that
succeeds on every element, `Map(items, fn)` returns under every schedule, and the
values it returns are a permutation of the values `fn(x)` for `x` in `items` (same
length as `items`); for non-empty `items` the returned error is `nil`. -/
theorem Map_values_round_trip {T V : Type} (d : Int) (elapsed funType : String)
    (items : List T) (fn : T → V × Option String) (name : List String) (hd : 1 ≤ d)
    (hok : ∀ x ∈ items, (fn x).2 = none) :
    Map.Terminates d elapsed funType items fn name ∧
    (∀ sched res err,
      (Map.exec d elapsed funType items fn name sched Map.init).ret = some (res, err) →
      res.Perm (items.map (fun x => (fn x).1)) ∧ res.length = items.length ∧
        (items ≠ [] → err = none)) := by
  refine ⟨Map.terminates d elapsed funType items fn name hd, ?_⟩
  intro sched res err hret
  have hI := Map.Inv.map_exec hd sched Map.init
    (Map.Inv.map_init (V := V) d elapsed funType items fn name)
  have hperm : res.Perm (items.map (fun x => (fn x).1)) := by
    by_cases hitems : items = []
    · subst hitems
      have h1 := Map.res_nil_of_empty hI
      have h2 := (hI.ret_eq res err hret).1
      rw [h2, h1]
      exact List.Perm.refl _
    · have := (Map.map_returned_facts hd hitems hI hret).1
      rw [Map.filterMap_okValue_of_ok hok] at this
      exact this
  refine ⟨hperm, by simpa using hperm.length_eq, ?_⟩
  intro hitems
  exact (Map.map_returned_facts hd hitems hI hret).2.1.mpr hok

set_option maxRecDepth 100000 in
theorem Map_values_round_trip_witness :
    (Map.exec 4 "1s" "func(int) (int, error)" [1, 2]
        (fun (x : Nat) => (x * 2, (none : Option String))) [] Map.exampleSchedule Map.init).ret
      = some ([4, 2], none) ∧
    ([4, 2].Perm (([1, 2] : List Nat).map
          (fun x => ((fun (x : Nat) => (x * 2, (none : Option String))) x).1)) ∧
      [4, 2].length = ([1, 2] : List Nat).length ∧
      (([1, 2] : List Nat) ≠ [] → (none : Option String) = none)) :=
  ⟨by decide,
    (Map_values_round_trip 4 "1s" "func(int) (int, error)" [1, 2]
      (fun (x : Nat) => (x * 2, (none : Option String))) [] (by decide) (by simp)).2
      Map.exampleSchedule [4, 2] none (by decide)⟩

/-- C10: with `defaultParallelSize ≥ 1`, for non-empty `items` and a function `fn`
of its argument that fails on at least one element, `Map(items, fn)` returns under
every schedule a non-nil aggregate error together with values that are a
permutation of the values `fn` produced on the elements where it succeeded: one
value per such element, none for an element on which `fn` failed. -/
theorem Map_partial_results {T V : Type} (d : Int) (elapsed funType : String)
    (items : List T) (fn : T → V × Option String) (name : List String) (hd : 1 ≤ d)
    (hitems : items ≠ []) (hfail : ∃ x ∈ items, (fn x).2 ≠ none) :
    Map.Terminates d elapsed funType items fn name ∧
    (∀ sched res err,
      (Map.exec d elapsed funType items fn name sched Map.init).ret = some (res, err) →
      (∃ errMsg, errMsg ≠ [] ∧
        err = some (aggregateHead (Map.runName funType name) elapsed ++
                String.intercalate "," errMsg)) ∧
      res.Perm (items.filterMap (Map.okValue fn)) ∧
      res.length = items.countP (fun x => (fn x).2.isNone) ∧
      (∀ v ∈ res, ∃ x ∈ items, fn x = (v, none))) := by
  refine ⟨Map.terminates d elapsed funType items fn name hd, ?_⟩
  intro sched res err hret
  have hI := Map.Inv.map_exec hd sched Map.init
    (Map.Inv.map_init (V := V) d elapsed funType items fn name)
  obtain ⟨hperm, hnil, errMsg, hagg⟩ := Map.map_returned_facts hd hitems hI hret
  have hne : err ≠ none := by
    intro h
    obtain ⟨x, hx, hbad⟩ := hfail
    exact hbad (hnil.mp h x hx)
  refine ⟨⟨errMsg, ?_, ?_⟩, hperm, ?_, ?_⟩
  · intro h0
    apply hne
    rw [hagg, h0]
    rfl
  · rw [hagg]
    unfold aggregate
    split
    · rfl
    · rename_i h0
      exfalso
      apply hne
      rw [hagg]
      unfold aggregate
      rw [if_neg h0]
  · rw [hperm.length_eq, Map.length_filterMap_okValue]
  · intro v hv
    obtain ⟨x, hx, hxv⟩ := List.mem_filterMap.mp (hperm.subset hv)
    exact ⟨x, hx, Map.okValue_eq_some hxv⟩

set_option maxRecDepth 100000 in
theorem Map_partial_results_witness :
    (Map.exec 4 "1s" "func(int) (int, error)" [1, 2]
        (fun (x : Nat) => (x * 2, if x = 1 then some "one" else none)) ["m"]
        Map.exampleSchedule Map.init).ret
      = some ([4], some ("parallel job \x7b并行处理 func(int) (int, error) m\x7d fail ,time=1s," ++
          "err:task 0 execute failed: one")) ∧
    ((∃ errMsg, errMsg ≠ [] ∧
        some ("parallel job \x7b并行处理 func(int) (int, error) m\x7d fail ,time=1s," ++
          "err:task 0 execute failed: one") =
          some (aggregateHead (Map.runName "func(int) (int, error)" ["m"]) "1s" ++
                String.intercalate "," errMsg)) ∧
      [4].Perm (([1, 2] : List Nat).filterMap
        (Map.okValue (fun (x : Nat) => (x * 2, if x = 1 then some "one" else none)))) ∧
      [4].length = ([1, 2] : List Nat).countP
        (fun x => ((fun (x : Nat) => (x * 2, if x = 1 then some "one" else none)) x).2.isNone) ∧
      (∀ v ∈ [4], ∃ x ∈ ([1, 2] : List Nat),
        (fun (x : Nat) => (x * 2, if x = 1 then some "one" else none)) x = (v, none))) :=
  ⟨by decide,
    (Map_partial_results 4 "1s" "func(int) (int, error)" [1, 2]
      (fun (x : Nat) => (x * 2, if x = 1 then some "one" else none)) ["m"] (by decide)
      (by simp) ⟨1, by simp, by simp⟩).2
      Map.exampleSchedule [4]
      (some ("parallel job \x7b并行处理 func(int) (int, error) m\x7d fail ,time=1s," ++
          "err:task 0 execute failed: one")) (by decide)⟩

theorem count_filterMap_heldIndex {σ : Type} (i : Nat) :
    ∀ (l : List (WorkerState σ)),
      (l.filterMap WorkerState.heldIndex).count i = (l.map (WorkerState.holds i)).sum
  | [] => rfl
  | x :: l => by
    have ih := count_filterMap_heldIndex i l
    cases x <;>
      simp [List.filterMap_cons, WorkerState.heldIndex, WorkerState.holds, List.count_cons, ih]
    omega

theorem count_filterMap_pending {σ : Type} (m : String) :
    ∀ (l : List (WorkerState σ)),
      (l.filterMap WorkerState.pending).count m = (l.map (WorkerState.reports m)).sum
  | [] => rfl
  | x :: l => by
    have ih := count_filterMap_pending m l
    cases x <;>
      simp [List.filterMap_cons, WorkerState.pending, WorkerState.reports, List.count_cons, ih]
    omega

/-- Conservation of the envelopes: those in the channel, those held by workers
and those already called are the `sent` first ones. -/
theorem job.Inv.envelopes {σ : Type} {j : job σ} {elapsed : String} {s : JobState σ}
    (hI : j.Inv elapsed s) :
    (s.taskChan.map taskDetail.index ++ s.workers.filterMap WorkerState.heldIndex
        ++ s.log.map Prod.fst).Perm (List.range s.sent) := by
  rw [List.perm_iff_count]
  intro i
  have h1 := hI.idx i
  rw [List.count_append, List.count_append, count_filterMap_heldIndex,
    List.count_eq_of_nodup (List.nodup_range _)]
  simp only [List.mem_range]
  omega

/-- Conservation of the failure records. -/
theorem job.Inv.records {σ : Type} {j : job σ} {elapsed : String} {s : JobState σ}
    (hI : j.Inv elapsed s) :
    (s.errMsg ++ s.failTaskChan.map failTask.err ++ s.workers.filterMap WorkerState.pending).Perm
      (logFails s.log) := by
  rw [List.perm_iff_count]
  intro m
  have h1 := hI.fails m
  rw [List.count_append, List.count_append, count_filterMap_pending]
  omega

/-- A worker that reports a failure finds room in `failTaskChan`: the send does
not block. -/
theorem job.Inv.fail_room {σ : Type} {j : job σ} {elapsed : String} {s : JobState σ}
    (hI : j.Inv elapsed s) {k : Nat} {ft : failTask}
    (hk : s.workers[k]? = some (WorkerState.report ft)) :
    s.failTaskChan.length < j.task.length := by
  have h1 := hI.records.length_eq
  have h2 := hI.envelopes.length_eq
  have h3 : (logFails s.log).length ≤ s.log.length := by
    unfold logFails
    exact List.length_filterMap_le _ _
  have h4 : 0 < (s.workers.filterMap WorkerState.pending).length := by
    apply List.length_pos_of_mem (a := ft.err)
    exact List.mem_filterMap.mpr ⟨_, List.getElem?_mem hk, rfl⟩
  have h5 := hI.sent_le
  simp only [List.length_append, List.length_map, List.length_range] at h1 h2
  omega

/-- While a worker is about to call a task of `Map`, `respChan` holds fewer values
than its capacity `len(tasks)`: the send of the task does not block. -/
theorem Map.Inv.resp_room {T V : Type} {d : Int} {elapsed funType : String} {tasks : List T}
    {fn : T → V × Option String} {name : List String} {s : MapState V}
    (hI : Map.Inv d elapsed funType tasks fn name s)
    {j : job (List V)} {js : JobState (List V)} (hrun : s.run = some (j, js))
    {k : Nat} {td : taskDetail (List V)} (hk : js.workers[k]? = some (WorkerState.exec td)) :
    s.respChan.length < tasks.length := by
  obtain ⟨hstart, hIj, hvals⟩ := hI.run_inv j js hrun
  obtain ⟨-, htask, -, -, -⟩ := Run.start_built_inv hstart
  have h2 := hIj.envelopes.length_eq
  have h4 : 0 < (js.workers.filterMap WorkerState.heldIndex).length := by
    apply List.length_pos_of_mem (a := td.index)
    exact List.mem_filterMap.mpr ⟨_, List.getElem?_mem hk, rfl⟩
  have h5 := hIj.sent_le
  rw [htask, Map.taskFunc_length] at h5
  have h6 : (Map.vals tasks fn js.log).length ≤ js.log.length := by
    unfold Map.vals
    have := List.length_filterMap_le (Map.valueAt tasks fn) (js.log.map Prod.fst)
    simpa using this
  have h7 := congrArg List.length hvals
  simp only [List.length_append, List.length_map, List.length_range] at h2 h7
  omega

/-- A goroutine of the job moves only while `respChan` is open: no task sends on
the closed channel. -/
theorem Map.Inv.resp_open {T V : Type} {d : Int} {elapsed funType : String} {tasks : List T}
    {fn : T → V × Option String} {name : List String} {s : MapState V}
    (hI : Map.Inv d elapsed funType tasks fn name s)
    {j : job (List V)} {js : JobState (List V)} (hrun : s.run = some (j, js))
    {t1 : Thread} {c : JobState (List V) × List V}
    (hstep : j.step elapsed t1 js s.respChan = some c) : s.respClosed = false := by
  have h1 := (hI.stepJob hrun hstep).1
  cases hc : s.respClosed with
  | false => rfl
  | true =>
    have := hI.closed_iff.mp hc
    rw [h1] at this
    simp at this

/-- While a worker is about to report a failure the failure channel is open. -/
theorem job.Inv.report_open {σ : Type} {j : job σ} {elapsed : String} {s : JobState σ}
    (hI : j.Inv elapsed s) {k : Nat} {ft : failTask}
    (hk : s.workers[k]? = some (WorkerState.report ft)) : s.failClosed = false := by
  have hlt := sum_lt_length WorkerState.isDone WorkerState.isDone_le s.workers k _ hk
  have hdc := hI.done_count
  have hwl := hI.workers_len
  cases hw : s.watcher with
  | waiting i => exact (hI.watch_wait i hw).2.2
  | closing => exact (hI.watch_closing hw).2
  | finished =>
    simp only [hw, WatcherState.got, WorkerState.isDone] at hdc hlt
    omega

/-- A worker that is about to report a failure can do so at once. -/
theorem job.Inv.report_enabled {σ : Type} {j : job σ} {elapsed : String} {s : JobState σ}
    (hI : j.Inv elapsed s) {k : Nat} {ft : failTask}
    (hk : s.workers[k]? = some (WorkerState.report ft)) (w : σ) :
    j.step elapsed (Thread.worker k) s w =
      some ({ s with failTaskChan := s.failTaskChan ++ [ft]
                     workers := s.workers.set k WorkerState.recv }, w) := by
  have h1 := hI.report_open hk
  have h2 := hI.fail_room hk
  unfold job.step
  rw [if_neg (by simp [hI.not_crashed])]
  show j.stepWorker k s w = _
  unfold job.stepWorker
  rw [hk]
  show (if s.failClosed = true then _ else _) = _
  rw [if_neg (by simp [h1]), if_pos h2]

theorem job.Inv.records_le {σ : Type} {j : job σ} {elapsed : String} {s : JobState σ}
    (hI : j.Inv elapsed s) :
    s.errMsg.length + s.failTaskChan.length + (s.workers.filterMap WorkerState.pending).length
        = (logFails s.log).length ∧
      (logFails s.log).length ≤ s.log.length ∧ s.log.length ≤ j.task.length := by
  have h1 := hI.records.length_eq
  have h2 := hI.envelopes.length_eq
  have h3 : (logFails s.log).length ≤ s.log.length := by
    unfold logFails
    exact List.length_filterMap_le _ _
  have h5 := hI.sent_le
  simp only [List.length_append, List.length_map, List.length_range] at h1 h2
  refine ⟨by omega, h3, by omega⟩

theorem Map.Inv.pushed_le {T V : Type} {d : Int} {elapsed funType : String} {tasks : List T}
    {fn : T → V × Option String} {name : List String} {s : MapState V}
    (hI : Map.Inv d elapsed funType tasks fn name s) :
    s.res.length + s.respChan.length ≤ tasks.length := by
  cases hrun : s.run with
  | none =>
    obtain ⟨h1, h2⟩ := hI.run_none hrun
    rw [h1, h2]
    simp
  | some p =>
    obtain ⟨j, js⟩ := p
    obtain ⟨hstart, hIj, hvals⟩ := hI.run_inv j js hrun
    obtain ⟨-, htask, -, -, -⟩ := Run.start_built_inv hstart
    have h3 := hIj.records_le.2.2
    rw [htask, Map.taskFunc_length] at h3
    have h6 : (Map.vals tasks fn js.log).length ≤ js.log.length := by
      unfold Map.vals
      have := List.length_filterMap_le (Map.valueAt tasks fn) (js.log.map Prod.fst)
      simpa using this
    have h7 := congrArg List.length hvals
    simp only [List.length_append] at h7
    omega

/-- C18: in every state of every run of `job.run` (non-negative `parallelSize`),
the failure records sent so far, those in the channel and those about to be sent
are together as many as the failed calls, at most one per task, hence at most
`len(tasks)`: the failure channel never holds more than its capacity and a worker
that reports a failure finds room and moves at once.  In every state of every run
of `Map` (with `defaultParallelSize ≥ 1`) the values pushed on `respChan` are at
most `len(items)`, and while a worker is about to call a task the channel holds
fewer values than its capacity. -/
theorem channels_never_exceed_capacity {σ T V : Type} (j : job σ) (elapsed : String)
    (d : Int) (funType : String) (items : List T) (fn : T → V × Option String)
    (name : List String) (hsz : 0 ≤ j.parallelSize) (hd : 1 ≤ d) :
    (∀ sched w,
      (j.exec elapsed sched (j.init, w)).1.errMsg.length
          + (j.exec elapsed sched (j.init, w)).1.failTaskChan.length
          + ((j.exec elapsed sched (j.init, w)).1.workers.filterMap WorkerState.pending).length
        = (logFails (j.exec elapsed sched (j.init, w)).1.log).length ∧
      (logFails (j.exec elapsed sched (j.init, w)).1.log).length
        ≤ (j.exec elapsed sched (j.init, w)).1.log.length ∧
      (j.exec elapsed sched (j.init, w)).1.log.length ≤ j.task.length ∧
      ((j.exec elapsed sched (j.init, w)).1.log.map Prod.fst).Nodup ∧
      (j.exec elapsed sched (j.init, w)).1.failTaskChan.length ≤ j.task.length ∧
      (∀ (k : Nat) (ft : failTask),
        (j.exec elapsed sched (j.init, w)).1.workers[k]? = some (WorkerState.report ft) →
        (j.exec elapsed sched (j.init, w)).1.failTaskChan.length < j.task.length ∧
        (j.step elapsed (Thread.worker k) (j.exec elapsed sched (j.init, w)).1
          (j.exec elapsed sched (j.init, w)).2).isSome = true)) ∧
    (∀ sched,
      (Map.exec d elapsed funType items fn name sched (Map.init : MapState V)).res.length
          + (Map.exec d elapsed funType items fn name sched Map.init).respChan.length
        ≤ items.length ∧
      (∀ (j1 : job (List V)) (js : JobState (List V)) (k : Nat) (td : taskDetail (List V)),
        (Map.exec d elapsed funType items fn name sched (Map.init : MapState V)).run
            = some (j1, js) →
        js.workers[k]? = some (WorkerState.exec td) →
        (Map.exec d elapsed funType items fn name sched Map.init).respChan.length
          < items.length)) := by
  constructor
  · intro sched w
    have hI := job.Inv.exec sched (j.init, w) (job.Inv.init j elapsed hsz)
    obtain ⟨h1, h2, h3⟩ := hI.records_le
    refine ⟨h1, h2, h3, hI.log_nodup, by omega, ?_⟩
    intro k ft hk
    refine ⟨hI.fail_room hk, ?_⟩
    rw [hI.report_enabled hk]
    rfl
  · intro sched
    have hI := Map.Inv.map_exec hd sched Map.init
      (Map.Inv.map_init (V := V) d elapsed funType items fn name)
    refine ⟨hI.pushed_le, ?_⟩
    intro j1 js k td hrun hk
    exact hI.resp_room hrun hk

theorem channels_never_exceed_capacity_witness :
    (∀ sched w,
      (job.exec { name := "job", task := [fun (w : Nat) => (w + 1, none), fun w => (w, some "x")],
                  parallelSize := 2 } "1s" sched
        (job.init { name := "job",
                    task := [fun (w : Nat) => (w + 1, none), fun w => (w, some "x")],
                    parallelSize := 2 }, w)).1.failTaskChan.length ≤ 2) ∧
    (Map.exec 4 "1s" "func(int) (int, error)" [1, 2]
        (fun (x : Nat) => (x * 2, (none : Option String))) [] Map.exampleSchedule
        Map.init).res.length
      + (Map.exec 4 "1s" "func(int) (int, error)" [1, 2]
        (fun (x : Nat) => (x * 2, (none : Option String))) [] Map.exampleSchedule
        Map.init).respChan.length ≤ 2 :=
  ⟨fun sched w =>
      ((channels_never_exceed_capacity
        { name := "job", task := [fun (w : Nat) => (w + 1, none), fun w => (w, some "x")],
          parallelSize := 2 } "1s" 4 "func(int) (int, error)" [1, 2]
        (fun (x : Nat) => (x * 2, (none : Option String))) [] (by decide) (by decide)).1
        sched w).2.2.2.2.1,
    ((channels_never_exceed_capacity
        { name := "job", task := [fun (w : Nat) => (w + 1, none), fun w => (w, some "x")],
          parallelSize := 2 } "1s" 4 "func(int) (int, error)" [1, 2]
        (fun (x : Nat) => (x * 2, (none : Option String))) [] (by decide) (by decide)).2
        Map.exampleSchedule).1⟩

theorem count_eq_zero_all {l : List Nat} (h : ∀ i, l.count i = 0) : l = [] := by
  cases l with
  | nil => rfl
  | cons a t =>
    have := h a
    simp at this

/-- A job without worker calls no task, keeps the world and returns nil. -/
theorem job.Inv.no_worker_facts {σ : Type} {j : job σ} {elapsed : String}
    {c : JobState σ × σ} {w : σ} (hI : j.Inv elapsed c.1) (hT : j.Traced w c)
    (hcap : j.cap = 0) :
    c.1.workers = [] ∧ c.1.sent = 0 ∧ c.1.log = [] ∧ c.2 = w ∧
      ∀ r, c.1.result = some r → r = none := by
  have hw : c.1.workers = [] := List.length_eq_zero.mp (by rw [hI.workers_len, hcap])
  have hs := hI.no_worker hcap
  have hlog : c.1.log = [] := by
    have h0 : c.1.log.map Prod.fst = [] := by
      apply count_eq_zero_all
      intro i
      have h1 := hI.idx i
      rw [hs] at h1
      simp only [Nat.not_lt_zero, if_false] at h1
      omega
    simpa using h0
  refine ⟨hw, hs, hlog, ?_, ?_⟩
  · unfold job.Traced at hT
    rw [hlog] at hT
    simp only [List.map_nil, replay, Prod.mk.injEq] at hT
    exact hT.1.symm
  · intro r hr
    obtain ⟨hagg, hfp, -⟩ := hI.returned hr
    rw [hlog] at hfp
    have : c.1.errMsg = [] := by
      have := hfp.length_eq
      simpa [logFails] using this
    rw [hagg, this]
    rfl

/-- C19: with `defaultParallelSize ≥ 0`, a non-empty name and a non-empty task
list, `Run(name, tasks, 0)` builds a job with `parallelSize = 0` and no worker;
under every schedule no task is called and the world is left as it was, `Run`
returns, and what it returns is `nil`, whatever the tasks would return. -/
theorem Run_zero_parallelism_returns_nil {σ : Type} (d : Int) (elapsed name : String)
    (tasks : List (Func σ)) (rest : List Int) (hd : 0 ≤ d) (hname : name ≠ "")
    (htasks : tasks ≠ []) :
    (∃ j, Run.start d name tasks (0 :: rest) = RunStart.built j ∧ j.parallelSize = 0 ∧
      j.init.workers = [] ∧
      ∀ sched w, (j.exec elapsed sched (j.init, w)).1.workers = []) ∧
    Run.Terminates d elapsed name tasks (0 :: rest) ∧
    (∀ sched w,
      (Run.exec d elapsed name tasks (0 :: rest) sched w).calls = [] ∧
      (Run.exec d elapsed name tasks (0 :: rest) sched w).world = w ∧
      (Run.exec d elapsed name tasks (0 :: rest) sched w).crashed = false ∧
      (∀ r, (Run.exec d elapsed name tasks (0 :: rest) sched w).returned = some r →
        r = none)) ∧
    (∀ w, (Run.exec d elapsed name tasks (0 :: rest)
        [Thread.watcher, Thread.watcher, Thread.main] w).returned = some none) := by
  have hn : 0 < tasks.length := List.length_pos.mpr htasks
  have hu : useParallelSize d tasks.length (0 :: rest) = 0 := by
    rw [useParallelSize_eq]
    simp only
    omega
  have hs := Run.start_built d name tasks (0 :: rest) hname htasks (by omega)
  rw [hu] at hs
  have hcap : (job.cap { name := name, task := tasks, parallelSize := 0 } : Nat) = 0 := rfl
  have hfacts := fun sched w =>
    (job.Inv.no_worker_facts (Run.exec_inv elapsed hs sched w).1
      (Run.exec_inv elapsed hs sched w).2 hcap)
  refine ⟨⟨_, hs, rfl, rfl, fun sched w => (hfacts sched w).1⟩,
    Run.terminates_of_built hs, ?_, ?_⟩
  · intro sched w
    simp only [Run.exec, hs]
    obtain ⟨-, -, h3, h4, h5⟩ := hfacts sched w
    exact ⟨h3, h4, (Run.exec_inv elapsed hs sched w).1.not_crashed, h5⟩
  · intro w
    simp only [Run.exec, hs]
    rfl

theorem Run_zero_parallelism_returns_nil_witness :
    (∀ sched w,
      (Run.exec 4 "1s" "job" [fun (w : Nat) => (w + 1, some "boom")] [0] sched w).calls = [] ∧
      (Run.exec 4 "1s" "job" [fun (w : Nat) => (w + 1, some "boom")] [0] sched w).world = w ∧
      (Run.exec 4 "1s" "job" [fun (w : Nat) => (w + 1, some "boom")] [0] sched w).crashed
        = false ∧
      (∀ r, (Run.exec 4 "1s" "job" [fun (w : Nat) => (w + 1, some "boom")] [0]
          sched w).returned = some r → r = none)) ∧
    (∀ w, (Run.exec 4 "1s" "job" [fun (w : Nat) => (w + 1, some "boom")] [0]
        [Thread.watcher, Thread.watcher, Thread.main] w).returned = some none) :=
  (Run_zero_parallelism_returns_nil 4 "1s" "job" [fun (w : Nat) => (w + 1, some "boom")] []
    (by decide) (by decide) (by simp)).2.2

theorem Map.start_of_empty {T V : Type} (d : Int) (funType : String)
    (fn : T → V × Option String) (name : List String) :
    Run.start d (Map.runName funType name) (Map.taskFunc ([] : List T) fn) [d]
      = RunStart.invalid "任务数量为空" := by
  have h1 := name_length_ne_zero (Map.runName_ne funType name)
  unfold Run.start
  rw [if_neg h1]
  rfl

/-- C20: for an empty `items`, `Foreach` returns one of the two early errors of `Run`
(a non-nil error) without building a job: no task, hence no call of `fn`.  `Map`
returns under every schedule, never builds a job (no call of `fn`), and what it
returns is no value together with the empty-task error of `Run`.  For any `items`,
the name `Map` passes to `Run` is not empty, so when `Run` rejects the call of
`Map` it is for the empty task list. -/
theorem Foreach_Map_reject_empty_items {T V σ : Type} (d : Int) (elapsed funType : String)
    (fnE : T → Func σ) (fnM : T → V × Option String) (name : List String) :
    (∀ sched w, ∃ e,
      Run.start d (Foreach.taskName name) (Foreach.taskFunc ([] : List T) fnE) [d]
        = RunStart.invalid e ∧
      (Foreach.exec d elapsed ([] : List T) fnE name sched w).returned = some (some e) ∧
      (Foreach.exec d elapsed ([] : List T) fnE name sched w).calls = [] ∧
      (Foreach.exec d elapsed ([] : List T) fnE name sched w).world = w) ∧
    Map.Terminates d elapsed funType ([] : List T) fnM name ∧
    (∀ sched,
      (Map.exec d elapsed funType ([] : List T) fnM name sched Map.init).run = none ∧
      (Map.exec d elapsed funType ([] : List T) fnM name sched Map.init).crashed = false ∧
      (∀ res err,
        (Map.exec d elapsed funType ([] : List T) fnM name sched Map.init).ret
          = some (res, err) →
        res = [] ∧ err = some "任务数量为空")) ∧
    (∀ (items : List T), Map.runName funType name ≠ "" ∧
      ∀ e, Run.start d (Map.runName funType name) (Map.taskFunc items fnM) [d]
          = RunStart.invalid e →
        items = [] ∧ e = "任务数量为空") := by
  have hstart := Map.start_of_empty (T := T) d funType fnM name
  have hnp : Run.start d (Map.runName funType name) (Map.taskFunc ([] : List T) fnM) [d]
      ≠ RunStart.panicked := by
    rw [hstart]
    simp
  refine ⟨?_, Map.terminates_of_start d elapsed funType [] fnM name hnp, ?_, ?_⟩
  · intro sched w
    have hs : ∃ e, Run.start d (Foreach.taskName name) (Foreach.taskFunc ([] : List T) fnE) [d]
        = RunStart.invalid e := by
      unfold Run.start
      by_cases hn : (Foreach.taskName name).length = 0
      · exact ⟨"任务名称为空", by rw [if_pos hn]⟩
      · exact ⟨"任务数量为空", by rw [if_neg hn]; rfl⟩
    obtain ⟨e, he⟩ := hs
    exact ⟨e, he, by simp [Foreach.exec, Run.exec, he], by simp [Foreach.exec, Run.exec, he],
      by simp [Foreach.exec, Run.exec, he]⟩
  · intro sched
    have hI := Map.Inv.map_exec_of_start hnp sched Map.init
      (Map.Inv.map_init (V := V) d elapsed funType ([] : List T) fnM name)
    have hrun : (Map.exec d elapsed funType ([] : List T) fnM name sched Map.init).run
        = none := by
      cases hr : (Map.exec d elapsed funType ([] : List T) fnM name sched Map.init).run with
      | none => rfl
      | some p =>
        obtain ⟨j, js⟩ := p
        have := (hI.run_inv j js hr).1
        rw [hstart] at this
        simp at this
    refine ⟨hrun, hI.not_crashed, ?_⟩
    intro res err hret
    obtain ⟨hres, herr, hcol⟩ := hI.ret_eq res err hret
    obtain ⟨hclosed, -⟩ := hI.collected (by rw [hcol]; simp)
    have hfin := hI.closed_iff.mp hclosed
    obtain ⟨e, he, hee⟩ := hI.after_none (Or.inr hfin) hrun
    rw [hstart] at he
    simp only [RunStart.invalid.injEq] at he
    refine ⟨by rw [hres]; exact (hI.run_none hrun).2, ?_⟩
    rw [herr, hee, he]
  · intro items
    refine ⟨Map.runName_ne funType name, ?_⟩
    intro e he
    have h1 := name_length_ne_zero (Map.runName_ne funType name)
    unfold Run.start at he
    rw [if_neg h1] at he
    split at he
    · rename_i h2
      simp only [RunStart.invalid.injEq] at he
      rw [Map.taskFunc_length] at h2
      exact ⟨List.length_eq_zero.mp h2, he.symm⟩
    · simp only at he
      split at he <;> simp at he

end parallel

/-! ## Properties of the slice helpers -/

namespace fn

theorem Unique_loop_empty {V : Type} :
    ∀ (list result : List V), Unique.loop GoMap.empty list result = result ++ list
  | [], result => by simp [Unique.loop]
  | v :: rest, result => by
    simp only [Unique.loop, GoMap.has, GoMap.empty, Option.isSome_none, Bool.not_false, if_true]
    rw [Unique_loop_empty rest (result ++ [v])]
    simp

/-- C11: `Unique` never writes to `tmpMap`, so every element passes the test and
the result is the input list, duplicates included: `Unique([1, 1]) = [1, 1]`. -/
theorem Unique_returns_its_input :
    (∀ (V : Type) (list : List V), Unique list = list) ∧
    Unique [1, 1] = [1, 1] ∧ ¬ (Unique [1, 1]).Nodup := by
  refine ⟨?_, by decide, by decide⟩
  intro V list
  unfold Unique
  rw [Unique_loop_empty]
  simp

theorem fillSet_has {T : Type} [DecidableEq T] :
    ∀ (l : List T) (m : GoMap T Unit) (x : T),
      (fillSet l m).has x = true ↔ x ∈ l ∨ m.has x = true
  | [], m, x => by simp [fillSet]
  | v :: rest, m, x => by
    rw [fillSet, fillSet_has rest (m.set v ()) x]
    simp only [GoMap.has, GoMap.set, List.mem_cons]
    by_cases h : x = v
    · simp [h]
    · simp [h]

theorem ContainsAll_check_iff {T : Type} (parentMap : GoMap T Unit) :
    ∀ (child : List T),
      ContainsAll.check parentMap child = true ↔ ∀ x ∈ child, parentMap.has x = true
  | [] => by simp [ContainsAll.check]
  | v :: rest => by
    have ih := ContainsAll_check_iff parentMap rest
    simp only [ContainsAll.check, List.mem_cons, forall_eq_or_imp]
    cases h : parentMap.has v <;> simp [ih]

theorem ContainsAll_iff {T : Type} [DecidableEq T] (parent child : List T) :
    ContainsAll parent child = true ↔
      child = [] ∨ (child.length ≤ parent.length ∧ ∀ x ∈ child, x ∈ parent) := by
  unfold ContainsAll
  split
  · rename_i h
    simp [List.length_eq_zero.mp h]
  · rename_i h
    have hne : child ≠ [] := fun h0 => h (by rw [h0]; rfl)
    split
    · rename_i h1
      simp only [Bool.false_eq_true, false_iff, not_or, not_and]
      exact ⟨hne, fun h2 => by omega⟩
    · rename_i h1
      have hs : ∀ x, (fillSet parent GoMap.empty).has x = true ↔ x ∈ parent := by
        intro x
        rw [fillSet_has]
        simp [GoMap.has, GoMap.empty]
      rw [ContainsAll_check_iff]
      simp only [hs]
      constructor
      · intro h2
        exact Or.inr ⟨by omega, h2⟩
      · rintro (h2 | ⟨-, h2⟩)
        · exact absurd h2 hne
        · exact h2

/-- C12: `ContainsAll([1], [1, 1])` is `false` although every element of the
child occurs in the parent: the early `return false` for a parent shorter than
the child refuses it.  In general `ContainsAll(parent, child)` is true exactly
when the child is empty, or it is not longer than the parent and each of its
elements occurs in the parent. -/
theorem ContainsAll_rejects_shorter_parent :
    ContainsAll [1] [1, 1] = false ∧ (∀ x ∈ [1, 1], x ∈ [1]) ∧
    (∀ (T : Type) (_ : DecidableEq T) (parent child : List T),
      ContainsAll parent child = true ↔
        child = [] ∨ (child.length ≤ parent.length ∧ ∀ x ∈ child, x ∈ parent)) :=
  ⟨by decide, by decide, fun _ _ parent child => ContainsAll_iff parent child⟩

theorem Contains_iff {T : Type} [DecidableEq T] :
    ∀ (slice : List T) (target : T), Contains slice target = true ↔ target ∈ slice
  | [], target => by simp [Contains]
  | item :: rest, target => by
    have ih := Contains_iff rest target
    simp only [Contains, List.mem_cons]
    by_cases h : item = target
    · simp [h]
    · have h1 : ¬ target = item := fun h2 => h h2.symm
      simp [h, h1, ih]

theorem AddIfNotExist_loop_eq {T : Type} [DecidableEq T] (list : List T) :
    ∀ (elem res : List T),
      AddIfNotExist.loop list elem res = res ++ elem.filter (fun x => decide (x ∉ list))
  | [], res => by simp [AddIfNotExist.loop]
  | item :: rest, res => by
    simp only [AddIfNotExist.loop, List.filter_cons]
    by_cases h : item ∈ list
    · have hc : Contains list item = true := (Contains_iff list item).mpr h
      simp [hc, h, AddIfNotExist_loop_eq list rest res]
    · have hc : Contains list item = false := by
        cases hc : Contains list item
        · rfl
        · exact absurd ((Contains_iff list item).mp hc) h
      simp [hc, h, AddIfNotExist_loop_eq list rest (res ++ [item])]

/-- C13: `AddIfNotExist(["a"], "d", "d")` is `["a", "d", "d"]`: the test is made
on the original `list`, not on the slice being built, so a value repeated in
`elem` is appended each time and a duplicate-free list yields a result with a
duplicate.  In general the result is `list` followed by the values of `elem`
that do not occur in `list`, in their order and with their repetitions. -/
theorem AddIfNotExist_appends_repeated_value :
    AddIfNotExist ["a"] ["d", "d"] = ["a", "d", "d"] ∧ ["a"].Nodup ∧
    ¬ (AddIfNotExist ["a"] ["d", "d"]).Nodup ∧
    (∀ (T : Type) (_ : DecidableEq T) (list elem : List T),
      AddIfNotExist list elem = list ++ elem.filter (fun x => decide (x ∉ list))) := by
  refine ⟨by decide, by decide, by decide, ?_⟩
  intro T _ list elem
  unfold AddIfNotExist
  split
  · rename_i h
    simp [List.length_eq_zero.mp h]
  · exact AddIfNotExist_loop_eq list elem list

theorem Intersection_loop_mem {T : Type} [DecidableEq T] :
    ∀ (b : List T) (m : GoMap T Unit) (acc : List T) (x : T),
      x ∈ Intersection.loop b m acc ↔ x ∈ acc ∨ (x ∈ b ∧ m.has x = true)
  | [], m, acc, x => by simp [Intersection.loop]
  | v :: rest, m, acc, x => by
    unfold Intersection.loop
    split
    · rename_i hv
      rw [Intersection_loop_mem rest (m.delete v) (acc ++ [v]) x]
      simp only [List.mem_append, List.mem_singleton, List.mem_cons, GoMap.has, GoMap.delete]
      by_cases h : x = v
      · subst h
        simp only [GoMap.has] at hv
        simp [hv]
      · simp [h]
    · rename_i hv
      rw [Intersection_loop_mem rest m acc x]
      simp only [List.mem_cons]
      by_cases h : x = v
      · subst h
        simp [hv]
      · simp [h]

theorem Intersection_loop_nodup {T : Type} [DecidableEq T] :
    ∀ (b : List T) (m : GoMap T Unit) (acc : List T), acc.Nodup →
      (∀ x ∈ acc, m.has x = false) → (Intersection.loop b m acc).Nodup
  | [], _, acc, h, _ => by simpa [Intersection.loop] using h
  | v :: rest, m, acc, h, hm => by
    unfold Intersection.loop
    split
    · rename_i hv
      apply Intersection_loop_nodup rest (m.delete v) (acc ++ [v])
      · rw [List.nodup_append]
        refine ⟨h, by simp, ?_⟩
        intro a ha hb
        simp only [List.mem_singleton] at hb
        subst hb
        rw [hm a ha] at hv
        simp at hv
      · intro x hx
        simp only [GoMap.has, GoMap.delete]
        rcases List.mem_append.mp hx with h1 | h1
        · by_cases h2 : x = v
          · simp [h2]
          · have := hm x h1
            simp only [GoMap.has] at this
            simp [h2, this]
        · simp only [List.mem_singleton] at h1
          simp [h1]
    · exact Intersection_loop_nodup rest m acc h hm

/-- C14: a value occurs in `Intersection(a, b)` if and only if it occurs in `a` and
in `b`, and no value occurs in the result twice, whatever the duplicates of `a`
and `b`. -/
theorem Intersection_mem_iff_and_nodup {T : Type} [DecidableEq T] (a b : List T) :
    (∀ x, x ∈ Intersection a b ↔ x ∈ a ∧ x ∈ b) ∧ (Intersection a b).Nodup := by
  have hs : ∀ x, (fillSet a GoMap.empty).has x = true ↔ x ∈ a := by
    intro x
    rw [fillSet_has]
    simp [GoMap.has, GoMap.empty]
  constructor
  · intro x
    unfold Intersection
    rw [Intersection_loop_mem, hs]
    simp only [List.not_mem_nil, false_or]
    tauto
  · exact Intersection_loop_nodup b _ [] List.nodup_nil (by simp)

theorem Filter_loop_eq {T : Type} (p : T → Bool) :
    ∀ (slice result : List T), Filter.loop p slice result = result ++ slice.filter p
  | [], result => by simp [Filter.loop]
  | item :: rest, result => by
    unfold Filter.loop
    cases h : p item
    · simp [h, Filter_loop_eq p rest result]
    · simp [h, Filter_loop_eq p rest (result ++ [item])]

/-- C15: `Filter(slice, p)` is the list filter of `slice` by `p` (the elements that
satisfy `p`, in their order and with their multiplicity), and `FindAll(slice, p)`
is that same list together with `found`, which is true exactly when the list is
not empty. -/
theorem Filter_eq_filter_and_FindAll {T : Type} (slice : List T) (p : T → Bool) :
    Filter slice p = slice.filter p ∧
    (FindAll slice p).1 = slice.filter p ∧
    ((FindAll slice p).2 = true ↔ slice.filter p ≠ []) := by
  refine ⟨?_, ?_, ?_⟩
  · unfold Filter
    rw [Filter_loop_eq]
    simp
  · unfold FindAll
    simp only [Filter_loop_eq]
    simp
  · unfold FindAll
    simp only [Filter_loop_eq, List.nil_append, decide_eq_true_eq]
    exact List.length_pos

theorem Find_eq_find {T : Type} [Inhabited T] :
    ∀ (slice : List T) (m : T → Bool),
      Find slice m =
        match slice.find? m with
        | some x => (x, true)
        | none => (default, false)
  | [], m => by simp [Find]
  | item :: rest, m => by
    unfold Find
    rw [List.find?_cons]
    cases h : m item
    · simp only [Bool.false_eq_true, if_false]
      exact Find_eq_find rest m
    · simp

/-- C16: when some element of `slice` satisfies `m`, `Find(slice, m)` is
`(x, true)` for the first such element `x` (every element before it fails `m`);
`Find` returns the zero value and `false` if and only if no element satisfies
`m`. -/
theorem Find_returns_first_match {T : Type} [Inhabited T] (slice : List T) (m : T → Bool) :
    ((∃ y ∈ slice, m y = true) →
      ∃ pre x post, slice = pre ++ x :: post ∧ m x = true ∧ (∀ y ∈ pre, m y = false) ∧
        Find slice m = (x, true)) ∧
    (Find slice m = (default, false) ↔ ∀ y ∈ slice, m y = false) := by
  have hf := Find_eq_find slice m
  constructor
  · rintro ⟨y, hy, hmy⟩
    cases hfind : slice.find? m with
    | none =>
      have := List.find?_eq_none.mp hfind y hy
      exact absurd hmy this
    | some x =>
      rw [hfind] at hf
      obtain ⟨hx, pre, post, hsplit, hpre⟩ := List.find?_eq_some.mp hfind
      refine ⟨pre, x, post, hsplit, hx, ?_, hf⟩
      intro z hz
      have := hpre z hz
      simpa using this
  · cases hfind : slice.find? m with
    | none =>
      rw [hfind] at hf
      have := List.find?_eq_none.mp hfind
      simp only [hf, true_iff]
      intro y hy
      simpa using this y hy
    | some x =>
      rw [hfind] at hf
      have hx := List.find?_some hfind
      have hmem := List.mem_of_find?_eq_some hfind
      simp only [hf, Prod.mk.injEq, Bool.true_eq_false, and_false, false_iff]
      intro h
      rw [h x hmem] at hx
      simp at hx

theorem GroupToMap_loop_eq {K V : Type} [DecidableEq K] (keyFunc : V → K) (k : K) :
    ∀ (list : List V) (m : GoMap K (List V)),
      GroupToMap.loop keyFunc list m k =
        if (list.filter (fun x => decide (keyFunc x = k))).isEmpty then m k
        else some ((m k).getD [] ++ list.filter (fun x => decide (keyFunc x = k)))
  | [], m => by simp [GroupToMap.loop]
  | item :: rest, m => by
    simp only [GroupToMap.loop]
    rw [GroupToMap_loop_eq keyFunc k rest]
    by_cases h : keyFunc item = k
    · subst h
      simp only [GoMap.set, if_true, Option.getD_some, List.filter_cons, decide_True,
        List.append_assoc, List.singleton_append, List.isEmpty_cons]
      split
      · rename_i h0
        rw [List.isEmpty_iff.mp h0]
        simp
      · simp
    · have h1 : ¬ k = keyFunc item := fun h2 => h h2.symm
      simp only [GoMap.set, h1, if_false, List.filter_cons, h, decide_False]
      simp

theorem GroupToMap_apply {K V : Type} [DecidableEq K] (list : List V) (keyFunc : V → K)
    (k : K) :
    GroupToMap list keyFunc k =
      if (list.filter (fun x => decide (keyFunc x = k))).isEmpty then none
      else some (list.filter (fun x => decide (keyFunc x = k))) := by
  unfold GroupToMap
  rw [GroupToMap_loop_eq]
  simp [GoMap.empty]

/-- C17: the keys of `GroupToMap(list, keyFunc)` are exactly the keys that
`keyFunc` takes on `list`; the group of a key `k` is the list of the elements of
`list` whose key is `k`, in their order; every element is in the group of its
key; and the lengths of the groups of the distinct keys sum to `len(list)`. -/
theorem GroupToMap_groups {K V : Type} [DecidableEq K] (list : List V) (keyFunc : V → K) :
    (∀ k, (GroupToMap list keyFunc k).isSome = true ↔ ∃ x ∈ list, keyFunc x = k) ∧
    (∀ k g, GroupToMap list keyFunc k = some g →
      g = list.filter (fun x => decide (keyFunc x = k))) ∧
    (∀ x ∈ list, ∃ g, GroupToMap list keyFunc (keyFunc x) = some g ∧ x ∈ g) ∧
    (((list.map keyFunc).dedup.map
        (fun k => ((GroupToMap list keyFunc k).getD []).length)).sum = list.length) := by
  have hne : ∀ k, (list.filter (fun x => decide (keyFunc x = k))).isEmpty = false ↔
      ∃ x ∈ list, keyFunc x = k := by
    intro k
    rw [← Bool.not_eq_true, List.isEmpty_iff, ← ne_eq, ← List.length_pos,
      List.length_pos_iff_exists_mem]
    simp [List.mem_filter]
  refine ⟨?_, ?_, ?_, ?_⟩
  · intro k
    rw [GroupToMap_apply, ← hne k]
    cases (list.filter (fun x => decide (keyFunc x = k))).isEmpty <;> simp
  · intro k g hg
    rw [GroupToMap_apply] at hg
    split at hg
    · simp at hg
    · simp only [Option.some.injEq] at hg
      exact hg.symm
  · intro x hx
    refine ⟨list.filter (fun y => decide (keyFunc y = keyFunc x)), ?_, ?_⟩
    · rw [GroupToMap_apply, (hne (keyFunc x)).mpr ⟨x, hx, rfl⟩]
      simp
    · simp [List.mem_filter, hx]
  · have hlen : ∀ k, ((GroupToMap list keyFunc k).getD []).length =
        (list.map keyFunc).count k := by
      intro k
      rw [GroupToMap_apply, List.count_eq_countP, List.countP_map, List.countP_eq_length_filter]
      have hfun : ((fun x => x == k) ∘ keyFunc) = (fun x => decide (keyFunc x = k)) := by
        funext x
        simp only [Function.comp]
        by_cases h : keyFunc x = k <;> simp [h]
      rw [hfun]
      split
      · rename_i h0
        rw [List.isEmpty_iff.mp h0]
        rfl
      · rfl
    simp only [hlen]
    have := List.sum_map_count_dedup_eq_length (list.map keyFunc)
    simpa using this

end fn
